import Mathlib

/-!
batoid: quadratic solver and ray kinematics.

Shallow embedding of `src/utils.cpp` (`solveQuadratic`) and of the inline members of
`include/ray.h`.  The members that `ray.h` only declares, and the vector type of `vec3.h`,
are modelled from the specification and marked so.  The two reference parameters `r1`,
`r2` of `solveQuadratic` become explicit state: the values of the slots before the call
are arguments, the values after the call are fields of the result.

The sources are embedded twice.

The first embedding is generic over a linearly ordered field: arithmetic is exact, the
theorems instantiate the field with `ℝ`, and the square root of `<cmath>` is passed to the
embedding as a function, instantiated with `Real.sqrt`.  It carries the properties that
are decided by comparisons on the inputs or that say which expression's value is written,
and the counterexamples that arise in exact arithmetic already.

The second embedding, in the namespaces `batoid.fp` and `jtrace.fp`, computes in an
executable model of IEEE 754 binary64 (namespace `ieee`): a value is a NaN, a signed
infinity, or a sign bit with a rational magnitude; every operation delivers the exact
result rounded to nearest, ties to even, with overflow to the infinities, signed zeros and
NaN.  The properties that depend on rounding are stated on this embedding.
-/

namespace batoid

/-- Source: `constexpr double TOLERANCE = 1.0e-15;` -/
def TOLERANCE {α : Type} [LinearOrderedField α] : α := 1.0e-15

/-- Source: `inline bool IsZero(double x) { return (fabs(x) < TOLERANCE); }` -/
def IsZero {α : Type} [LinearOrderedField α] (x : α) : Bool :=
  decide (|x| < TOLERANCE)

/-- What a call of `solveQuadratic` leaves behind: the returned `int` and the contents of
the two output slots `r1`, `r2` after the call. -/
structure Roots (α : Type) where
  n : Int
  r1 : α
  r2 : α

/-- Source: `int solveQuadratic(double a, double b, double c, double& r1, double& r2)`.
The arguments `r1 r2` are the contents of the slots before the call. -/
def solveQuadratic {α : Type} [LinearOrderedField α] (sqrt : α → α)
    (a b c r1 r2 : α) : Roots α :=
  if IsZero a then
    -- No quadratic term.  Linear equation.
    if IsZero b then
      -- Solve c=0 for x.
      ⟨0, r1, r2⟩
    else
      ⟨1, -c / b, r2⟩
  else if IsZero c then
    -- No constant term.
    let r1 : α := 0
    let r2 : α := -b / a
    if r2 < 0 then
      -- std::swap(r1, r2)
      ⟨2, r2, r1⟩
    else
      ⟨2, r1, r2⟩
  else
    let discriminant := b * b - 4.0 * a * c
    if IsZero discriminant then
      ⟨1, -b / (2.0 * a), -b / (2.0 * a)⟩
    else if discriminant < 0.0 then
      ⟨0, r1, r2⟩
    else
      if b > 0 then
        let r1 := (-b - sqrt discriminant) / (2 * a)
        let r2 := c / (a * r1)
        ⟨2, r1, r2⟩
      else
        let r1 := 2 * c / (-b + sqrt discriminant)
        let r2 := c / (a * r1)
        ⟨2, r1, r2⟩

end batoid

namespace jtrace

/-- Source: `const double PI = 3.14159265358979323846;` -/
def PI {α : Type} [LinearOrderedField α] : α := 3.14159265358979323846

/-- Modelled from the spec: the 3-vector type of `vec3.h`, which `ray.h` includes and which
is not among the sources.  The spec describes it as a 3D vector with addition,
subtraction, scalar multiplication/division and magnitude, all with the standard
real-vector-space meaning; `ray.h` reads its components as `x`, `y`, `z`. -/
structure Vec3 (α : Type) where
  x : α
  y : α
  z : α

/-- Modelled from the spec: `Vec3 + Vec3` of `vec3.h`, componentwise. -/
def Vec3.add {α : Type} [LinearOrderedField α] (u v : Vec3 α) : Vec3 α :=
  ⟨u.x + v.x, u.y + v.y, u.z + v.z⟩

/-- Modelled from the spec: `Vec3 - Vec3` of `vec3.h`, componentwise. -/
def Vec3.sub {α : Type} [LinearOrderedField α] (u v : Vec3 α) : Vec3 α :=
  ⟨u.x - v.x, u.y - v.y, u.z - v.z⟩

/-- Modelled from the spec: `double * Vec3` of `vec3.h`, scalar multiplication. -/
def Vec3.smul {α : Type} [LinearOrderedField α] (s : α) (v : Vec3 α) : Vec3 α :=
  ⟨s * v.x, s * v.y, s * v.z⟩

/-- Modelled from the spec: `Vec3 / double` of `vec3.h`, division by a scalar. -/
def Vec3.sdiv {α : Type} [LinearOrderedField α] (v : Vec3 α) (s : α) : Vec3 α :=
  ⟨v.x / s, v.y / s, v.z / s⟩

/-- Modelled from the spec: `Vec3::Magnitude()` of `vec3.h`, the Euclidean length. -/
def Vec3.Magnitude {α : Type} [LinearOrderedField α] (sqrt : α → α) (v : Vec3 α) : α :=
  sqrt (v.x * v.x + v.y * v.y + v.z * v.z)

/-- The `struct Ray` of `ray.h`: its six data members. -/
structure Ray (α : Type) where
  p0 : Vec3 α
  v : Vec3 α
  t0 : α
  wavelength : α
  isVignetted : Bool
  failed : Bool

/-- Source: `Vec3 k() const { return 2 * PI * v / wavelength / v.Magnitude() / v.Magnitude(); }` -/
def Ray.k {α : Type} [LinearOrderedField α] (sqrt : α → α) (r : Ray α) : Vec3 α :=
  Vec3.sdiv
    (Vec3.sdiv (Vec3.sdiv (Vec3.smul (2 * PI) r.v) r.wavelength) (Vec3.Magnitude sqrt r.v))
    (Vec3.Magnitude sqrt r.v)

/-- Source: `double omega() const { return 2 * PI / wavelength; }` -/
def Ray.omega {α : Type} [LinearOrderedField α] (r : Ray α) : α :=
  2 * PI / r.wavelength

/-- Source: `void setFail() { failed=true; }`, as a function from the ray before the call to
the ray after it. -/
def Ray.setFail {α : Type} (r : Ray α) : Ray α :=
  { r with failed := true }

/-- Source: `void clearFail() { failed=false; }`, as a function from the ray before the call
to the ray after it. -/
def Ray.clearFail {α : Type} (r : Ray α) : Ray α :=
  { r with failed := false }

/-- Modelled from the spec: `Ray::positionAtTime`, declared in `ray.h` and defined outside
the sources: "returns `p0 + v·(t − t0)`". -/
def Ray.positionAtTime {α : Type} [LinearOrderedField α] (r : Ray α) (t : α) : Vec3 α :=
  Vec3.add r.p0 (Vec3.smul (t - r.t0) r.v)

/-- Modelled from the spec: `Ray::propagatedToTime`, declared in `ray.h` and defined outside
the sources: "returns a new Ray with `p0' = positionAtTime(t)`, `t0' = t`, and `v`,
`wavelength`, `isVignetted`, `failed` copied unchanged". -/
def Ray.propagatedToTime {α : Type} [LinearOrderedField α] (r : Ray α) (t : α) : Ray α :=
  { p0 := Ray.positionAtTime r t
    v := r.v
    t0 := t
    wavelength := r.wavelength
    isVignetted := r.isVignetted
    failed := r.failed }

/-- Modelled from the spec: `propagatedToTimesMany`, declared in `ray.h` and defined
outside the sources: a zip-map of `propagatedToTime` over the rays and a parallel sequence
of times, which "must reject (fail loudly) mismatched-length inputs" (`none` here) "rather
than silently truncating or wrapping". -/
def propagatedToTimesMany {α : Type} [LinearOrderedField α]
    (rays : List (Ray α)) (times : List α) : Option (List (Ray α)) :=
  if rays.length = times.length then
    some (List.zipWith Ray.propagatedToTime rays times)
  else
    none

end jtrace

/-! ## Binary64 arithmetic

The `double` of the sources is IEEE 754 binary64 with round-to-nearest, ties-to-even.  The
following model computes the exact rational result of every operation and rounds it; each
operation is rounded on its own (no fused multiply-add, no extended precision). -/

namespace ieee

/-- Power of two with an integer exponent, as a rational. -/
def pow2 (k : Int) : ℚ :=
  if 0 ≤ k then ((2 ^ k.toNat : Nat) : ℚ) else 1 / ((2 ^ (-k).toNat : Nat) : ℚ)

/-- The recursion behind `nlog2`, on a fuel argument. -/
def log2Aux : Nat → Nat → Nat
  | 0, _ => 0
  | fuel + 1, n => if n < 2 then 0 else log2Aux fuel (n / 2) + 1

/-- Floor of the binary logarithm of a positive natural number. -/
def nlog2 (n : Nat) : Nat := log2Aux n n

/-- Floor of the binary logarithm of a positive rational. -/
def ilog2 (q : ℚ) : Int :=
  if pow2 ((nlog2 q.num.natAbs : Int) - (nlog2 q.den : Int)) ≤ q then
    (nlog2 q.num.natAbs : Int) - (nlog2 q.den : Int)
  else
    (nlog2 q.num.natAbs : Int) - (nlog2 q.den : Int) - 1

/-- Nearest natural number to a non-negative rational, ties to the even one. -/
def rne (x : ℚ) : Nat :=
  if x - ((x.num.natAbs / x.den : Nat) : ℚ) < 1 / 2 then x.num.natAbs / x.den
  else if 1 / 2 < x - ((x.num.natAbs / x.den : Nat) : ℚ) then x.num.natAbs / x.den + 1
  else if (x.num.natAbs / x.den) % 2 = 0 then x.num.natAbs / x.den
  else x.num.natAbs / x.den + 1

/-- Exponent of the unit in the last place of the binary64 numbers around a positive
rational: 53 significant bits, smallest exponent `-1074` (subnormal range). -/
def ulpExp (q : ℚ) : Int := max (ilog2 q - 52) (-1074)

/-- Round a non-negative rational to the nearest binary64 magnitude, ties to even, with no
bound on the exponent from above. -/
def rnd (q : ℚ) : ℚ :=
  if q = 0 then 0 else (rne (q / pow2 (ulpExp q)) : ℚ) * pow2 (ulpExp q)

/-- A binary64 value: NaN, an infinity with its sign bit, or a finite number given by its
sign bit and its magnitude (so that `fin true 0` is the negative zero). -/
inductive Dbl where
  | nan : Dbl
  | inf (neg : Bool) : Dbl
  | fin (neg : Bool) (mag : ℚ) : Dbl
  deriving DecidableEq

namespace Dbl

/-- Deliver the rounded result of an operation whose exact result has sign bit `neg` and
magnitude `q`: round to nearest, ties to even; a rounded magnitude of `2^1024` or more
overflows to the infinity of that sign. -/
def round (neg : Bool) (q : ℚ) : Dbl :=
  if rnd q < pow2 1024 then fin neg (rnd q) else inf neg

/-- The signed value of a sign bit and a magnitude. -/
def sval (neg : Bool) (mag : ℚ) : ℚ := if neg then -mag else mag

/-- The double nearest to a rational: the value of a numeric literal. -/
def ofRat (q : ℚ) : Dbl := round (decide (q < 0)) |q|

/-- Unary minus: flips the sign bit. -/
def neg : Dbl → Dbl
  | nan => nan
  | inf s => inf (!s)
  | fin s q => fin (!s) q

/-- The `fabs` of `<cmath>`: clears the sign bit. -/
def fabs : Dbl → Dbl
  | nan => nan
  | inf _ => inf false
  | fin _ q => fin false q

/-- The comparison `x < y`: false when either operand is NaN; the two zeros are equal. -/
def lt : Dbl → Dbl → Bool
  | nan, _ => false
  | _, nan => false
  | inf s, inf t => s && !t
  | inf s, fin _ _ => s
  | fin _ _, inf t => !t
  | fin s p, fin t q => decide (sval s p < sval t q)

/-- The comparison `x == y`: false when either operand is NaN; the two zeros are equal. -/
def eq : Dbl → Dbl → Bool
  | nan, _ => false
  | _, nan => false
  | inf s, inf t => s == t
  | inf _, fin _ _ => false
  | fin _ _, inf _ => false
  | fin s p, fin t q => decide (sval s p = sval t q)

/-- Addition.  An exact zero sum has the sign bit set only when both operands have it. -/
def add : Dbl → Dbl → Dbl
  | nan, _ => nan
  | _, nan => nan
  | inf s, inf t => if s = t then inf s else nan
  | inf s, fin _ _ => inf s
  | fin _ _, inf t => inf t
  | fin s p, fin t q =>
    if sval s p + sval t q = 0 then fin (s && t) 0
    else round (decide (sval s p + sval t q < 0)) |sval s p + sval t q|

/-- Subtraction: `x - y` is `x + (-y)`. -/
def sub (x y : Dbl) : Dbl := add x (neg y)

/-- Multiplication.  The sign bit of the result is the exclusive or of the operands'. -/
def mul : Dbl → Dbl → Dbl
  | nan, _ => nan
  | _, nan => nan
  | inf s, inf t => inf (xor s t)
  | inf s, fin t q => if q = 0 then nan else inf (xor s t)
  | fin s p, inf t => if p = 0 then nan else inf (xor s t)
  | fin s p, fin t q => round (xor s t) (p * q)

/-- Division.  The sign bit of the result is the exclusive or of the operands'. -/
def div : Dbl → Dbl → Dbl
  | nan, _ => nan
  | _, nan => nan
  | inf _, inf _ => nan
  | inf s, fin t _ => inf (xor s t)
  | fin s _, inf t => fin (xor s t) 0
  | fin s p, fin t q =>
    if q = 0 then (if p = 0 then nan else inf (xor s t)) else round (xor s t) (p / q)

/-- True for the finite values (neither NaN nor an infinity). -/
def isFinite : Dbl → Bool
  | fin _ _ => true
  | _ => false

/-- True for the values of the type that are binary64 numbers: NaN, the infinities, and the
finite values whose magnitude is non-negative, below `2^1024` and unchanged by rounding. -/
def IsBinary64 : Dbl → Bool
  | fin _ q => decide (0 ≤ q) && decide (rnd q = q) && decide (q < pow2 1024)
  | _ => true

end Dbl

/-- The recursion behind `nsqrt`: bisection on `lo ≤ √n < hi`, on a fuel argument. -/
def sqrtGo (n : Nat) : Nat → Nat → Nat → Nat
  | 0, lo, _ => lo
  | fuel + 1, lo, hi =>
    if hi ≤ lo + 1 then lo
    else if ((lo + hi) / 2) * ((lo + hi) / 2) ≤ n then sqrtGo n fuel ((lo + hi) / 2) hi
    else sqrtGo n fuel lo ((lo + hi) / 2)

/-- Floor of the square root of a natural number. -/
def nsqrt (n : Nat) : Nat := sqrtGo n (nlog2 n + 2) 0 (2 ^ (nlog2 n / 2 + 1))

/-- The square root of a positive rational, rounded to the nearest binary64 magnitude, ties
to even.  With `e` the exponent of the last place of the result, `x = q / 4^e` and `f`
the floor of `√x`, the rounded significand is `f` or `f + 1` according to the side of
`(f + 1/2)^2` on which `x` lies. -/
def sqrtRnd (q : ℚ) : ℚ :=
  let e : Int := ilog2 q / 2 - 52
  let x : ℚ := q / pow2 (2 * e)
  let f : Nat := nsqrt (x.num.natAbs / x.den)
  let h : ℚ := ((2 * f + 1 : Nat) : ℚ) ^ 2 / 4
  let m : Nat := if x < h then f else if h < x then f + 1 else if f % 2 = 0 then f else f + 1
  (m : ℚ) * pow2 e

/-- The `std::sqrt` of `<cmath>` on a double: correctly rounded; NaN for a negative
argument, and the square root of a zero is that zero. -/
def Dbl.sqrt : Dbl → Dbl
  | Dbl.nan => Dbl.nan
  | Dbl.inf s => if s then Dbl.nan else Dbl.inf false
  | Dbl.fin s q => if q = 0 then Dbl.fin s 0 else if s then Dbl.nan else Dbl.fin false (sqrtRnd q)

namespace Dbl

/-- The rational value of a finite double; `0` for NaN and the infinities. -/
def toRat : Dbl → ℚ
  | fin s q => sval s q
  | _ => 0

/-- True for the finite doubles of magnitude at least `2^-1021`: results that have neither
overflowed nor come near the subnormal range. -/
def normal : Dbl → Bool
  | fin _ q => decide (pow2 (-1021) ≤ q) && decide (q < pow2 1024)
  | _ => false

/-- True for a finite double that is zero or of magnitude between `2^-100` and `2^100`. -/
def inBand : Dbl → Bool
  | fin _ q => decide (q = 0) || (decide (pow2 (-100) ≤ q) && decide (q ≤ pow2 100))
  | _ => false

/-- True for a finite double of magnitude at most `2^M`. -/
def within (M : Int) : Dbl → Bool
  | fin _ q => decide (0 ≤ q) && decide (q ≤ pow2 M)
  | _ => false

/-- A function of `<cmath>` from double to double that, like `cos` and `sin`, returns NaN at
a NaN and at an infinity; `f` gives the value it returns at a finite argument. -/
def libm (f : ℚ → ℚ) : Dbl → Dbl
  | fin s q => fin (decide (f (sval s q) < 0)) |f (sval s q)|
  | _ => nan

end Dbl

/-- The magnitudes of the finite binary64 numbers (with no bound from above): a significand
below `2^53` times a power of two with exponent at least `-1074`. -/
def Representable (q : ℚ) : Prop :=
  ∃ (m : Nat) (e : Int), -1074 ≤ e ∧ m < 2 ^ 53 ∧ q = (m : ℚ) * pow2 e

/-- A rational between two powers of two. -/
def Band (i j : Int) (a : ℚ) : Prop := pow2 i ≤ a ∧ a ≤ pow2 j

end ieee

/-! ## The sources in binary64 arithmetic -/

namespace batoid

namespace fp

open ieee

/-- Source: `constexpr double TOLERANCE = 1.0e-15;`, the double nearest to the literal. -/
def TOLERANCE : Dbl := Dbl.ofRat (1 / 10 ^ 15)

/-- Source: `inline bool IsZero(double x) { return (fabs(x) < TOLERANCE); }` -/
def IsZero (x : Dbl) : Bool := Dbl.lt (Dbl.fabs x) TOLERANCE

/-- Source: the local `const double discriminant = b*b - 4.0*a*c;` of `solveQuadratic`, in
binary64: `b*b` and `4.0*a*c = (4.0*a)*c` are rounded before the subtraction. -/
def discriminant (a b c : Dbl) : Dbl :=
  Dbl.sub (Dbl.mul b b) (Dbl.mul (Dbl.mul (Dbl.ofRat 4) a) c)

/-- Source: `int solveQuadratic(double a, double b, double c, double& r1, double& r2)` in
binary64 arithmetic: every `*`, `/`, `+`, `-` and `std::sqrt` rounds its result, the `int`
literals `0` and `2` are converted to `double`, and `b > 0` is `0 < b`.  The arguments
`r1 r2` are the contents of the slots before the call. -/
def solveQuadratic (a b c r1 r2 : Dbl) : Roots Dbl :=
  if IsZero a then
    if IsZero b then
      ⟨0, r1, r2⟩
    else
      ⟨1, Dbl.div (Dbl.neg c) b, r2⟩
  else if IsZero c then
    let r1 : Dbl := Dbl.ofRat 0
    let r2 : Dbl := Dbl.div (Dbl.neg b) a
    if Dbl.lt r2 (Dbl.ofRat 0) then
      ⟨2, r2, r1⟩
    else
      ⟨2, r1, r2⟩
  else
    if IsZero (discriminant a b c) then
      ⟨1, Dbl.div (Dbl.neg b) (Dbl.mul (Dbl.ofRat 2) a),
        Dbl.div (Dbl.neg b) (Dbl.mul (Dbl.ofRat 2) a)⟩
    else if Dbl.lt (discriminant a b c) (Dbl.ofRat 0) then
      ⟨0, r1, r2⟩
    else
      if Dbl.lt (Dbl.ofRat 0) b then
        let r1 := Dbl.div (Dbl.sub (Dbl.neg b) (Dbl.sqrt (discriminant a b c)))
          (Dbl.mul (Dbl.ofRat 2) a)
        let r2 := Dbl.div c (Dbl.mul a r1)
        ⟨2, r1, r2⟩
      else
        let r1 := Dbl.div (Dbl.mul (Dbl.ofRat 2) c)
          (Dbl.add (Dbl.neg b) (Dbl.sqrt (discriminant a b c)))
        let r2 := Dbl.div c (Dbl.mul a r1)
        ⟨2, r1, r2⟩

end fp

end batoid

namespace jtrace

namespace fp

open ieee

/-- Source: `const double PI = 3.14159265358979323846;`, the double nearest to the literal. -/
def PI : Dbl := Dbl.ofRat (314159265358979323846 / 10 ^ 20)

/-- Modelled from the spec: `Vec3 + Vec3` of `vec3.h`, componentwise, in binary64. -/
def Vec3.add (u v : Vec3 Dbl) : Vec3 Dbl :=
  ⟨Dbl.add u.x v.x, Dbl.add u.y v.y, Dbl.add u.z v.z⟩

/-- Modelled from the spec: `Vec3 - Vec3` of `vec3.h`, componentwise, in binary64. -/
def Vec3.sub (u v : Vec3 Dbl) : Vec3 Dbl :=
  ⟨Dbl.sub u.x v.x, Dbl.sub u.y v.y, Dbl.sub u.z v.z⟩

/-- Modelled from the spec: `double * Vec3` of `vec3.h`, scalar multiplication, in
binary64. -/
def Vec3.smul (s : Dbl) (v : Vec3 Dbl) : Vec3 Dbl :=
  ⟨Dbl.mul s v.x, Dbl.mul s v.y, Dbl.mul s v.z⟩

/-- Modelled from the spec: `Vec3 / double` of `vec3.h`, division of each component by the
scalar, in binary64. -/
def Vec3.sdiv (v : Vec3 Dbl) (s : Dbl) : Vec3 Dbl :=
  ⟨Dbl.div v.x s, Dbl.div v.y s, Dbl.div v.z s⟩

/-- Modelled from the spec: `Vec3::Magnitude()` of `vec3.h`, the Euclidean length
`sqrt(x*x + y*y + z*z)`, in binary64. -/
def Vec3.Magnitude (v : Vec3 Dbl) : Dbl :=
  Dbl.sqrt (Dbl.add (Dbl.add (Dbl.mul v.x v.x) (Dbl.mul v.y v.y)) (Dbl.mul v.z v.z))

/-- Modelled from the spec: the dot product of `vec3.h`, `a.x*b.x + a.y*b.y + a.z*b.z`, in
binary64. -/
def DotProduct (u v : Vec3 Dbl) : Dbl :=
  Dbl.add (Dbl.add (Dbl.mul u.x v.x) (Dbl.mul u.y v.y)) (Dbl.mul u.z v.z)

/-- Source: `Vec3 k() const { return 2 * PI * v / wavelength / v.Magnitude() / v.Magnitude(); }`
in binary64: `2 * PI` first, then the product with `v` and the three divisions, left to
right. -/
def Ray.k (r : Ray Dbl) : Vec3 Dbl :=
  Vec3.sdiv
    (Vec3.sdiv (Vec3.sdiv (Vec3.smul (Dbl.mul (Dbl.ofRat 2) PI) r.v) r.wavelength)
      (Vec3.Magnitude r.v))
    (Vec3.Magnitude r.v)

/-- Source: `double omega() const { return 2 * PI / wavelength; }` in binary64. -/
def Ray.omega (r : Ray Dbl) : Dbl :=
  Dbl.div (Dbl.mul (Dbl.ofRat 2) PI) r.wavelength

/-- Modelled from the spec: `Ray::positionAtTime`, "returns `p0 + v·(t − t0)`", in
binary64. -/
def Ray.positionAtTime (r : Ray Dbl) (t : Dbl) : Vec3 Dbl :=
  Vec3.add r.p0 (Vec3.smul (Dbl.sub t r.t0) r.v)

/-- Modelled from the spec: `Ray::propagatedToTime`, "returns a new Ray with
`p0' = positionAtTime(t)`, `t0' = t`, and `v`, `wavelength`, `isVignetted`, `failed` copied
unchanged", in binary64. -/
def Ray.propagatedToTime (r : Ray Dbl) (t : Dbl) : Ray Dbl :=
  { p0 := Ray.positionAtTime r t
    v := r.v
    t0 := t
    wavelength := r.wavelength
    isVignetted := r.isVignetted
    failed := r.failed }

/-- Modelled from the spec: `Ray::phase`, "defined as `k()·(r − p0) − omega()·(t − t0)`",
in binary64. -/
def Ray.phase (r : Ray Dbl) (pos : Vec3 Dbl) (t : Dbl) : Dbl :=
  Dbl.sub (DotProduct (Ray.k r) (Vec3.sub pos r.p0)) (Dbl.mul (Ray.omega r) (Dbl.sub t r.t0))

/-- The double that `k()` computes for a component `c` of `v`:
`2 * PI * c / wavelength / |v| / |v|`. -/
def Ray.kOf (r : Ray Dbl) (c : Dbl) : Dbl :=
  Dbl.div (Dbl.div (Dbl.div (Dbl.mul (Dbl.mul (Dbl.ofRat 2) PI) c) r.wavelength)
    (Vec3.Magnitude r.v)) (Vec3.Magnitude r.v)

/-- Modelled from the spec: `Ray::amplitude`, "returns the unit-magnitude complex value
`exp(−i·phase(r, t))`": the `std::complex<double>` with real part `cos(-phase)` and
imaginary part `sin(-phase)`, returned as the pair of its parts.  The library's `cos` and
`sin` are parameters of the embedding: `cosf` and `sinf` give the values they return at a
finite argument. -/
def Ray.amplitude (cosf sinf : ℚ → ℚ) (r : Ray Dbl) (pos : Vec3 Dbl) (t : Dbl) : Dbl × Dbl :=
  (Dbl.libm cosf (Dbl.neg (Ray.phase r pos t)), Dbl.libm sinf (Dbl.neg (Ray.phase r pos t)))

end fp

end jtrace

namespace batoid

/-! ## Branch lemmas for `solveQuadratic` over `ℝ` -/

theorem IsZero_true_iff (x : ℝ) : IsZero x = true ↔ |x| < 1e-15 := by
  simp only [IsZero, TOLERANCE, decide_eq_true_eq]
  norm_num

theorem IsZero_false_iff (x : ℝ) : IsZero x = false ↔ 1e-15 ≤ |x| := by
  simp only [IsZero, TOLERANCE, decide_eq_false_iff_not, not_lt]
  norm_num

theorem ne_zero_of_IsZero_false {x : ℝ} (h : IsZero x = false) : x ≠ 0 := by
  rintro rfl
  rw [IsZero_false_iff] at h
  norm_num at h

theorem solveQuadratic_degenerate (a b c r1 r2 : ℝ)
    (ha : IsZero a = true) (hb : IsZero b = true) :
    solveQuadratic Real.sqrt a b c r1 r2 = ⟨0, r1, r2⟩ := by
  simp [solveQuadratic, ha, hb]

theorem solveQuadratic_linear (a b c r1 r2 : ℝ)
    (ha : IsZero a = true) (hb : IsZero b = false) :
    solveQuadratic Real.sqrt a b c r1 r2 = ⟨1, -c / b, r2⟩ := by
  simp [solveQuadratic, ha, hb]

theorem solveQuadratic_noconst (a b c r1 r2 : ℝ)
    (ha : IsZero a = false) (hc : IsZero c = true) :
    solveQuadratic Real.sqrt a b c r1 r2 =
      if -b / a < 0 then ⟨2, -b / a, 0⟩ else ⟨2, 0, -b / a⟩ := by
  simp [solveQuadratic, ha, hc]

theorem solveQuadratic_double (a b c r1 r2 : ℝ)
    (ha : IsZero a = false) (hc : IsZero c = false)
    (hD : IsZero (b ^ 2 - 4 * a * c) = true) :
    solveQuadratic Real.sqrt a b c r1 r2 = ⟨1, -b / (2 * a), -b / (2 * a)⟩ := by
  have e : b * b - 4.0 * a * c = b ^ 2 - 4 * a * c := by norm_num; ring
  have e2 : (2.0 : ℝ) = 2 := by norm_num
  simp only [solveQuadratic, ha, hc, e, hD, e2]
  simp

theorem solveQuadratic_none (a b c r1 r2 : ℝ)
    (ha : IsZero a = false) (hc : IsZero c = false)
    (hD : IsZero (b ^ 2 - 4 * a * c) = false) (hneg : b ^ 2 - 4 * a * c < 0) :
    solveQuadratic Real.sqrt a b c r1 r2 = ⟨0, r1, r2⟩ := by
  have e : b * b - 4.0 * a * c = b ^ 2 - 4 * a * c := by norm_num; ring
  have e0 : (0.0 : ℝ) = 0 := by norm_num
  simp only [solveQuadratic, ha, hc, e, hD, e0]
  simp [hneg]

/-- In the positive-discriminant branch both sign cases of `b` write the two values of the
quadratic formula. -/
theorem solveQuadratic_two (a b c r1 r2 : ℝ)
    (ha : IsZero a = false) (hc : IsZero c = false)
    (hD : IsZero (b ^ 2 - 4 * a * c) = false) (hpos : 0 ≤ b ^ 2 - 4 * a * c) :
    solveQuadratic Real.sqrt a b c r1 r2 =
      ⟨2, (-b - Real.sqrt (b ^ 2 - 4 * a * c)) / (2 * a),
          (-b + Real.sqrt (b ^ 2 - 4 * a * c)) / (2 * a)⟩ := by
  have e : b * b - 4.0 * a * c = b ^ 2 - 4 * a * c := by norm_num; ring
  have e0 : (0.0 : ℝ) = 0 := by norm_num
  have ha0 : a ≠ 0 := ne_zero_of_IsZero_false ha
  have hc0 : c ≠ 0 := ne_zero_of_IsZero_false hc
  have hD0 : b ^ 2 - 4 * a * c ≠ 0 := ne_zero_of_IsZero_false hD
  have hDpos : 0 < b ^ 2 - 4 * a * c := lt_of_le_of_ne hpos (Ne.symm hD0)
  have hs : 0 < Real.sqrt (b ^ 2 - 4 * a * c) := Real.sqrt_pos.mpr hDpos
  have hss : Real.sqrt (b ^ 2 - 4 * a * c) * Real.sqrt (b ^ 2 - 4 * a * c)
      = b ^ 2 - 4 * a * c := Real.mul_self_sqrt hpos
  simp only [solveQuadratic, ha, hc, e, hD, e0, not_lt.mpr hpos]
  generalize Real.sqrt (b ^ 2 - 4 * a * c) = s at hs hss ⊢
  by_cases hb : b > 0
  · have h1 : -b - s ≠ 0 := by linarith
    simp only [hb, if_true, Bool.false_eq_true, if_false]
    congr 1
    field_simp
    linear_combination a * hss
  · have hb' : b ≤ 0 := not_lt.mp hb
    have h1 : -b + s ≠ 0 := by linarith
    simp only [hb, if_false, Bool.false_eq_true]
    congr 1
    · field_simp
      linear_combination hss
    · field_simp
      ring

/-- The discriminant expression of the source, `b*b - 4.0*a*c`, is `b^2 - 4ac`; every
input falls in exactly one of the six return paths of `solveQuadratic`. -/
theorem solveQuadratic_cases (a b c r1 r2 : ℝ) :
    (IsZero a = true ∧ IsZero b = true ∧
        solveQuadratic Real.sqrt a b c r1 r2 = ⟨0, r1, r2⟩) ∨
    (IsZero a = true ∧ IsZero b = false ∧
        solveQuadratic Real.sqrt a b c r1 r2 = ⟨1, -c / b, r2⟩) ∨
    (IsZero a = false ∧ IsZero c = true ∧
        solveQuadratic Real.sqrt a b c r1 r2 =
          if -b / a < 0 then ⟨2, -b / a, 0⟩ else ⟨2, 0, -b / a⟩) ∨
    (IsZero a = false ∧ IsZero c = false ∧ IsZero (b ^ 2 - 4 * a * c) = true ∧
        solveQuadratic Real.sqrt a b c r1 r2 = ⟨1, -b / (2 * a), -b / (2 * a)⟩) ∨
    (IsZero a = false ∧ IsZero c = false ∧ IsZero (b ^ 2 - 4 * a * c) = false ∧
        b ^ 2 - 4 * a * c < 0 ∧
        solveQuadratic Real.sqrt a b c r1 r2 = ⟨0, r1, r2⟩) ∨
    (IsZero a = false ∧ IsZero c = false ∧ IsZero (b ^ 2 - 4 * a * c) = false ∧
        0 < b ^ 2 - 4 * a * c ∧
        solveQuadratic Real.sqrt a b c r1 r2 =
          ⟨2, (-b - Real.sqrt (b ^ 2 - 4 * a * c)) / (2 * a),
              (-b + Real.sqrt (b ^ 2 - 4 * a * c)) / (2 * a)⟩) := by
  cases hA : IsZero a
  · cases hC : IsZero c
    · cases hD : IsZero (b ^ 2 - 4 * a * c)
      · rcases lt_or_le (b ^ 2 - 4 * a * c) 0 with hneg | hpos
        · exact Or.inr (Or.inr (Or.inr (Or.inr (Or.inl
            ⟨rfl, rfl, rfl, hneg, solveQuadratic_none a b c r1 r2 hA hC hD hneg⟩))))
        · exact Or.inr (Or.inr (Or.inr (Or.inr (Or.inr
            ⟨rfl, rfl, rfl, lt_of_le_of_ne hpos (Ne.symm (ne_zero_of_IsZero_false hD)),
              solveQuadratic_two a b c r1 r2 hA hC hD hpos⟩))))
      · exact Or.inr (Or.inr (Or.inr (Or.inl
          ⟨rfl, rfl, rfl, solveQuadratic_double a b c r1 r2 hA hC hD⟩)))
    · exact Or.inr (Or.inr (Or.inl ⟨rfl, rfl, solveQuadratic_noconst a b c r1 r2 hA hC⟩))
  · cases hB : IsZero b
    · exact Or.inr (Or.inl ⟨rfl, rfl, solveQuadratic_linear a b c r1 r2 hA hB⟩)
    · exact Or.inl ⟨rfl, rfl, solveQuadratic_degenerate a b c r1 r2 hA hB⟩

/-- The two values of the quadratic formula are roots when `s*s` is the discriminant. -/
theorem quadratic_formula_root (a b c s : ℝ) (ha : a ≠ 0) (hss : s * s = b ^ 2 - 4 * a * c) :
    a * ((-b - s) / (2 * a)) ^ 2 + b * ((-b - s) / (2 * a)) + c = 0 ∧
    a * ((-b + s) / (2 * a)) ^ 2 + b * ((-b + s) / (2 * a)) + c = 0 := by
  constructor
  · field_simp
    linear_combination (2 * a ^ 2) * hss
  · field_simp
    linear_combination (2 * a ^ 2) * hss

/-- A quadratic with negative discriminant has no real root. -/
theorem no_root_of_discriminant_neg (a b c : ℝ) (hD : b ^ 2 - 4 * a * c < 0)
    (x : ℝ) : a * x ^ 2 + b * x + c ≠ 0 := by
  intro h
  have h1 : (2 * a * x + b) ^ 2 = b ^ 2 - 4 * a * c := by
    linear_combination (4 * a) * h
  nlinarith [sq_nonneg (2 * a * x + b)]

theorem sqrt_sixteen : Real.sqrt 16 = 4 := by
  rw [show (16 : ℝ) = 4 ^ 2 by norm_num]
  exact Real.sqrt_sq (by norm_num)

/-! ## The quadratic solver: claims -/

/-- C6: with `a` and `b` both effectively zero, `solveQuadratic` returns 0 for every `c`
(also `c = 0`, where every `x` solves the equation); `solveQuadratic(0, 0, 5)` and
`solveQuadratic(0, 0, 0)` return 0. -/
theorem solveQuadratic_degenerate_zero (a b c r1 r2 : ℝ)
    (ha : |a| < 1e-15) (hb : |b| < 1e-15) :
    (solveQuadratic Real.sqrt a b c r1 r2).n = 0 ∧
    (solveQuadratic Real.sqrt 0 0 5 r1 r2).n = 0 ∧
    (solveQuadratic Real.sqrt 0 0 0 r1 r2).n = 0 ∧
    ∀ x : ℝ, (0 : ℝ) * x ^ 2 + 0 * x + 0 = 0 := by
  have z : IsZero (0 : ℝ) = true := by rw [IsZero_true_iff]; norm_num
  rw [solveQuadratic_degenerate a b c r1 r2 ((IsZero_true_iff a).mpr ha)
    ((IsZero_true_iff b).mpr hb), solveQuadratic_degenerate 0 0 5 r1 r2 z z,
    solveQuadratic_degenerate 0 0 0 r1 r2 z z]
  exact ⟨rfl, rfl, rfl, fun x => by ring⟩

/-- C6 (witness): the hypotheses hold at `a = 0`, `b = 0`, `c = 5`. -/
theorem solveQuadratic_degenerate_zero_witness :
    |(0 : ℝ)| < 1e-15 ∧ (solveQuadratic Real.sqrt 0 0 5 1 2).n = 0 :=
  ⟨by norm_num, (solveQuadratic_degenerate_zero 0 0 5 1 2 (by norm_num) (by norm_num)).1⟩

/-- C7: with `a` not effectively zero and `c` effectively zero, `solveQuadratic` returns 2,
the written pair is `{0, -b/a}`, and it is in ascending order `r1 <= r2`. -/
theorem solveQuadratic_no_constant_term (a b c r1 r2 : ℝ)
    (ha : 1e-15 ≤ |a|) (hc : |c| < 1e-15) :
    (solveQuadratic Real.sqrt a b c r1 r2).n = 2 ∧
    (((solveQuadratic Real.sqrt a b c r1 r2).r1 = 0 ∧
        (solveQuadratic Real.sqrt a b c r1 r2).r2 = -b / a) ∨
      ((solveQuadratic Real.sqrt a b c r1 r2).r1 = -b / a ∧
        (solveQuadratic Real.sqrt a b c r1 r2).r2 = 0)) ∧
    (solveQuadratic Real.sqrt a b c r1 r2).r1 ≤ (solveQuadratic Real.sqrt a b c r1 r2).r2 := by
  rw [solveQuadratic_noconst a b c r1 r2 ((IsZero_false_iff a).mpr ha)
    ((IsZero_true_iff c).mpr hc)]
  split_ifs with h
  · exact ⟨rfl, Or.inr ⟨rfl, rfl⟩, le_of_lt h⟩
  · exact ⟨rfl, Or.inl ⟨rfl, rfl⟩, not_lt.mp h⟩

/-- C7 (witness): at `a = 1`, `b = 3`, `c = 0` the computed `-b/a = -3` is negative and is
swapped into `r1`. -/
theorem solveQuadratic_no_constant_term_witness :
    (1e-15 : ℝ) ≤ |1| ∧ |(0 : ℝ)| < 1e-15 ∧
    (solveQuadratic Real.sqrt 1 3 0 7 7).r1 ≤ (solveQuadratic Real.sqrt 1 3 0 7 7).r2 :=
  ⟨by norm_num, by norm_num,
    (solveQuadratic_no_constant_term 1 3 0 7 7 (by norm_num) (by norm_num)).2.2⟩

/-- C9: the only things a call changes are the two output slots, and it leaves a slot
untouched when it reports no root for it: whenever `solveQuadratic` returns 0 both `r1`
and `r2` keep their prior values, and whenever it returns 1 through the linear branch
(`a` effectively zero, `b` not) `r2` keeps its prior value. -/
theorem solveQuadratic_frame (a b c r1 r2 : ℝ) :
    ((solveQuadratic Real.sqrt a b c r1 r2).n = 0 →
      (solveQuadratic Real.sqrt a b c r1 r2).r1 = r1 ∧
      (solveQuadratic Real.sqrt a b c r1 r2).r2 = r2) ∧
    (|a| < 1e-15 → 1e-15 ≤ |b| →
      (solveQuadratic Real.sqrt a b c r1 r2).n = 1 ∧
      (solveQuadratic Real.sqrt a b c r1 r2).r2 = r2) := by
  constructor
  · intro hn
    rcases solveQuadratic_cases a b c r1 r2 with
      ⟨_, _, h⟩ | ⟨_, _, h⟩ | ⟨_, _, h⟩ | ⟨_, _, _, h⟩ | ⟨_, _, _, _, h⟩ |
      ⟨_, _, _, _, h⟩
    · rw [h]; exact ⟨rfl, rfl⟩
    · rw [h] at hn; simp at hn
    · rw [h] at hn; split_ifs at hn <;> simp at hn
    · rw [h] at hn; simp at hn
    · rw [h]; exact ⟨rfl, rfl⟩
    · rw [h] at hn; simp at hn
  · intro ha hb
    rw [solveQuadratic_linear a b c r1 r2 ((IsZero_true_iff a).mpr ha)
      ((IsZero_false_iff b).mpr hb)]
    exact ⟨rfl, rfl⟩

/-- C9 (witness): at `a = 0`, `b = 2`, `c = -4` with prior slot contents `7` and `9`, the
call returns 1 and `r2` is still `9`. -/
theorem solveQuadratic_frame_witness :
    |(0 : ℝ)| < 1e-15 ∧ (1e-15 : ℝ) ≤ |2| ∧
    ((solveQuadratic Real.sqrt 0 2 (-4) 7 9).n = 1 ∧
      (solveQuadratic Real.sqrt 0 2 (-4) 7 9).r2 = 9) :=
  ⟨by norm_num, by norm_num,
    (solveQuadratic_frame 0 2 (-4) 7 9).2 (by norm_num) (by norm_num)⟩

/-- C18: for every `a` that is not effectively zero, `solveQuadratic(a, 0, 0)` returns 2 with
`r1 = r2 = 0`: the repeated root at zero goes through the `c`-is-zero branch and is
reported as two roots of equal value, so a count of 2 does not imply distinct written
roots; the discriminant-zero branch reports a repeated root with count 1, as at
`(1, -2, 1)`. -/
theorem solveQuadratic_repeated_zero (a r1 r2 : ℝ) (ha : 1e-15 ≤ |a|) :
    solveQuadratic Real.sqrt a 0 0 r1 r2 = ⟨2, 0, 0⟩ ∧
    ((solveQuadratic Real.sqrt a 0 0 r1 r2).n = 2 ∧
      (solveQuadratic Real.sqrt a 0 0 r1 r2).r1 = (solveQuadratic Real.sqrt a 0 0 r1 r2).r2) ∧
    ((solveQuadratic Real.sqrt 1 (-2) 1 r1 r2).n = 1 ∧
      (solveQuadratic Real.sqrt 1 (-2) 1 r1 r2).r1
        = (solveQuadratic Real.sqrt 1 (-2) 1 r1 r2).r2) := by
  have h : solveQuadratic Real.sqrt a 0 0 r1 r2 = ⟨2, 0, 0⟩ := by
    rw [solveQuadratic_noconst a 0 0 r1 r2 ((IsZero_false_iff a).mpr ha)
      ((IsZero_true_iff 0).mpr (by norm_num))]
    simp
  rw [h, solveQuadratic_double 1 (-2) 1 r1 r2
    (by rw [IsZero_false_iff]; norm_num) (by rw [IsZero_false_iff]; norm_num)
    (by rw [IsZero_true_iff]; norm_num)]
  exact ⟨rfl, ⟨rfl, rfl⟩, rfl, rfl⟩

/-- C18 (witness): at `a = -3` with prior slot contents `7` and `9`. -/
theorem solveQuadratic_repeated_zero_witness :
    (1e-15 : ℝ) ≤ |(-3)| ∧ solveQuadratic Real.sqrt (-3) 0 0 7 9 = ⟨2, 0, 0⟩ :=
  ⟨by norm_num, (solveQuadratic_repeated_zero (-3) 7 9 (by norm_num)).1⟩

end batoid

namespace jtrace

/-! ## Ray kinematics: helper lemmas -/

theorem PI_pos : (0 : ℝ) < PI := by
  norm_num [PI]

/-- The magnitude of `k()` for any ray whose velocity has non-zero magnitude and whose
wavelength is positive. -/
theorem Ray.k_magnitude (r : Ray ℝ) (hw : 0 < r.wavelength)
    (hv : Vec3.Magnitude Real.sqrt r.v ≠ 0) :
    Vec3.Magnitude Real.sqrt (Ray.k Real.sqrt r)
      = 2 * PI / (r.wavelength * Vec3.Magnitude Real.sqrt r.v) := by
  obtain ⟨p0, ⟨x, y, z⟩, t0, w, vig, fl⟩ := r
  simp only [Vec3.Magnitude, Ray.k, Vec3.sdiv, Vec3.smul] at hv hw ⊢
  have hm : 0 < Real.sqrt (x * x + y * y + z * z) :=
    lt_of_le_of_ne (Real.sqrt_nonneg _) (Ne.symm hv)
  have hq : 0 ≤ x * x + y * y + z * z :=
    add_nonneg (add_nonneg (mul_self_nonneg x) (mul_self_nonneg y)) (mul_self_nonneg z)
  have hmm := Real.mul_self_sqrt hq
  generalize Real.sqrt (x * x + y * y + z * z) = m at hv hm hmm ⊢
  have hP := PI_pos
  have hpos : 0 ≤ 2 * PI / (w * m) := by positivity
  rw [← Real.sqrt_mul_self hpos]
  congr 1
  field_simp
  linear_combination (-(4 * PI ^ 2 * w ^ 2 * m ^ 2) : ℝ) * hmm

/-! ## Ray kinematics: claims -/

/-- C10 (counterexample): the ray with `v = (2, 0, 0)` and `wavelength = 1` has positive
wavelength and `|v| = 2`, and the magnitude of `k()` is `PI`, not `2*PI/wavelength = 2*PI`
(the value of `omega()`). -/
theorem Ray.k_magnitude_speed_two :
    (0 : ℝ) < (Ray.mk ⟨0, 0, 0⟩ ⟨2, 0, 0⟩ 0 1 false false : Ray ℝ).wavelength ∧
    Vec3.Magnitude Real.sqrt (Ray.mk ⟨0, 0, 0⟩ ⟨2, 0, 0⟩ 0 1 false false : Ray ℝ).v ≠ 0 ∧
    Vec3.Magnitude Real.sqrt (Ray.k Real.sqrt (Ray.mk ⟨0, 0, 0⟩ ⟨2, 0, 0⟩ 0 1 false false))
      = PI ∧
    Vec3.Magnitude Real.sqrt (Ray.k Real.sqrt (Ray.mk ⟨0, 0, 0⟩ ⟨2, 0, 0⟩ 0 1 false false))
      ≠ 2 * PI / (Ray.mk ⟨0, 0, 0⟩ ⟨2, 0, 0⟩ 0 1 false false : Ray ℝ).wavelength ∧
    Vec3.Magnitude Real.sqrt (Ray.k Real.sqrt (Ray.mk ⟨0, 0, 0⟩ ⟨2, 0, 0⟩ 0 1 false false))
      ≠ Ray.omega (Ray.mk ⟨0, 0, 0⟩ ⟨2, 0, 0⟩ 0 1 false false : Ray ℝ) := by
  have hm : Vec3.Magnitude Real.sqrt (⟨2, 0, 0⟩ : Vec3 ℝ) = 2 := by
    simp only [Vec3.Magnitude]
    rw [show (2 : ℝ) * 2 + 0 * 0 + 0 * 0 = 2 ^ 2 by norm_num]
    exact Real.sqrt_sq (by norm_num)
  have hk := Ray.k_magnitude (Ray.mk ⟨0, 0, 0⟩ ⟨2, 0, 0⟩ 0 1 false false)
    (by norm_num) (by rw [hm]; norm_num)
  have hP := PI_pos
  rw [hk]
  simp only [hm, Ray.omega]
  refine ⟨by norm_num, by norm_num, by ring, ?_, ?_⟩ <;>
  · intro h
    have : (PI : ℝ) = 0 := by linarith
    linarith

/-- C16: for every sequence of rays and every sequence of times of the same length,
`propagatedToTimesMany(rays, times)` has that same length and its `i`-th element equals
`rays[i].propagatedToTime(times[i])` for every index `i`. -/
theorem propagatedToTimesMany_elementwise (rays : List (Ray ℝ)) (times : List ℝ)
    (hlen : rays.length = times.length) :
    ∃ out : List (Ray ℝ), propagatedToTimesMany rays times = some out ∧
      out.length = rays.length ∧
      ∀ (i : Nat) (hr : i < rays.length) (ht : i < times.length) (ho : i < out.length),
        out[i] = Ray.propagatedToTime rays[i] times[i] := by
  refine ⟨List.zipWith Ray.propagatedToTime rays times, ?_, ?_, ?_⟩
  · simp [propagatedToTimesMany, hlen]
  · simp [List.length_zipWith, hlen]
  · intro i hr ht ho
    simp [List.getElem_zipWith]

/-- C16 (witness): two rays and two times. -/
theorem propagatedToTimesMany_elementwise_witness :
    ([Ray.mk ⟨1, 2, 3⟩ ⟨0, 0, 1⟩ 4 (1 / 2) false false,
      Ray.mk ⟨0, 0, 0⟩ ⟨1, 0, 0⟩ 0 1 true false] : List (Ray ℝ)).length
      = ([9, 7] : List ℝ).length ∧
    ∃ out : List (Ray ℝ),
      propagatedToTimesMany
        [Ray.mk ⟨1, 2, 3⟩ ⟨0, 0, 1⟩ 4 (1 / 2) false false,
          Ray.mk ⟨0, 0, 0⟩ ⟨1, 0, 0⟩ 0 1 true false] [9, 7] = some out ∧
      out.length = 2 :=
  ⟨rfl,
    (propagatedToTimesMany_elementwise
      [Ray.mk ⟨1, 2, 3⟩ ⟨0, 0, 1⟩ 4 (1 / 2) false false,
        Ray.mk ⟨0, 0, 0⟩ ⟨1, 0, 0⟩ 0 1 true false] [9, 7] rfl).imp
      (fun _ h => ⟨h.1, h.2.1⟩)⟩

/-- C17: the flag mutators change only the `failed` flag: for every ray, `setFail()` yields
`failed = true` and `clearFail()` yields `failed = false`, and both leave `p0`, `v`, `t0`,
`wavelength` and `isVignetted` unchanged; each is idempotent and the last one applied
determines the flag. -/
theorem Ray.flag_mutators (r : Ray ℝ) :
    ((Ray.setFail r).failed = true ∧ (Ray.setFail r).p0 = r.p0 ∧ (Ray.setFail r).v = r.v ∧
      (Ray.setFail r).t0 = r.t0 ∧ (Ray.setFail r).wavelength = r.wavelength ∧
      (Ray.setFail r).isVignetted = r.isVignetted) ∧
    ((Ray.clearFail r).failed = false ∧ (Ray.clearFail r).p0 = r.p0 ∧
      (Ray.clearFail r).v = r.v ∧ (Ray.clearFail r).t0 = r.t0 ∧
      (Ray.clearFail r).wavelength = r.wavelength ∧
      (Ray.clearFail r).isVignetted = r.isVignetted) ∧
    Ray.setFail (Ray.setFail r) = Ray.setFail r ∧
    Ray.clearFail (Ray.clearFail r) = Ray.clearFail r ∧
    Ray.setFail (Ray.clearFail r) = Ray.setFail r ∧
    Ray.clearFail (Ray.setFail r) = Ray.clearFail r :=
  ⟨⟨rfl, rfl, rfl, rfl, rfl, rfl⟩, ⟨rfl, rfl, rfl, rfl, rfl, rfl⟩, rfl, rfl, rfl, rfl⟩

end jtrace

namespace ieee

/-! ## Properties of the rounding function -/

theorem pow2_eq_zpow (k : Int) : pow2 k = (2 : ℚ) ^ k := by
  unfold pow2
  split_ifs with h
  · obtain ⟨n, rfl⟩ := Int.eq_ofNat_of_zero_le h
    simp
  · have hk : 0 ≤ -k := by omega
    obtain ⟨n, hn⟩ := Int.eq_ofNat_of_zero_le hk
    have : k = -(n : Int) := by omega
    subst this
    simp

theorem pow2_pos (k : Int) : 0 < pow2 k := by
  rw [pow2_eq_zpow]; positivity

theorem pow2_add (j k : Int) : pow2 (j + k) = pow2 j * pow2 k := by
  simp only [pow2_eq_zpow]
  exact zpow_add₀ (by norm_num) j k

theorem pow2_le_pow2 {j k : Int} (h : j ≤ k) : pow2 j ≤ pow2 k := by
  simp only [pow2_eq_zpow]
  exact zpow_le_zpow_right₀ (by norm_num) h

theorem pow2_lt_pow2 {j k : Int} (h : j < k) : pow2 j < pow2 k := by
  simp only [pow2_eq_zpow]
  exact zpow_lt_zpow_right₀ (by norm_num) h

theorem pow2_natCast (n : Nat) : pow2 (n : Int) = ((2 ^ n : Nat) : ℚ) := by
  rw [pow2_eq_zpow]; simp

theorem log2Aux_spec (fuel : Nat) :
    ∀ n : Nat, 0 < n → n ≤ fuel →
      2 ^ log2Aux fuel n ≤ n ∧ n < 2 ^ (log2Aux fuel n + 1) := by
  induction fuel with
  | zero => intro n h0 h; omega
  | succ fuel ih =>
    intro n h0 h
    unfold log2Aux
    split_ifs with h2
    · have : n = 1 := by omega
      subst this
      simp
    · have hpos : 0 < n / 2 := Nat.div_pos (by omega) (by norm_num)
      have hle : n / 2 ≤ fuel := by omega
      obtain ⟨h1, h3⟩ := ih (n / 2) hpos hle
      constructor
      · rw [pow_succ]; omega
      · rw [pow_succ]; omega

theorem nlog2_spec (n : Nat) (h : 0 < n) : 2 ^ nlog2 n ≤ n ∧ n < 2 ^ (nlog2 n + 1) :=
  log2Aux_spec n n h le_rfl

theorem ilog2_spec (q : ℚ) (hq : 0 < q) : pow2 (ilog2 q) ≤ q ∧ q < pow2 (ilog2 q + 1) := by
  have hnum : 0 < q.num := Rat.num_pos.mpr hq
  have hn : 0 < q.num.natAbs := Int.natAbs_pos.mpr (ne_of_gt hnum)
  have hd : 0 < q.den := q.den_pos
  obtain ⟨hn1, hn2⟩ := nlog2_spec _ hn
  obtain ⟨hd1, hd2⟩ := nlog2_spec _ hd
  have hqeq : q = (q.num.natAbs : ℚ) / (q.den : ℚ) := by
    have h1 : (q.num.natAbs : ℚ) = (q.num : ℚ) := by
      rw [← Int.cast_natCast, Int.natAbs_of_nonneg hnum.le]
    rw [h1]
    exact (Rat.num_div_den q).symm
  set a := nlog2 q.num.natAbs with ha
  set b := nlog2 q.den with hb
  have hn1q : (2 : ℚ) ^ a ≤ (q.num.natAbs : ℚ) := by exact_mod_cast hn1
  have hn2q : (q.num.natAbs : ℚ) < (2 : ℚ) ^ (a + 1) := by exact_mod_cast hn2
  have hd1q : (2 : ℚ) ^ b ≤ (q.den : ℚ) := by exact_mod_cast hd1
  have hd2q : (q.den : ℚ) < (2 : ℚ) ^ (b + 1) := by exact_mod_cast hd2
  have hdq : (0 : ℚ) < (q.den : ℚ) := by exact_mod_cast hd
  have hlow : pow2 ((a : Int) - (b : Int) - 1) ≤ q := by
    rw [pow2_eq_zpow, hqeq, le_div_iff₀ hdq]
    have e : (2 : ℚ) ^ ((a : Int) - (b : Int) - 1) * (2 : ℚ) ^ (b + 1) = (2 : ℚ) ^ a := by
      rw [← zpow_natCast (2 : ℚ) (b + 1), ← zpow_add₀ (by norm_num), ← zpow_natCast]
      congr 1
      push_cast
      ring
    calc (2 : ℚ) ^ ((a : Int) - (b : Int) - 1) * (q.den : ℚ)
        ≤ (2 : ℚ) ^ ((a : Int) - (b : Int) - 1) * (2 : ℚ) ^ (b + 1) :=
          mul_le_mul_of_nonneg_left hd2q.le (by positivity)
      _ = (2 : ℚ) ^ a := e
      _ ≤ _ := hn1q
  have hhigh : q < pow2 ((a : Int) - (b : Int) + 1) := by
    rw [pow2_eq_zpow, hqeq, div_lt_iff₀ hdq]
    have e : (2 : ℚ) ^ ((a : Int) - (b : Int) + 1) * (2 : ℚ) ^ b = (2 : ℚ) ^ (a + 1) := by
      rw [← zpow_natCast (2 : ℚ) b, ← zpow_add₀ (by norm_num), ← zpow_natCast]
      congr 1
      push_cast
      ring
    calc (q.num.natAbs : ℚ) < (2 : ℚ) ^ (a + 1) := hn2q
      _ = (2 : ℚ) ^ ((a : Int) - (b : Int) + 1) * (2 : ℚ) ^ b := e.symm
      _ ≤ _ := mul_le_mul_of_nonneg_left hd1q (by positivity)
  unfold ilog2
  simp only [← ha, ← hb]
  split_ifs with h
  · exact ⟨h, hhigh⟩
  · refine ⟨hlow, ?_⟩
    have : (a : Int) - (b : Int) - 1 + 1 = (a : Int) - (b : Int) := by ring
    rw [this]
    exact not_le.mp h

theorem ilog2_unique (q : ℚ) (k : Int) (h1 : pow2 k ≤ q) (h2 : q < pow2 (k + 1)) :
    ilog2 q = k := by
  have hq : 0 < q := lt_of_lt_of_le (pow2_pos k) h1
  obtain ⟨s1, s2⟩ := ilog2_spec q hq
  by_contra hne
  rcases lt_or_gt_of_ne hne with h | h
  · have : pow2 (ilog2 q + 1) ≤ pow2 k := pow2_le_pow2 (by omega)
    linarith
  · have : pow2 (k + 1) ≤ pow2 (ilog2 q) := pow2_le_pow2 (by omega)
    linarith

theorem ilog2_mono {p q : ℚ} (hp : 0 < p) (h : p ≤ q) : ilog2 p ≤ ilog2 q := by
  obtain ⟨s1, _⟩ := ilog2_spec p hp
  obtain ⟨_, t2⟩ := ilog2_spec q (lt_of_lt_of_le hp h)
  by_contra hlt
  have : pow2 (ilog2 q + 1) ≤ pow2 (ilog2 p) := pow2_le_pow2 (by omega)
  linarith

theorem natAbs_div_den (x : ℚ) (hx : 0 ≤ x) : x.num.natAbs / x.den = ⌊x⌋₊ := by
  have hnum : 0 ≤ x.num := Rat.num_nonneg.mpr hx
  have h1 : (x.num.natAbs : ℚ) = (x.num : ℚ) := by
    rw [← Int.cast_natCast, Int.natAbs_of_nonneg hnum]
  have hx' : x = (x.num.natAbs : ℚ) / (x.den : ℚ) := by
    rw [h1]; exact (Rat.num_div_den x).symm
  conv_rhs => rw [hx']
  exact (Rat.natFloor_natCast_div_natCast _ _).symm

theorem rne_eq (x : ℚ) (hx : 0 ≤ x) :
    rne x = if x - (⌊x⌋₊ : ℚ) < 1 / 2 then ⌊x⌋₊
      else if 1 / 2 < x - (⌊x⌋₊ : ℚ) then ⌊x⌋₊ + 1
      else if ⌊x⌋₊ % 2 = 0 then ⌊x⌋₊ else ⌊x⌋₊ + 1 := by
  unfold rne
  rw [natAbs_div_den x hx]

theorem rne_bounds (x : ℚ) (hx : 0 ≤ x) :
    x - 1 / 2 ≤ (rne x : ℚ) ∧ (rne x : ℚ) ≤ x + 1 / 2 := by
  have h1 : (⌊x⌋₊ : ℚ) ≤ x := Nat.floor_le hx
  have h2 : x < (⌊x⌋₊ : ℚ) + 1 := Nat.lt_floor_add_one x
  rw [rne_eq x hx]
  split_ifs with a b c
  · constructor <;> linarith
  · push_cast; constructor <;> linarith
  · constructor <;> linarith
  · push_cast; constructor <;> linarith

theorem rne_floor_le (x : ℚ) (hx : 0 ≤ x) : ⌊x⌋₊ ≤ rne x ∧ rne x ≤ ⌊x⌋₊ + 1 := by
  rw [rne_eq x hx]
  split_ifs <;> omega

theorem rne_natCast (n : Nat) : rne (n : ℚ) = n := by
  rw [rne_eq _ (Nat.cast_nonneg n)]
  simp

theorem rne_mono {x y : ℚ} (hx : 0 ≤ x) (h : x ≤ y) : rne x ≤ rne y := by
  have hy : 0 ≤ y := le_trans hx h
  have hf : ⌊x⌋₊ ≤ ⌊y⌋₊ := Nat.floor_mono h
  rcases Nat.lt_or_ge ⌊x⌋₊ ⌊y⌋₊ with hlt | hge
  · have := (rne_floor_le x hx).2
    have := (rne_floor_le y hy).1
    omega
  · have he : ⌊x⌋₊ = ⌊y⌋₊ := le_antisymm hf hge
    have hfy := rne_floor_le y hy
    rw [rne_eq x hx, rne_eq y hy, he]
    rw [he] at *
    split_ifs <;> first | omega | (exfalso; linarith)

theorem rne_le_of_le_natCast {x : ℚ} (hx : 0 ≤ x) {n : Nat} (h : x ≤ n) : rne x ≤ n := by
  have := rne_mono hx h
  rwa [rne_natCast] at this

theorem le_rne_of_natCast_le {x : ℚ} {n : Nat} (h : (n : ℚ) ≤ x) : n ≤ rne x := by
  have := rne_mono (Nat.cast_nonneg n) h
  rwa [rne_natCast] at this

theorem ulpExp_ge (q : ℚ) : -1074 ≤ ulpExp q := le_max_right _ _

theorem ulpExp_ge_ilog2 (q : ℚ) : ilog2 q - 52 ≤ ulpExp q := le_max_left _ _

theorem rnd_zero : rnd 0 = 0 := by simp [rnd]

theorem rnd_of_pos (q : ℚ) (hq : 0 < q) :
    rnd q = (rne (q / pow2 (ulpExp q)) : ℚ) * pow2 (ulpExp q) := by
  simp [rnd, ne_of_gt hq]

theorem rnd_nonneg (q : ℚ) : 0 ≤ rnd q := by
  unfold rnd
  split_ifs
  · exact le_rfl
  · exact mul_nonneg (Nat.cast_nonneg _) (pow2_pos _).le

/-- Rounding moves a non-negative rational by at most half a unit in the last place. -/
theorem rnd_abs_sub_le (q : ℚ) (hq : 0 < q) : |rnd q - q| ≤ pow2 (ulpExp q) / 2 := by
  have hp := pow2_pos (ulpExp q)
  have hx : 0 ≤ q / pow2 (ulpExp q) := div_nonneg hq.le hp.le
  obtain ⟨b1, b2⟩ := rne_bounds _ hx
  rw [rnd_of_pos q hq]
  have e : q = q / pow2 (ulpExp q) * pow2 (ulpExp q) := by field_simp
  rw [abs_le]
  constructor
  · nlinarith
  · nlinarith

/-- The standard model of rounding: in the normal range the relative error is at most
`2^-53`. -/
theorem rnd_rel_err (q : ℚ) (hq : pow2 (-1022) ≤ q) : |rnd q - q| ≤ q / 2 ^ 53 := by
  have hq0 : 0 < q := lt_of_lt_of_le (pow2_pos _) hq
  obtain ⟨s1, _⟩ := ilog2_spec q hq0
  have hk : -1022 ≤ ilog2 q := by
    by_contra h
    have : pow2 (ilog2 q + 1) ≤ pow2 (-1022) := pow2_le_pow2 (by omega)
    have := (ilog2_spec q hq0).2
    linarith
  have he : ulpExp q = ilog2 q - 52 := by
    unfold ulpExp
    exact max_eq_left (by omega)
  have h := rnd_abs_sub_le q hq0
  rw [he] at h
  have e : pow2 (ilog2 q - 52) = pow2 (ilog2 q) / 2 ^ 52 := by
    rw [sub_eq_add_neg, pow2_add]
    simp only [pow2_eq_zpow]
    norm_num
    ring
  rw [e] at h
  calc |rnd q - q| ≤ pow2 (ilog2 q) / 2 ^ 52 / 2 := h
    _ = pow2 (ilog2 q) / 2 ^ 53 := by ring
    _ ≤ q / 2 ^ 53 := by
      apply div_le_div_of_nonneg_right s1 (by positivity)

theorem div_pow2_lt (q : ℚ) (hq : 0 < q) : q / pow2 (ulpExp q) < 2 ^ 53 := by
  have hp := pow2_pos (ulpExp q)
  rw [div_lt_iff₀ hp]
  have h2 := (ilog2_spec q hq).2
  have h3 : pow2 (ilog2 q + 1) ≤ pow2 (53 + ulpExp q) :=
    pow2_le_pow2 (by have := ulpExp_ge_ilog2 q; omega)
  have h4 : pow2 (53 + ulpExp q) = 2 ^ 53 * pow2 (ulpExp q) := by
    rw [pow2_add]
    congr 1
  linarith

theorem representable_rnd (q : ℚ) (hq : 0 ≤ q) : Representable (rnd q) := by
  rcases eq_or_lt_of_le hq with h0 | hpos
  · rw [← h0, rnd_zero]
    exact ⟨0, 0, by norm_num, by norm_num, by simp⟩
  · have hx : 0 ≤ q / pow2 (ulpExp q) := div_nonneg hq (pow2_pos _).le
    have hlt := div_pow2_lt q hpos
    have hle : rne (q / pow2 (ulpExp q)) ≤ 2 ^ 53 := by
      apply rne_le_of_le_natCast hx
      push_cast
      exact hlt.le
    rw [rnd_of_pos q hpos]
    rcases Nat.lt_or_ge (rne (q / pow2 (ulpExp q))) (2 ^ 53) with h | h
    · exact ⟨_, ulpExp q, ulpExp_ge q, h, rfl⟩
    · have he : rne (q / pow2 (ulpExp q)) = 2 ^ 53 := le_antisymm hle h
      refine ⟨2 ^ 52, ulpExp q + 1, by have := ulpExp_ge q; omega, by norm_num, ?_⟩
      rw [he, add_comm, pow2_add]
      have : pow2 1 = 2 := by rw [pow2_eq_zpow]; norm_num
      rw [this]
      push_cast
      ring

theorem rnd_of_representable (q : ℚ) (h : Representable q) : rnd q = q := by
  obtain ⟨m, e0, he0, hm, rfl⟩ := h
  rcases Nat.eq_zero_or_pos m with h0 | hpos
  · subst h0; simp [rnd_zero]
  · have hp0 := pow2_pos e0
    have hq : 0 < (m : ℚ) * pow2 e0 := mul_pos (by exact_mod_cast hpos) hp0
    have hlt : (m : ℚ) * pow2 e0 < pow2 (e0 + 53) := by
      rw [pow2_add]
      have : pow2 53 = 2 ^ 53 := by rw [pow2_eq_zpow]; norm_num
      rw [this, mul_comm]
      exact mul_lt_mul_of_pos_left (by exact_mod_cast hm) hp0
    have hk : ilog2 ((m : ℚ) * pow2 e0) < e0 + 53 := by
      by_contra hge
      have h1 := (ilog2_spec _ hq).1
      have : pow2 (e0 + 53) ≤ pow2 (ilog2 ((m : ℚ) * pow2 e0)) := pow2_le_pow2 (by omega)
      linarith
    have hle : ulpExp ((m : ℚ) * pow2 e0) ≤ e0 := by
      unfold ulpExp
      exact max_le (by omega) he0
    rw [rnd_of_pos _ hq]
    set e := ulpExp ((m : ℚ) * pow2 e0) with hedef
    obtain ⟨n, hn⟩ := Int.eq_ofNat_of_zero_le (sub_nonneg.mpr hle)
    have hsplit : pow2 e0 = ((2 ^ n : Nat) : ℚ) * pow2 e := by
      rw [← pow2_natCast, ← hn, ← pow2_add]
      congr 1
      ring
    have hx : (m : ℚ) * pow2 e0 / pow2 e = ((m * 2 ^ n : Nat) : ℚ) := by
      rw [hsplit]
      have := (pow2_pos e).ne'
      field_simp
      ring
    rw [hx, rne_natCast, hsplit]
    push_cast
    ring

theorem ulpExp_mono {p q : ℚ} (hp : 0 < p) (h : p ≤ q) : ulpExp p ≤ ulpExp q := by
  have := ilog2_mono hp h
  unfold ulpExp
  exact max_le_max (by omega) le_rfl

/-- Rounding to nearest is monotone. -/
theorem rnd_mono {p q : ℚ} (hp : 0 ≤ p) (h : p ≤ q) : rnd p ≤ rnd q := by
  rcases eq_or_lt_of_le hp with h0 | hpos
  · rw [← h0, rnd_zero]; exact rnd_nonneg q
  · have hq : 0 < q := lt_of_lt_of_le hpos h
    have hle := ulpExp_mono hpos h
    rw [rnd_of_pos p hpos, rnd_of_pos q hq]
    rcases eq_or_lt_of_le hle with he | hlt
    · rw [he]
      have hpe := pow2_pos (ulpExp q)
      apply mul_le_mul_of_nonneg_right _ hpe.le
      have : rne (p / pow2 (ulpExp q)) ≤ rne (q / pow2 (ulpExp q)) :=
        rne_mono (div_nonneg hp hpe.le) (div_le_div_of_nonneg_right h hpe.le)
      exact_mod_cast this
    · -- the two arguments lie in different binades
      have hgeq : -1074 ≤ ulpExp p := ulpExp_ge p
      have heq : ulpExp q = ilog2 q - 52 := by
        unfold ulpExp at hlt hgeq ⊢
        rcases max_cases (ilog2 q - 52) (-1074) with ⟨h1, _⟩ | ⟨h1, _⟩
        · exact h1
        · rw [h1] at hlt; omega
      have hpp := pow2_pos (ulpExp p)
      have hpq := pow2_pos (ulpExp q)
      -- the rounded `q` is at least `2^K`
      have hK1 : pow2 (ilog2 q) ≤ (rne (q / pow2 (ulpExp q)) : ℚ) * pow2 (ulpExp q) := by
        have hx : ((2 ^ 52 : Nat) : ℚ) ≤ q / pow2 (ulpExp q) := by
          rw [le_div_iff₀ hpq, heq]
          have e : ((2 ^ 52 : Nat) : ℚ) * pow2 (ilog2 q - 52) = pow2 (ilog2 q) := by
            rw [← pow2_natCast, ← pow2_add]
            congr 1
            push_cast
            ring
          rw [e]
          exact (ilog2_spec q hq).1
        have hr : 2 ^ 52 ≤ rne (q / pow2 (ulpExp q)) := le_rne_of_natCast_le hx
        have e : pow2 (ilog2 q) = ((2 ^ 52 : Nat) : ℚ) * pow2 (ulpExp q) := by
          rw [heq, ← pow2_natCast, ← pow2_add]
          congr 1
          push_cast
          ring
        rw [e]
        apply mul_le_mul_of_nonneg_right _ hpq.le
        exact_mod_cast hr
      -- the rounded `p` is at most `2^K`
      have hK2 : (rne (p / pow2 (ulpExp p)) : ℚ) * pow2 (ulpExp p) ≤ pow2 (ilog2 q) := by
        have hpK : p < pow2 (ilog2 q) := by
          have h2 := (ilog2_spec p hpos).2
          have h3 : ilog2 p - 52 ≤ ulpExp p := ulpExp_ge_ilog2 p
          have : pow2 (ilog2 p + 1) ≤ pow2 (ilog2 q) := pow2_le_pow2 (by omega)
          linarith
        obtain ⟨n, hn⟩ := Int.eq_ofNat_of_zero_le
          (show 0 ≤ ilog2 q - ulpExp p by omega)
        have e : pow2 (ilog2 q) = ((2 ^ n : Nat) : ℚ) * pow2 (ulpExp p) := by
          rw [← pow2_natCast, ← hn, ← pow2_add]
          congr 1
          ring
        have hx : p / pow2 (ulpExp p) ≤ ((2 ^ n : Nat) : ℚ) := by
          rw [div_le_iff₀ hpp, ← e]
          exact hpK.le
        have hr : rne (p / pow2 (ulpExp p)) ≤ 2 ^ n :=
          rne_le_of_le_natCast (div_nonneg hp hpp.le) hx
        rw [e]
        apply mul_le_mul_of_nonneg_right _ hpp.le
        exact_mod_cast hr
      exact le_trans hK2 hK1

/-! ## Properties of the binary64 operations -/

theorem pow2_1024_pos : (0 : ℚ) < pow2 1024 := pow2_pos _

theorem round_zero (s : Bool) : Dbl.round s 0 = Dbl.fin s 0 := by
  simp [Dbl.round, rnd_zero, pow2_1024_pos]

theorem round_of_lt (s : Bool) (q : ℚ) (h : rnd q < pow2 1024) :
    Dbl.round s q = Dbl.fin s (rnd q) := by
  simp [Dbl.round, h]

/-- A computed magnitude of at least `2^-1021` comes from an exact value of at least
`2^-1022`. -/
theorem le_of_pow2_le_rnd (z : ℚ) (hz : 0 ≤ z) (h : pow2 (-1021) ≤ rnd z) :
    pow2 (-1022) ≤ z := by
  by_contra hlt
  have h1 : rnd z ≤ rnd (pow2 (-1022)) := rnd_mono hz (not_le.mp hlt).le
  have h2 : rnd (pow2 (-1022)) = pow2 (-1022) :=
    rnd_of_representable _ ⟨1, -1022, by norm_num, by norm_num, by simp⟩
  have h3 : pow2 (-1022) < pow2 (-1021) := pow2_lt_pow2 (by norm_num)
  linarith

/-- One rounded operation on a value known up to a relative error: the error grows from
`ε` to `ε + u + ε u` with `u = 2^-53`. -/
theorem rnd_rel_step (ε x z : ℚ) (hz : 0 ≤ z)
    (hclose : |z - x| ≤ ε * x) (hn : pow2 (-1021) ≤ rnd z) :
    |rnd z - x| ≤ (ε + 1 / 2 ^ 53 + ε * (1 / 2 ^ 53)) * x := by
  have h1 := rnd_rel_err z (le_of_pow2_le_rnd z hz hn)
  have h2 : z ≤ (1 + ε) * x := by
    have := (abs_le.mp hclose).2
    linarith
  have h3 : |rnd z - x| ≤ |rnd z - z| + |z - x| := by
    have := abs_add (rnd z - z) (z - x)
    simpa using this
  have h4 : z / 2 ^ 53 ≤ (1 + ε) * x / 2 ^ 53 :=
    div_le_div_of_nonneg_right h2 (by positivity)
  calc |rnd z - x| ≤ |rnd z - z| + |z - x| := h3
    _ ≤ z / 2 ^ 53 + ε * x := add_le_add h1 hclose
    _ ≤ (1 + ε) * x / 2 ^ 53 + ε * x := by linarith
    _ = (ε + 1 / 2 ^ 53 + ε * (1 / 2 ^ 53)) * x := by ring

theorem round_normal {s : Bool} {z : ℚ} (h : Dbl.normal (Dbl.round s z) = true) :
    Dbl.round s z = Dbl.fin s (rnd z) ∧ pow2 (-1021) ≤ rnd z := by
  unfold Dbl.round at h ⊢
  split_ifs at h ⊢ with hlt
  · simp only [Dbl.normal, Bool.and_eq_true, decide_eq_true_eq] at h
    exact ⟨rfl, h.1⟩
  · simp [Dbl.normal] at h

theorem div_rel_close (ε x z y : ℚ) (hy : 0 < y) (hclose : |z - x| ≤ ε * x) :
    |z / y - x / y| ≤ ε * (x / y) := by
  have e : z / y - x / y = (z - x) / y := by ring
  rw [e, abs_div, abs_of_pos hy]
  calc |z - x| / y ≤ ε * x / y := div_le_div_of_nonneg_right hclose hy.le
    _ = ε * (x / y) := by ring

theorem sval_abs (s : Bool) (q : ℚ) (hq : 0 ≤ q) : |Dbl.sval s q| = q := by
  unfold Dbl.sval
  split_ifs
  · rw [abs_neg, abs_of_nonneg hq]
  · exact abs_of_nonneg hq

theorem sval_zero (s : Bool) : Dbl.sval s 0 = 0 := by
  unfold Dbl.sval; split_ifs <;> simp

theorem sval_neg (s : Bool) (q : ℚ) : Dbl.sval (!s) q = -Dbl.sval s q := by
  cases s <;> simp [Dbl.sval]

theorem sval_xor (s t : Bool) (p q : ℚ) :
    Dbl.sval (xor s t) (p * q) = Dbl.sval s p * Dbl.sval t q := by
  cases s <;> cases t <;> simp [Dbl.sval]

theorem sqrtGo_spec (n : Nat) (fuel : Nat) :
    ∀ lo hi : Nat, lo * lo ≤ n → n < hi * hi → hi ≤ lo + 2 ^ fuel →
      sqrtGo n fuel lo hi * sqrtGo n fuel lo hi ≤ n ∧
      n < (sqrtGo n fuel lo hi + 1) * (sqrtGo n fuel lo hi + 1) := by
  induction fuel with
  | zero =>
    intro lo hi h1 h2 h3
    simp only [sqrtGo]
    have hlt : lo < hi := by
      by_contra h
      have : hi * hi ≤ lo * lo := Nat.mul_le_mul (not_lt.mp h) (not_lt.mp h)
      omega
    have : hi = lo + 1 := by simp at h3; omega
    subst this
    exact ⟨h1, h2⟩
  | succ fuel ih =>
    intro lo hi h1 h2 h3
    have hlt : lo < hi := by
      by_contra h
      have : hi * hi ≤ lo * lo := Nat.mul_le_mul (not_lt.mp h) (not_lt.mp h)
      omega
    simp only [sqrtGo]
    split_ifs with ha hb
    · have : hi = lo + 1 := by omega
      subst this
      exact ⟨h1, h2⟩
    · apply ih _ _ hb h2
      rw [pow_succ] at h3
      omega
    · apply ih _ _ h1 (not_le.mp hb)
      rw [pow_succ] at h3
      omega

theorem nsqrt_spec (n : Nat) :
    nsqrt n * nsqrt n ≤ n ∧ n < (nsqrt n + 1) * (nsqrt n + 1) := by
  unfold nsqrt
  apply sqrtGo_spec n _ 0 _ (by simp)
  · rcases Nat.eq_zero_or_pos n with h0 | hpos
    · subst h0
      have : nlog2 0 = 0 := by decide
      rw [this]; norm_num
    · have h2 := (nlog2_spec n hpos).2
      have hk : nlog2 n + 1 ≤ 2 * (nlog2 n / 2 + 1) := by omega
      calc n < 2 ^ (nlog2 n + 1) := h2
        _ ≤ 2 ^ (2 * (nlog2 n / 2 + 1)) := Nat.pow_le_pow_right (by norm_num) hk
        _ = 2 ^ (nlog2 n / 2 + 1) * 2 ^ (nlog2 n / 2 + 1) := by
          rw [two_mul, pow_add]
  · have : nlog2 n / 2 + 1 ≤ nlog2 n + 2 := by omega
    have := Nat.pow_le_pow_right (show 0 < 2 by norm_num) this
    omega

theorem sq_round_bounds (u T M x : ℚ) (hu : 0 < u) (hu1 : u < 1) (hT : 0 < T)
    (huT : u * T = 1 / 2) (hMT : T ≤ M) (hlow : (M - 1 / 2) ^ 2 ≤ x)
    (hhigh : x ≤ (M + 1 / 2) ^ 2) (hT2 : M = T → T ^ 2 ≤ x) (hT1 : M ≠ T → T + 1 ≤ M) :
    (1 - u) ^ 2 * x ≤ M ^ 2 ∧ M ^ 2 ≤ (1 + u) ^ 2 * x := by
  have hM0 : 0 < M := lt_of_lt_of_le hT hMT
  have huM : 1 / 2 ≤ u * M := by
    rw [← huT]; exact mul_le_mul_of_nonneg_left hMT hu.le
  constructor
  · have h1 : (1 - u) * (M + 1 / 2) ≤ M := by nlinarith
    have h0 : 0 ≤ (1 - u) * (M + 1 / 2) := mul_nonneg (by linarith) (by linarith)
    calc (1 - u) ^ 2 * x ≤ (1 - u) ^ 2 * (M + 1 / 2) ^ 2 :=
          mul_le_mul_of_nonneg_left hhigh (by positivity)
      _ = ((1 - u) * (M + 1 / 2)) ^ 2 := by ring
      _ ≤ M ^ 2 := pow_le_pow_left₀ h0 h1 2
  · by_cases hMeq : M = T
    · have h2 := hT2 hMeq
      rw [hMeq]
      have h1 : (1 : ℚ) ≤ (1 + u) ^ 2 := by nlinarith
      have hx0 : 0 ≤ x := le_trans (by positivity) h2
      nlinarith
    · have h3 := hT1 hMeq
      have huM' : 1 / 2 + u ≤ u * M := by
        have := mul_le_mul_of_nonneg_left h3 hu.le
        linarith
      have h1 : M ≤ (1 + u) * (M - 1 / 2) := by nlinarith
      calc M ^ 2 ≤ ((1 + u) * (M - 1 / 2)) ^ 2 := pow_le_pow_left₀ hM0.le h1 2
        _ = (1 + u) ^ 2 * (M - 1 / 2) ^ 2 := by ring
        _ ≤ (1 + u) ^ 2 * x := mul_le_mul_of_nonneg_left hlow (by positivity)

theorem sqrtRnd_bounds (q : ℚ) (hq : 0 < q) :
    0 < sqrtRnd q ∧ (1 - 1 / 2 ^ 53) ^ 2 * q ≤ sqrtRnd q ^ 2 ∧
      sqrtRnd q ^ 2 ≤ (1 + 1 / 2 ^ 53) ^ 2 * q := by
  obtain ⟨k1, k2⟩ := ilog2_spec q hq
  set e : Int := ilog2 q / 2 - 52 with he
  have hpe := pow2_pos (2 * e)
  set x : ℚ := q / pow2 (2 * e) with hx
  have hqx : q = x * pow2 (2 * e) := by rw [hx]; field_simp
  have h104 : pow2 104 = ((2 : ℚ) ^ 52) ^ 2 := by rw [pow2_eq_zpow]; norm_num
  have hx104 : ((2 : ℚ) ^ 52) ^ 2 ≤ x := by
    rw [hx, le_div_iff₀ hpe, ← h104, ← pow2_add]
    refine le_trans (pow2_le_pow2 ?_) k1
    omega
  have hx0 : 0 ≤ x := le_trans (by positivity) hx104
  set n : Nat := x.num.natAbs / x.den with hn
  have hnf : n = ⌊x⌋₊ := natAbs_div_den x hx0
  have hn1 : (n : ℚ) ≤ x := by rw [hnf]; exact Nat.floor_le hx0
  have hn2 : x < (n : ℚ) + 1 := by rw [hnf]; exact Nat.lt_floor_add_one x
  have hn104 : 2 ^ 52 * 2 ^ 52 ≤ n := by
    rw [hnf]
    apply Nat.le_floor
    have h2 : (((2 ^ 52 * 2 ^ 52 : Nat)) : ℚ) = ((2 : ℚ) ^ 52) ^ 2 := by norm_num
    rw [h2]
    exact hx104
  obtain ⟨f1, f2⟩ := nsqrt_spec n
  set f : Nat := nsqrt n with hf
  have hf52 : 2 ^ 52 ≤ f := by
    by_contra h
    have h' : f + 1 ≤ 2 ^ 52 := Nat.succ_le_of_lt (not_le.mp h)
    have h3 : (f + 1) * (f + 1) ≤ 2 ^ 52 * 2 ^ 52 := Nat.mul_le_mul h' h'
    exact absurd (lt_of_lt_of_le f2 h3) (not_lt.mpr hn104)
  have hf52q : (2 : ℚ) ^ 52 ≤ (f : ℚ) := by exact_mod_cast hf52
  have f1q : (f : ℚ) * f ≤ x := by
    have : ((f * f : Nat) : ℚ) ≤ (n : ℚ) := by exact_mod_cast f1
    push_cast at this
    linarith
  have f2q : x < ((f : ℚ) + 1) * (f + 1) := by
    have : ((n + 1 : Nat) : ℚ) ≤ (((f + 1) * (f + 1) : Nat) : ℚ) := by exact_mod_cast f2
    push_cast at this
    linarith
  have hh : (((2 * f + 1 : Nat) : ℚ)) ^ 2 / 4 = ((f : ℚ) + 1 / 2) ^ 2 := by
    push_cast; ring
  have hT0 : (0 : ℚ) < 2 ^ 52 := by positivity
  have huT : (1 : ℚ) / 2 ^ 53 * 2 ^ 52 = 1 / 2 := by norm_num
  -- the rounded significand `M` is within one half of the square root of `x`
  have key : ∀ M : ℚ, (M = f ∧ x ≤ ((f : ℚ) + 1 / 2) ^ 2) ∨
      (M = f + 1 ∧ ((f : ℚ) + 1 / 2) ^ 2 ≤ x) →
      0 < M * pow2 e ∧ (1 - 1 / 2 ^ 53) ^ 2 * q ≤ (M * pow2 e) ^ 2 ∧
        (M * pow2 e) ^ 2 ≤ (1 + 1 / 2 ^ 53) ^ 2 * q := by
    intro M hM
    have hsq : (M * pow2 e) ^ 2 = M ^ 2 * pow2 (2 * e) := by
      rw [two_mul, pow2_add]; ring
    have hM52 : (2 : ℚ) ^ 52 ≤ M := by
      rcases hM with ⟨rfl, _⟩ | ⟨rfl, _⟩ <;> linarith
    have hM0 : 0 < M := lt_of_lt_of_le hT0 hM52
    have hlow : (M - 1 / 2) ^ 2 ≤ x := by
      rcases hM with ⟨rfl, _⟩ | ⟨rfl, h⟩
      · have hf0 : (0 : ℚ) ≤ f := Nat.cast_nonneg f
        generalize (f : ℚ) = g at *
        nlinarith
      · have : (f : ℚ) + 1 - 1 / 2 = f + 1 / 2 := by ring
        rw [this]; exact h
    have hhigh : x ≤ (M + 1 / 2) ^ 2 := by
      rcases hM with ⟨rfl, h⟩ | ⟨rfl, _⟩
      · exact h
      · have hf0 : (0 : ℚ) ≤ f := Nat.cast_nonneg f
        generalize (f : ℚ) = g at *
        nlinarith
    have hT1 : M ≠ 2 ^ 52 → (2 : ℚ) ^ 52 + 1 ≤ M := by
      intro hne
      rcases hM with ⟨rfl, _⟩ | ⟨rfl, _⟩
      · have h1 : (2 : Nat) ^ 52 ≠ f := by
          intro h; apply hne; rw [← h]; norm_num
        have h2 : 2 ^ 52 + 1 ≤ f := Nat.succ_le_of_lt (lt_of_le_of_ne hf52 h1)
        exact_mod_cast h2
      · linarith
    have hT2 : M = 2 ^ 52 → ((2 : ℚ) ^ 52) ^ 2 ≤ x := fun _ => hx104
    obtain ⟨b1, b2⟩ := sq_round_bounds (1 / 2 ^ 53) (2 ^ 52) M x (by positivity)
      (by norm_num) hT0 huT hM52 hlow hhigh hT2 hT1
    refine ⟨mul_pos hM0 (pow2_pos e), ?_, ?_⟩
    · rw [hsq, hqx, ← mul_assoc]
      exact mul_le_mul_of_nonneg_right b1 hpe.le
    · rw [hsq, hqx, ← mul_assoc]
      exact mul_le_mul_of_nonneg_right b2 hpe.le
  have hval : sqrtRnd q =
      (((if x < ((2 * f + 1 : Nat) : ℚ) ^ 2 / 4 then f
        else if ((2 * f + 1 : Nat) : ℚ) ^ 2 / 4 < x then f + 1
        else if f % 2 = 0 then f else f + 1 : Nat) : ℚ)) * pow2 e := rfl
  rw [hval, hh]
  split_ifs with a b c
  · exact key _ (Or.inl ⟨rfl, a.le⟩)
  · have := key ((f : ℚ) + 1) (Or.inr ⟨rfl, b.le⟩)
    push_cast
    exact this
  · exact key _ (Or.inl ⟨rfl, not_lt.mp b⟩)
  · have := key ((f : ℚ) + 1) (Or.inr ⟨rfl, not_lt.mp a⟩)
    push_cast
    exact this

/-! ## Ranges and accumulated rounding errors -/

theorem Band.pos {i j : Int} {a : ℚ} (h : Band i j a) : 0 < a :=
  lt_of_lt_of_le (pow2_pos i) h.1

theorem Band.mono {i j i' j' : Int} {a : ℚ} (h : Band i j a) (hi : i' ≤ i) (hj : j ≤ j') :
    Band i' j' a :=
  ⟨le_trans (pow2_le_pow2 hi) h.1, le_trans h.2 (pow2_le_pow2 hj)⟩

theorem Band.mul {i j k l : Int} {a b : ℚ} (ha : Band i j a) (hb : Band k l b) :
    Band (i + k) (j + l) (a * b) := by
  constructor
  · rw [pow2_add]
    exact mul_le_mul ha.1 hb.1 (pow2_pos k).le ha.pos.le
  · rw [pow2_add]
    exact mul_le_mul ha.2 hb.2 hb.pos.le (pow2_pos j).le

theorem pow2_neg (k : Int) : pow2 (-k) = (pow2 k)⁻¹ := by
  simp only [pow2_eq_zpow, zpow_neg]

theorem Band.inv {k l : Int} {b : ℚ} (hb : Band k l b) : Band (-l) (-k) b⁻¹ := by
  constructor
  · rw [pow2_neg]
    exact inv_anti₀ hb.pos hb.2
  · rw [pow2_neg]
    exact inv_anti₀ (pow2_pos k) hb.1

theorem Band.div {i j k l : Int} {a b : ℚ} (ha : Band i j a) (hb : Band k l b) :
    Band (i - l) (j - k) (a / b) := by
  rw [div_eq_mul_inv, sub_eq_add_neg, sub_eq_add_neg]
  exact ha.mul hb.inv

theorem Band.add {i j : Int} {a b : ℚ} (ha : Band i j a) (hb : Band i j b) :
    Band i (j + 1) (a + b) := by
  constructor
  · have := hb.pos
    linarith [ha.1]
  · rw [pow2_add]
    have : pow2 1 = 2 := by rw [pow2_eq_zpow]; norm_num
    rw [this]
    linarith [ha.2, hb.2]

theorem Band.add_left {i j : Int} {a b : ℚ} (ha : Band i j a) (hb : b = 0 ∨ Band i j b) :
    Band i (j + 1) (a + b) := by
  rcases hb with rfl | hb
  · rw [add_zero]; exact ha.mono le_rfl (by omega)
  · exact ha.add hb

theorem Band.close {i j : Int} {x z ε : ℚ} (hx : Band i j x) (hclose : |z - x| ≤ ε * x)
    (hε : ε ≤ 1 / 2) : Band (i - 1) (j + 1) z := by
  have hpos := hx.pos
  obtain ⟨c1, c2⟩ := abs_le.mp hclose
  have h1 : ε * x ≤ 1 / 2 * x := mul_le_mul_of_nonneg_right hε hpos.le
  have e1 : pow2 (i - 1) = pow2 i / 2 := by
    rw [sub_eq_add_neg, pow2_add]
    have : pow2 (-1) = 1 / 2 := by rw [pow2_eq_zpow]; norm_num
    rw [this]; ring
  have e2 : pow2 (j + 1) = pow2 j * 2 := by
    rw [pow2_add]
    have : pow2 1 = 2 := by rw [pow2_eq_zpow]; norm_num
    rw [this]
  constructor
  · rw [e1]; linarith [hx.1]
  · rw [e2]; linarith [hx.2]

theorem representable_pow2 (k : Int) (hk : -1074 ≤ k) : Representable (pow2 k) :=
  ⟨1, k, hk, by norm_num, by simp⟩

/-- One rounded operation inside the range `2^-1000 .. 2^1000` (or on an exact zero): the
result does not overflow and the relative error grows from `ε` to `ε'`. -/
theorem band_step (ε ε' x z : ℚ) (hz : 0 ≤ z) (hclose : |z - x| ≤ ε * x) (hε : ε ≤ 1 / 2)
    (hε' : ε + 1 / 2 ^ 53 + ε * (1 / 2 ^ 53) ≤ ε')
    (hx : x = 0 ∨ Band (-1000) 1000 x) :
    rnd z < pow2 1024 ∧ |rnd z - x| ≤ ε' * x := by
  rcases hx with rfl | hx
  · have hz0 : z = 0 := by
      have : |z - 0| ≤ 0 := by simpa using hclose
      have := abs_nonpos_iff.mp this
      linarith
    subst hz0
    rw [rnd_zero]
    exact ⟨pow2_1024_pos, by simp⟩
  · have hb := hx.close hclose hε
    have hlo : pow2 (-1001) ≤ rnd z := by
      have := rnd_mono (pow2_pos (-1001)).le hb.1
      rwa [rnd_of_representable _ (representable_pow2 _ (by norm_num))] at this
    have hhi : rnd z ≤ pow2 1001 := by
      have := rnd_mono hz hb.2
      rwa [rnd_of_representable _ (representable_pow2 _ (by norm_num))] at this
    refine ⟨lt_of_le_of_lt hhi (pow2_lt_pow2 (by norm_num)), ?_⟩
    have hn : pow2 (-1021) ≤ rnd z := le_trans (pow2_le_pow2 (by norm_num)) hlo
    exact le_trans (rnd_rel_step ε x z hz hclose hn)
      (mul_le_mul_of_nonneg_right hε' hx.pos.le)

theorem add_fin_nonneg (a b : ℚ) (ha : 0 ≤ a) (hb : 0 ≤ b) (h : rnd (a + b) < pow2 1024) :
    Dbl.add (Dbl.fin false a) (Dbl.fin false b) = Dbl.fin false (rnd (a + b)) := by
  simp only [Dbl.add, Dbl.sval, Bool.false_eq_true, if_false]
  split_ifs with h0
  · rw [h0, rnd_zero]; simp
  · have hpos : 0 < a + b := lt_of_le_of_ne (add_nonneg ha hb) (Ne.symm h0)
    rw [abs_of_pos hpos]
    have : decide (a + b < 0) = false := by simp [hpos.le]
    rw [this, round_of_lt _ _ h]

theorem mul_fin_of_lt (s t : Bool) (p q : ℚ) (h : rnd (p * q) < pow2 1024) :
    Dbl.mul (Dbl.fin s p) (Dbl.fin t q) = Dbl.fin (xor s t) (rnd (p * q)) := by
  simp only [Dbl.mul]
  exact round_of_lt _ _ h

theorem div_fin_of_lt (s t : Bool) (p q : ℚ) (hq : q ≠ 0) (h : rnd (p / q) < pow2 1024) :
    Dbl.div (Dbl.fin s p) (Dbl.fin t q) = Dbl.fin (xor s t) (rnd (p / q)) := by
  simp only [Dbl.div, hq, if_false]
  exact round_of_lt _ _ h

theorem close_add {ε a A b B : ℚ} (ha : |a - A| ≤ ε * A) (hb : |b - B| ≤ ε * B) :
    |a + b - (A + B)| ≤ ε * (A + B) := by
  have e : a + b - (A + B) = (a - A) + (b - B) := by ring
  rw [e, mul_add]
  exact le_trans (abs_add _ _) (add_le_add ha hb)

theorem close_exact (x : ℚ) : |x - x| ≤ 0 * x := by simp

theorem close_mul_right {ε a A : ℚ} (c : ℚ) (hc : 0 ≤ c) (ha : |a - A| ≤ ε * A) :
    |a * c - A * c| ≤ ε * (A * c) := by
  have e : a * c - A * c = (a - A) * c := by ring
  rw [e, abs_mul, abs_of_nonneg hc, ← mul_assoc]
  exact mul_le_mul_of_nonneg_right ha hc

theorem close_weaken {ε ε' a A : ℚ} (hA : 0 ≤ A) (h : ε ≤ ε') (ha : |a - A| ≤ ε * A) :
    |a - A| ≤ ε' * A :=
  le_trans ha (mul_le_mul_of_nonneg_right h hA)

/-- A square of a value known up to the relative error `ε` is known up to `2ε + ε^2`. -/
theorem close_sq {ε a A : ℚ} (hA : 0 ≤ A) (hε : 0 ≤ ε) (ha : |a - A| ≤ ε * A) :
    |a * a - A * A| ≤ (2 * ε + ε * ε) * (A * A) := by
  obtain ⟨h1, h2⟩ := abs_le.mp ha
  have e : a * a - A * A = (a - A) * (a + A) := by ring
  rw [e, abs_mul]
  have h3 : |a + A| ≤ (2 + ε) * A := by
    rw [abs_le]; constructor <;> nlinarith
  calc |a - A| * |a + A| ≤ ε * A * ((2 + ε) * A) :=
        mul_le_mul ha h3 (abs_nonneg _) (by positivity)
    _ = (2 * ε + ε * ε) * (A * A) := by ring

/-- Combination of the error of a rounded sum of squares with that of the rounded square
root. -/
theorem close_sqrt (u e c s V m2 : ℚ) (hV : 0 ≤ V)
    (h1 : |s - V| ≤ e * V) (h2 : (1 - u) ^ 2 * s ≤ m2) (h3 : m2 ≤ (1 + u) ^ 2 * s)
    (hc1 : (1 + u) ^ 2 * (1 + e) ≤ 1 + c) (hc2 : 1 - c ≤ (1 - u) ^ 2 * (1 - e)) :
    |m2 - V| ≤ c * V := by
  obtain ⟨a1, a2⟩ := abs_le.mp h1
  have s1 : s ≤ (1 + e) * V := by linarith
  have s2 : (1 - e) * V ≤ s := by linarith
  rw [abs_le]
  constructor
  · have : (1 - c) * V ≤ m2 :=
      calc (1 - c) * V ≤ (1 - u) ^ 2 * (1 - e) * V := mul_le_mul_of_nonneg_right hc2 hV
        _ = (1 - u) ^ 2 * ((1 - e) * V) := by ring
        _ ≤ (1 - u) ^ 2 * s := mul_le_mul_of_nonneg_left s2 (by positivity)
        _ ≤ m2 := h2
    linarith
  · have : m2 ≤ (1 + c) * V :=
      calc m2 ≤ (1 + u) ^ 2 * s := h3
        _ ≤ (1 + u) ^ 2 * ((1 + e) * V) := mul_le_mul_of_nonneg_left s1 (by positivity)
        _ = (1 + u) ^ 2 * (1 + e) * V := by ring
        _ ≤ (1 + c) * V := mul_le_mul_of_nonneg_right hc1 hV
    linarith

theorem pow2_sq (k : Int) : pow2 k ^ 2 = pow2 (2 * k) := by
  rw [two_mul, pow2_add]; ring

theorem band_of_sq_band {i j : Int} {m : ℚ} (hm : 0 < m) (h : Band (2 * i) (2 * j) (m ^ 2)) :
    Band i j m := by
  constructor
  · have h1 : pow2 i ^ 2 ≤ m ^ 2 := by rw [pow2_sq]; exact h.1
    exact (pow_le_pow_iff_left₀ (pow2_pos i).le hm.le (by norm_num)).mp h1
  · have h1 : m ^ 2 ≤ pow2 j ^ 2 := by rw [pow2_sq]; exact h.2
    exact (pow_le_pow_iff_left₀ hm.le (pow2_pos j).le (by norm_num)).mp h1

theorem zband_sq {i j : Int} {q : ℚ} (h : q = 0 ∨ Band i j q) :
    q * q = 0 ∨ Band (2 * i) (2 * j) (q * q) := by
  rcases h with rfl | h
  · left; simp
  · right
    have := h.mul h
    rwa [← two_mul, ← two_mul] at this

theorem isFinite_iff (x : Dbl) : Dbl.isFinite x = true ↔ ∃ s q, x = Dbl.fin s q := by
  cases x <;> simp [Dbl.isFinite]

theorem ofRat_four : Dbl.ofRat 4 = Dbl.fin false 4 := by decide!

theorem representable_four_mul {q : ℚ} (h : Representable q) : Representable (4 * q) := by
  obtain ⟨m, e, he, hm, rfl⟩ := h
  refine ⟨m, e + 2, by omega, hm, ?_⟩
  have : pow2 2 = 4 := by rw [pow2_eq_zpow]; norm_num
  rw [pow2_add, this]
  ring

theorem isBinary64_fin {s : Bool} {q : ℚ} (h : Dbl.IsBinary64 (Dbl.fin s q) = true) :
    0 ≤ q ∧ Representable q ∧ q < pow2 1024 := by
  simp only [Dbl.IsBinary64, Bool.and_eq_true, decide_eq_true_eq] at h
  obtain ⟨⟨h0, h1⟩, h2⟩ := h
  refine ⟨h0, ?_, h2⟩
  rw [← h1]
  exact representable_rnd q h0

/-- A sum that compares below zero has a negative exact value. -/
theorem lt_zero_of_add (s t : Bool) (p q : ℚ)
    (h : Dbl.lt (Dbl.add (Dbl.fin s p) (Dbl.fin t q)) (Dbl.fin false 0) = true) :
    Dbl.sval s p + Dbl.sval t q < 0 := by
  simp only [Dbl.add] at h
  split_ifs at h with h0
  · simp [Dbl.lt, Dbl.sval] at h
  · unfold Dbl.round at h
    split_ifs at h with h1
    · by_contra hge
      have hd : decide (Dbl.sval s p + Dbl.sval t q < 0) = false := by simpa using hge
      rw [hd] at h
      simp only [Dbl.lt, decide_eq_true_eq] at h
      have h2 : Dbl.sval false (rnd |Dbl.sval s p + Dbl.sval t q|)
          = rnd |Dbl.sval s p + Dbl.sval t q| := by simp [Dbl.sval]
      have h3 : Dbl.sval false 0 = 0 := by simp [Dbl.sval]
      rw [h2, h3] at h
      have := rnd_nonneg |Dbl.sval s p + Dbl.sval t q|
      linarith
    · simpa [Dbl.lt] using h

/-- Rounding preserves strict order in one direction: a smaller rounded value comes from a
smaller exact value. -/
theorem lt_of_rnd_lt {p q : ℚ} (hq : 0 ≤ q) (h : rnd p < rnd q) : p < q := by
  by_contra hge
  exact absurd (rnd_mono hq (not_lt.mp hge)) (not_le.mpr h)

theorem ofRat_zero : Dbl.ofRat 0 = Dbl.fin false 0 := by
  simp [Dbl.ofRat, round_zero]

theorem inBand_fin {x : Dbl} (h : Dbl.inBand x = true) :
    ∃ (s : Bool) (q : ℚ), x = Dbl.fin s q ∧ (q = 0 ∨ Band (-100) 100 q) := by
  cases x with
  | nan => simp [Dbl.inBand] at h
  | inf s => simp [Dbl.inBand] at h
  | fin s q =>
    refine ⟨s, q, rfl, ?_⟩
    simp only [Dbl.inBand, Bool.or_eq_true, Bool.and_eq_true, decide_eq_true_eq] at h
    rcases h with h | h
    · exact Or.inl h
    · exact Or.inr h

theorem ne_zero_of_eq_false {s : Bool} {q : ℚ} (h : Dbl.eq (Dbl.fin s q) (Dbl.ofRat 0) = false) :
    q ≠ 0 := by
  rintro rfl
  rw [ofRat_zero] at h
  simp [Dbl.eq, Dbl.sval] at h

theorem zband_add {i j : Int} {a b : ℚ} (ha : a = 0 ∨ Band i j a) (hb : b = 0 ∨ Band i j b) :
    a + b = 0 ∨ Band i (j + 1) (a + b) := by
  rcases ha with rfl | ha
  · rcases hb with rfl | hb
    · left; simp
    · right; rw [zero_add]; exact hb.mono le_rfl (by omega)
  · exact Or.inr (ha.add_left hb)

theorem zband_nonneg {i j : Int} {a : ℚ} (ha : a = 0 ∨ Band i j a) : 0 ≤ a := by
  rcases ha with rfl | ha
  · exact le_rfl
  · exact ha.pos.le

theorem add_fin_same (s : Bool) (a b : ℚ) (ha : 0 ≤ a) (hb : 0 ≤ b)
    (h : rnd (a + b) < pow2 1024) :
    Dbl.add (Dbl.fin s a) (Dbl.fin s b) = Dbl.fin s (rnd (a + b)) := by
  cases s with
  | false => exact add_fin_nonneg a b ha hb h
  | true =>
    simp only [Dbl.add, Dbl.sval, if_true]
    split_ifs with h0
    · have : a + b = 0 := by linarith
      rw [this, rnd_zero]; simp
    · have hpos : 0 < a + b := by
        rcases lt_or_eq_of_le (add_nonneg ha hb) with h1 | h1
        · exact h1
        · exfalso; apply h0; linarith
      have e : |-a + -b| = a + b := by
        rw [show -a + -b = -(a + b) by ring, abs_neg, abs_of_pos hpos]
      have d : decide (-a + -b < 0) = true := by
        simp only [decide_eq_true_eq]; linarith
      rw [e, d, round_of_lt _ _ h]

theorem sval_close (s : Bool) (a b S e : ℚ) (hb : 0 ≤ S * b)
    (c : |a - S * b| ≤ e * (S * b)) :
    |Dbl.sval s a - S * Dbl.sval s b| ≤ e * |S * Dbl.sval s b| := by
  cases s with
  | false =>
    simp only [Dbl.sval, Bool.false_eq_true, if_false]
    rwa [abs_of_nonneg hb]
  | true =>
    simp only [Dbl.sval, if_true]
    have e1 : -a - S * -b = -(a - S * b) := by ring
    have e2 : S * -b = -(S * b) := by ring
    rw [e1, e2, abs_neg, abs_neg, abs_of_nonneg hb]
    exact c

theorem sval_sub_abs (s : Bool) (a b : ℚ) : |Dbl.sval s a - Dbl.sval s b| = |a - b| := by
  cases s with
  | false => simp [Dbl.sval]
  | true =>
    simp only [Dbl.sval, if_true]
    rw [show -a - -b = -(a - b) by ring, abs_neg]

theorem pos_of_lt_zero {s : Bool} {q : ℚ} (hq : q = 0 ∨ Band (-100) 100 q)
    (h : Dbl.lt (Dbl.ofRat 0) (Dbl.fin s q) = true) : s = false ∧ Band (-100) 100 q := by
  rw [ofRat_zero] at h
  simp only [Dbl.lt, Dbl.sval, Bool.false_eq_true, if_false, decide_eq_true_eq] at h
  have h0 := zband_nonneg hq
  cases s with
  | true =>
    simp only [if_true] at h
    linarith
  | false =>
    simp only [Bool.false_eq_true, if_false] at h
    refine ⟨rfl, ?_⟩
    rcases hq with h1 | h1
    · linarith
    · exact h1

theorem close_trans {a b c ε1 ε2 : ℚ} (h1 : |a - b| ≤ ε1 * b) (h2 : |b - c| ≤ ε2 * c)
    (hε : 0 ≤ ε1) : |a - c| ≤ (ε1 + ε2 + ε1 * ε2) * c := by
  obtain ⟨a1, a2⟩ := abs_le.mp h1
  obtain ⟨b1, b2⟩ := abs_le.mp h2
  have hb : ε1 * b ≤ ε1 * ((1 + ε2) * c) := mul_le_mul_of_nonneg_left (by linarith) hε
  rw [abs_le]
  constructor <;> nlinarith

theorem zband_close {i j : Int} {x z ε : ℚ} (hx : x = 0 ∨ Band i j x)
    (hclose : |z - x| ≤ ε * x) (hε : ε ≤ 1 / 2) : z = 0 ∨ Band (i - 1) (j + 1) z := by
  rcases hx with rfl | hx
  · left
    have : |z - 0| ≤ 0 := by simpa using hclose
    have := abs_nonpos_iff.mp this
    linarith
  · exact Or.inr (hx.close hclose hε)

/-- Comparison of a computed value `K`, whose square is close to `B^2 * ρ`, with a computed
value `w`, close to `B`, when `ρ` is close to one. -/
theorem final_close_sq (B ρ K w c1 c u t : ℚ) (hB : 0 < B) (hρ : 0 ≤ ρ) (hK : 0 ≤ K)
    (h1 : |K ^ 2 - B ^ 2 * ρ| ≤ c1 * (B ^ 2 * ρ)) (hρ1 : ρ * (1 - c) ≤ 1)
    (hρ2 : 1 ≤ ρ * (1 + c)) (hw : |w - B| ≤ u * B)
    (hu0 : 0 ≤ u) (hu : u ≤ 1) (ht0 : 0 ≤ t) (ht : t ≤ 1)
    (n1 : 1 + c1 ≤ ((1 + t) * (1 - u)) ^ 2 * (1 - c))
    (n2 : ((1 - t) * (1 + u)) ^ 2 * (1 + c) ≤ 1 - c1) :
    |K - w| ≤ t * w := by
  obtain ⟨k1, k2⟩ := abs_le.mp h1
  obtain ⟨w1, w2⟩ := abs_le.mp hw
  have hB2 : 0 ≤ B ^ 2 := sq_nonneg B
  have hX : 0 ≤ (1 + t) * (1 - u) := mul_nonneg (by linarith) (by linarith)
  have hY : 0 ≤ (1 - t) * (1 + u) := mul_nonneg (by linarith) (by linarith)
  have up1 : (1 + c1) * ρ ≤ ((1 + t) * (1 - u)) ^ 2 := by
    calc (1 + c1) * ρ ≤ ((1 + t) * (1 - u)) ^ 2 * (1 - c) * ρ :=
          mul_le_mul_of_nonneg_right n1 hρ
      _ = ((1 + t) * (1 - u)) ^ 2 * (ρ * (1 - c)) := by ring
      _ ≤ ((1 + t) * (1 - u)) ^ 2 * 1 := mul_le_mul_of_nonneg_left hρ1 (sq_nonneg _)
      _ = ((1 + t) * (1 - u)) ^ 2 := by ring
  have up2 : K ^ 2 ≤ ((1 + t) * (1 - u) * B) ^ 2 := by
    have := mul_le_mul_of_nonneg_left up1 hB2
    calc K ^ 2 ≤ B ^ 2 * ρ + c1 * (B ^ 2 * ρ) := by linarith
      _ = B ^ 2 * ((1 + c1) * ρ) := by ring
      _ ≤ B ^ 2 * ((1 + t) * (1 - u)) ^ 2 := this
      _ = ((1 + t) * (1 - u) * B) ^ 2 := by ring
  have up3 : K ≤ (1 + t) * (1 - u) * B :=
    (pow_le_pow_iff_left₀ hK (mul_nonneg hX hB.le) (by norm_num)).mp up2
  have lo1 : ((1 - t) * (1 + u)) ^ 2 ≤ (1 - c1) * ρ := by
    have hc1 : 0 ≤ 1 - c1 := by
      have : 0 ≤ ((1 - t) * (1 + u)) ^ 2 * (1 + c) := by
        by_contra hneg
        push_neg at hneg
        have h2 : 0 ≤ ((1 - t) * (1 + u)) ^ 2 := sq_nonneg _
        have h3 : 0 < ρ * (1 + c) := by linarith
        have h4 : 0 ≤ ρ * (((1 - t) * (1 + u)) ^ 2 * (1 + c)) := by
          have : ρ * (((1 - t) * (1 + u)) ^ 2 * (1 + c))
              = ((1 - t) * (1 + u)) ^ 2 * (ρ * (1 + c)) := by ring
          rw [this]
          exact mul_nonneg h2 h3.le
        have hρpos : 0 < ρ := by
          rcases lt_or_eq_of_le hρ with h | h
          · exact h
          · rw [← h] at h3; simp at h3
        nlinarith
      linarith
    calc ((1 - t) * (1 + u)) ^ 2 = ((1 - t) * (1 + u)) ^ 2 * 1 := by ring
      _ ≤ ((1 - t) * (1 + u)) ^ 2 * (ρ * (1 + c)) :=
          mul_le_mul_of_nonneg_left hρ2 (sq_nonneg _)
      _ = ((1 - t) * (1 + u)) ^ 2 * (1 + c) * ρ := by ring
      _ ≤ (1 - c1) * ρ := mul_le_mul_of_nonneg_right n2 hρ
  have lo2 : ((1 - t) * (1 + u) * B) ^ 2 ≤ K ^ 2 := by
    have := mul_le_mul_of_nonneg_left lo1 hB2
    calc ((1 - t) * (1 + u) * B) ^ 2 = B ^ 2 * ((1 - t) * (1 + u)) ^ 2 := by ring
      _ ≤ B ^ 2 * ((1 - c1) * ρ) := this
      _ = B ^ 2 * ρ - c1 * (B ^ 2 * ρ) := by ring
      _ ≤ K ^ 2 := by linarith
  have lo3 : (1 - t) * (1 + u) * B ≤ K :=
    (pow_le_pow_iff_left₀ (mul_nonneg hY hB.le) hK (by norm_num)).mp lo2
  have e1 : (1 + t) * (1 - u) * B ≤ (1 + t) * w := by
    have : (1 - u) * B ≤ w := by linarith
    calc (1 + t) * (1 - u) * B = (1 + t) * ((1 - u) * B) := by ring
      _ ≤ (1 + t) * w := mul_le_mul_of_nonneg_left this (by linarith)
  have e2 : (1 - t) * w ≤ (1 - t) * (1 + u) * B := by
    have : w ≤ (1 + u) * B := by linarith
    calc (1 - t) * w ≤ (1 - t) * ((1 + u) * B) :=
          mul_le_mul_of_nonneg_left this (by linarith)
      _ = (1 - t) * (1 + u) * B := by ring
  rw [abs_le]
  constructor <;> linarith

/-! ## Magnitude bounds through the operations -/

theorem within_iff (M : Int) (x : Dbl) :
    Dbl.within M x = true ↔ ∃ (s : Bool) (q : ℚ), x = Dbl.fin s q ∧ 0 ≤ q ∧ q ≤ pow2 M := by
  cases x with
  | nan => simp [Dbl.within]
  | inf s => simp [Dbl.within]
  | fin s q =>
    simp only [Dbl.within, Bool.and_eq_true, decide_eq_true_eq]
    constructor
    · intro h
      exact ⟨s, q, rfl, h⟩
    · rintro ⟨s1, q1, h, h2⟩
      cases h
      exact h2

theorem within_finite {M : Int} {x : Dbl} (h : Dbl.within M x = true) :
    Dbl.isFinite x = true := by
  obtain ⟨s, q, rfl, -, -⟩ := (within_iff M x).mp h
  rfl

theorem within_mono {M N : Int} {x : Dbl} (h : Dbl.within M x = true) (hMN : M ≤ N) :
    Dbl.within N x = true := by
  obtain ⟨s, q, rfl, h0, h1⟩ := (within_iff M x).mp h
  exact (within_iff N _).mpr ⟨s, q, rfl, h0, le_trans h1 (pow2_le_pow2 hMN)⟩

theorem within_of_inBand {x : Dbl} (h : Dbl.inBand x = true) : Dbl.within 100 x = true := by
  obtain ⟨s, q, rfl, hq⟩ := inBand_fin h
  refine (within_iff 100 _).mpr ⟨s, q, rfl, zband_nonneg hq, ?_⟩
  rcases hq with rfl | hq
  · exact (pow2_pos 100).le
  · exact hq.2

theorem rnd_le_pow2 {q : ℚ} {M : Int} (hq : 0 ≤ q) (h : q ≤ pow2 M) (hM : -1074 ≤ M) :
    rnd q ≤ pow2 M := by
  have := rnd_mono hq h
  rwa [rnd_of_representable _ (representable_pow2 M hM)] at this

theorem round_within (s : Bool) {q : ℚ} {M : Int} (hq : 0 ≤ q) (h : q ≤ pow2 M)
    (hM : -1074 ≤ M) (hM1 : M ≤ 1023) : Dbl.within M (Dbl.round s q) = true := by
  have h1 := rnd_le_pow2 hq h hM
  have h2 : rnd q < pow2 1024 := lt_of_le_of_lt h1 (pow2_lt_pow2 (by omega))
  rw [round_of_lt s q h2]
  exact (within_iff M _).mpr ⟨s, _, rfl, rnd_nonneg q, h1⟩

theorem within_neg {M : Int} {x : Dbl} (h : Dbl.within M x = true) :
    Dbl.within M (Dbl.neg x) = true := by
  obtain ⟨s, q, rfl, h0, h1⟩ := (within_iff M x).mp h
  exact (within_iff M _).mpr ⟨!s, q, rfl, h0, h1⟩

theorem within_add {M : Int} {x y : Dbl} (hx : Dbl.within M x = true)
    (hy : Dbl.within M y = true) (hM : -1075 ≤ M) (hM1 : M ≤ 1022) :
    Dbl.within (M + 1) (Dbl.add x y) = true := by
  obtain ⟨s, p, rfl, p0, p1⟩ := (within_iff M x).mp hx
  obtain ⟨t, q, rfl, q0, q1⟩ := (within_iff M y).mp hy
  simp only [Dbl.add]
  split_ifs with h0
  · exact (within_iff _ _).mpr ⟨_, 0, rfl, le_rfl, (pow2_pos _).le⟩
  · apply round_within _ (abs_nonneg _) _ (by omega) (by omega)
    have e2 : pow2 (M + 1) = pow2 M * 2 := by
      rw [pow2_add]
      have : pow2 1 = 2 := by rw [pow2_eq_zpow]; norm_num
      rw [this]
    rw [e2]
    calc |Dbl.sval s p + Dbl.sval t q| ≤ |Dbl.sval s p| + |Dbl.sval t q| := abs_add _ _
      _ = p + q := by rw [sval_abs s p p0, sval_abs t q q0]
      _ ≤ pow2 M * 2 := by linarith

theorem within_sub {M : Int} {x y : Dbl} (hx : Dbl.within M x = true)
    (hy : Dbl.within M y = true) (hM : -1075 ≤ M) (hM1 : M ≤ 1022) :
    Dbl.within (M + 1) (Dbl.sub x y) = true :=
  within_add hx (within_neg hy) hM hM1

theorem within_mul {M N : Int} {x y : Dbl} (hx : Dbl.within M x = true)
    (hy : Dbl.within N y = true) (hM : -1074 ≤ M + N) (hM1 : M + N ≤ 1023) :
    Dbl.within (M + N) (Dbl.mul x y) = true := by
  obtain ⟨s, p, rfl, p0, p1⟩ := (within_iff M x).mp hx
  obtain ⟨t, q, rfl, q0, q1⟩ := (within_iff N y).mp hy
  simp only [Dbl.mul]
  apply round_within _ (mul_nonneg p0 q0) _ hM hM1
  rw [pow2_add]
  exact mul_le_mul p1 q1 q0 (pow2_pos M).le

theorem libm_nan (f : ℚ → ℚ) {x : Dbl} (h : Dbl.isFinite x = false) :
    Dbl.libm f x = Dbl.nan := by
  cases x with
  | nan => rfl
  | inf s => rfl
  | fin s q => simp [Dbl.isFinite] at h

theorem libm_fin (f : ℚ → ℚ) {x : Dbl} (h : Dbl.isFinite x = true) :
    Dbl.isFinite (Dbl.libm f x) = true ∧ Dbl.toRat (Dbl.libm f x) = f (Dbl.toRat x) := by
  cases x with
  | nan => simp [Dbl.isFinite] at h
  | inf s => simp [Dbl.isFinite] at h
  | fin s q =>
    refine ⟨rfl, ?_⟩
    simp only [Dbl.libm, Dbl.toRat, Dbl.sval]
    by_cases hneg : f (if s = true then -q else q) < 0
    · simp [hneg, abs_of_neg hneg]
    · simp [hneg, abs_of_nonneg (not_lt.mp hneg)]

theorem isFinite_neg (x : Dbl) : Dbl.isFinite (Dbl.neg x) = Dbl.isFinite x := by
  cases x <;> rfl

theorem toRat_neg (x : Dbl) : Dbl.toRat (Dbl.neg x) = -Dbl.toRat x := by
  cases x with
  | nan => simp [Dbl.neg, Dbl.toRat]
  | inf s => simp [Dbl.neg, Dbl.toRat]
  | fin s q => simp only [Dbl.neg, Dbl.toRat]; exact sval_neg s q

end ieee

namespace batoid

namespace fp

open ieee

theorem TOLERANCE_eq :
    TOLERANCE = Dbl.fin false (2535301200456459 / 2535301200456458802993406410752) := by
  decide!

theorem le_of_IsZero_false (s : Bool) (q : ℚ) (h : IsZero (Dbl.fin s q) = false) :
    pow2 (-50) ≤ q := by
  simp only [IsZero, Dbl.fabs, TOLERANCE_eq, Dbl.lt, Dbl.sval, Bool.false_eq_true, if_false,
    decide_eq_false_iff_not, not_lt] at h
  have : pow2 (-50) ≤ (2535301200456459 / 2535301200456458802993406410752 : ℚ) := by
    rw [pow2_eq_zpow]; norm_num
  exact le_trans this h

theorem pos_of_IsZero_false (s : Bool) (q : ℚ) (h : IsZero (Dbl.fin s q) = false) : 0 < q :=
  lt_of_lt_of_le (pow2_pos _) (le_of_IsZero_false s q h)

/-- The sign of the computed discriminant is that of the exact one when it is negative: for
finite doubles `a`, `b`, `c` such that `4.0*a` does not overflow, a computed discriminant
below zero (a negative double or `-infinity`) means `b^2 - 4ac < 0` exactly. -/
theorem discriminant_neg_exact (a b c : Dbl)
    (fa : Dbl.isFinite a = true) (fb : Dbl.isFinite b = true) (fc : Dbl.isFinite c = true)
    (ha : Dbl.IsBinary64 a = true) (hc : Dbl.IsBinary64 c = true)
    (h4 : Dbl.isFinite (Dbl.mul (Dbl.ofRat 4) a) = true)
    (hN : Dbl.lt (discriminant a b c) (Dbl.ofRat 0) = true) :
    Dbl.toRat b ^ 2 - 4 * Dbl.toRat a * Dbl.toRat c < 0 := by
  obtain ⟨sa, qa, rfl⟩ := (isFinite_iff a).mp fa
  obtain ⟨sb, qb, rfl⟩ := (isFinite_iff b).mp fb
  obtain ⟨sc, qc, rfl⟩ := (isFinite_iff c).mp fc
  obtain ⟨a0, ra, -⟩ := isBinary64_fin ha
  obtain ⟨c0, -, -⟩ := isBinary64_fin hc
  have r4 : rnd (4 * qa) = 4 * qa := rnd_of_representable _ (representable_four_mul ra)
  have m4 : Dbl.mul (Dbl.ofRat 4) (Dbl.fin sa qa) = Dbl.fin sa (4 * qa) := by
    rw [ofRat_four] at h4 ⊢
    simp only [Dbl.mul, Dbl.round, r4, Bool.false_bne] at h4 ⊢
    split_ifs at h4 ⊢ with h
    · rfl
    · simp [Dbl.isFinite] at h4
  have hP0 : 0 ≤ 4 * qa * qc := mul_nonneg (mul_nonneg (by norm_num) a0) c0
  have hB0 : 0 ≤ qb * qb := mul_self_nonneg qb
  rw [ofRat_zero] at hN
  simp only [discriminant, m4, Dbl.sub] at hN
  simp only [Dbl.mul, Dbl.round] at hN
  have key : qb * qb < 4 * qa * qc ∧ xor sa sc = false := by
    by_cases hb : rnd (qb * qb) < pow2 1024
    · by_cases hp : rnd (4 * qa * qc) < pow2 1024
      · simp only [hb, hp, if_true, Dbl.neg] at hN
        have h1 := lt_zero_of_add _ _ _ _ hN
        rw [sval_neg] at h1
        simp only [Dbl.sval, Bool.xor_self, Bool.false_eq_true, if_false] at h1
        have hrb := rnd_nonneg (qb * qb)
        have hrp := rnd_nonneg (4 * qa * qc)
        by_cases hs : xor sa sc = true
        · simp only [hs, if_true] at h1
          linarith
        · have hs' : xor sa sc = false := by simpa using hs
          simp only [hs', Bool.false_eq_true, if_false] at h1
          exact ⟨lt_of_rnd_lt hP0 (by linarith), hs'⟩
      · simp only [hb, hp, if_true, if_false, Dbl.neg, Dbl.add, Dbl.lt] at hN
        have hs' : xor sa sc = false := by simpa using hN
        refine ⟨lt_of_rnd_lt hP0 ?_, hs'⟩
        exact lt_of_lt_of_le hb (not_lt.mp hp)
    · by_cases hp : rnd (4 * qa * qc) < pow2 1024
      · simp [hb, hp, Dbl.neg, Dbl.add, Dbl.lt] at hN
      · simp only [hb, hp, if_false, Dbl.neg, Dbl.add] at hN
        split_ifs at hN <;> simp [Dbl.lt] at hN
  obtain ⟨hlt, hs⟩ := key
  simp only [Dbl.toRat]
  have e1 : Dbl.sval sb qb ^ 2 = qb * qb := by
    cases sb <;> simp [Dbl.sval] <;> ring
  have e2 : Dbl.sval sa qa * Dbl.sval sc qc = qa * qc := by
    rw [← sval_xor, hs]
    simp [Dbl.sval]
  have e3 : 4 * Dbl.sval sa qa * Dbl.sval sc qc = 4 * (Dbl.sval sa qa * Dbl.sval sc qc) := by
    ring
  rw [e1, e3, e2]
  linarith

/-! ## The quadratic solver in binary64: return paths -/

/-- Every input falls in exactly one of the six return paths of `solveQuadratic`; on each
path the count and the two slots are the values of the source's expressions. -/
theorem solveQuadratic_paths (a b c r1 r2 : Dbl) :
    (IsZero a = true ∧ IsZero b = true ∧ solveQuadratic a b c r1 r2 = ⟨0, r1, r2⟩) ∨
    (IsZero a = true ∧ IsZero b = false ∧
        solveQuadratic a b c r1 r2 = ⟨1, Dbl.div (Dbl.neg c) b, r2⟩) ∨
    (IsZero a = false ∧ IsZero c = true ∧
        solveQuadratic a b c r1 r2 =
          if Dbl.lt (Dbl.div (Dbl.neg b) a) (Dbl.ofRat 0) then
            ⟨2, Dbl.div (Dbl.neg b) a, Dbl.ofRat 0⟩
          else ⟨2, Dbl.ofRat 0, Dbl.div (Dbl.neg b) a⟩) ∨
    (IsZero a = false ∧ IsZero c = false ∧ IsZero (discriminant a b c) = true ∧
        solveQuadratic a b c r1 r2 =
          ⟨1, Dbl.div (Dbl.neg b) (Dbl.mul (Dbl.ofRat 2) a),
            Dbl.div (Dbl.neg b) (Dbl.mul (Dbl.ofRat 2) a)⟩) ∨
    (IsZero a = false ∧ IsZero c = false ∧ IsZero (discriminant a b c) = false ∧
        Dbl.lt (discriminant a b c) (Dbl.ofRat 0) = true ∧
        solveQuadratic a b c r1 r2 = ⟨0, r1, r2⟩) ∨
    (IsZero a = false ∧ IsZero c = false ∧ IsZero (discriminant a b c) = false ∧
        Dbl.lt (discriminant a b c) (Dbl.ofRat 0) = false ∧
        solveQuadratic a b c r1 r2 =
          if Dbl.lt (Dbl.ofRat 0) b then
            ⟨2, Dbl.div (Dbl.sub (Dbl.neg b) (Dbl.sqrt (discriminant a b c)))
                (Dbl.mul (Dbl.ofRat 2) a),
              Dbl.div c (Dbl.mul a (Dbl.div (Dbl.sub (Dbl.neg b)
                (Dbl.sqrt (discriminant a b c))) (Dbl.mul (Dbl.ofRat 2) a)))⟩
          else
            ⟨2, Dbl.div (Dbl.mul (Dbl.ofRat 2) c)
                (Dbl.add (Dbl.neg b) (Dbl.sqrt (discriminant a b c))),
              Dbl.div c (Dbl.mul a (Dbl.div (Dbl.mul (Dbl.ofRat 2) c)
                (Dbl.add (Dbl.neg b) (Dbl.sqrt (discriminant a b c)))))⟩) := by
  cases hA : IsZero a
  · cases hC : IsZero c
    · cases hD : IsZero (discriminant a b c)
      · cases hN : Dbl.lt (discriminant a b c) (Dbl.ofRat 0)
        · refine Or.inr (Or.inr (Or.inr (Or.inr (Or.inr ⟨rfl, rfl, rfl, rfl, ?_⟩))))
          simp only [solveQuadratic, hA, hC, hD, hN, Bool.false_eq_true, if_false]
        · refine Or.inr (Or.inr (Or.inr (Or.inr (Or.inl ⟨rfl, rfl, rfl, rfl, ?_⟩))))
          simp only [solveQuadratic, hA, hC, hD, hN, Bool.false_eq_true, if_false, if_true]
      · refine Or.inr (Or.inr (Or.inr (Or.inl ⟨rfl, rfl, rfl, ?_⟩)))
        simp only [solveQuadratic, hA, hC, hD, Bool.false_eq_true, if_false, if_true]
    · refine Or.inr (Or.inr (Or.inl ⟨rfl, rfl, ?_⟩))
      simp only [solveQuadratic, hA, hC, Bool.false_eq_true, if_false, if_true]
  · cases hB : IsZero b
    · refine Or.inr (Or.inl ⟨rfl, rfl, ?_⟩)
      simp only [solveQuadratic, hA, hB, Bool.false_eq_true, if_false, if_true]
    · refine Or.inl ⟨rfl, rfl, ?_⟩
      simp only [solveQuadratic, hA, hB, if_true]

theorem solveQuadratic_path_degenerate (a b c r1 r2 : Dbl)
    (hA : IsZero a = true) (hB : IsZero b = true) :
    solveQuadratic a b c r1 r2 = ⟨0, r1, r2⟩ := by
  simp only [solveQuadratic, hA, hB, if_true]

theorem solveQuadratic_path_linear (a b c r1 r2 : Dbl)
    (hA : IsZero a = true) (hB : IsZero b = false) :
    solveQuadratic a b c r1 r2 = ⟨1, Dbl.div (Dbl.neg c) b, r2⟩ := by
  simp only [solveQuadratic, hA, hB, Bool.false_eq_true, if_false, if_true]

theorem solveQuadratic_path_double (a b c r1 r2 : Dbl)
    (hA : IsZero a = false) (hC : IsZero c = false)
    (hD : IsZero (discriminant a b c) = true) :
    solveQuadratic a b c r1 r2 =
      ⟨1, Dbl.div (Dbl.neg b) (Dbl.mul (Dbl.ofRat 2) a),
        Dbl.div (Dbl.neg b) (Dbl.mul (Dbl.ofRat 2) a)⟩ := by
  simp only [solveQuadratic, hA, hC, hD, Bool.false_eq_true, if_false, if_true]

theorem solveQuadratic_path_none (a b c r1 r2 : Dbl)
    (hA : IsZero a = false) (hC : IsZero c = false)
    (hD : IsZero (discriminant a b c) = false)
    (hN : Dbl.lt (discriminant a b c) (Dbl.ofRat 0) = true) :
    solveQuadratic a b c r1 r2 = ⟨0, r1, r2⟩ := by
  simp only [solveQuadratic, hA, hC, hD, hN, Bool.false_eq_true, if_false, if_true]

/-- C3 (counterexample): `a = 1`, `b = 268435459`, `c = 18014398912135172` are doubles with
`a`, `c` and the exact discriminant `b^2 - 4ac = -7` not effectively zero and the
discriminant negative, but `b*b` rounds to `4ac` and the code returns 1, not 0.
Conversely, at `a = 2^1022`, `b = 2^500`, `c = 2^-40` the product `4.0*a` overflows, the
computed discriminant is `-infinity` and the code returns 0 although `a` and `b` are not
effectively zero and the equation has a real solution. -/
theorem solveQuadratic_sign_of_discriminant_lost :
    ((Dbl.IsBinary64 (Dbl.fin false 268435459) = true ∧
        Dbl.IsBinary64 (Dbl.fin false 18014398912135172) = true) ∧
      ((1 / 10 ^ 15 : ℚ) ≤ |1| ∧ (1 / 10 ^ 15 : ℚ) ≤ |18014398912135172| ∧
        (268435459 : ℚ) ^ 2 - 4 * 1 * 18014398912135172 = -7) ∧
      (solveQuadratic (Dbl.fin false 1) (Dbl.fin false 268435459)
        (Dbl.fin false 18014398912135172) (Dbl.fin false 0) (Dbl.fin false 0)).n = 1) ∧
    ((Dbl.IsBinary64 (Dbl.fin false (2 ^ 1022)) = true ∧
        Dbl.IsBinary64 (Dbl.fin false (2 ^ 500)) = true ∧
        Dbl.IsBinary64 (Dbl.fin false (1 / 2 ^ 40)) = true) ∧
      (solveQuadratic (Dbl.fin false (2 ^ 1022)) (Dbl.fin false (2 ^ 500))
        (Dbl.fin false (1 / 2 ^ 40)) (Dbl.fin false 0) (Dbl.fin false 0)).n = 0 ∧
      IsZero (Dbl.fin false (2 ^ 1022)) = false ∧ IsZero (Dbl.fin false (2 ^ 500)) = false ∧
      discriminant (Dbl.fin false (2 ^ 1022)) (Dbl.fin false (2 ^ 500))
        (Dbl.fin false (1 / 2 ^ 40)) = Dbl.inf true ∧
      ∃ x : ℝ, (2 ^ 1022 : ℝ) * x ^ 2 + 2 ^ 500 * x + 1 / 2 ^ 40 = 0) := by
  refine ⟨⟨by decide!, by decide!, by decide!⟩, by decide!, by decide!, by decide!,
    by decide!, by decide!, ?_⟩
  have hD : (0 : ℝ) ≤ (2 ^ 500) ^ 2 - 4 * 2 ^ 1022 * (1 / 2 ^ 40) := by norm_num
  exact ⟨_, (quadratic_formula_root (2 ^ 1022) (2 ^ 500) (1 / 2 ^ 40)
    (Real.sqrt ((2 ^ 500) ^ 2 - 4 * 2 ^ 1022 * (1 / 2 ^ 40))) (by positivity)
    (Real.mul_self_sqrt hD)).1⟩

/-- C3 (amended): for all doubles `a`, `b`, `c` with `a` and `c` not effectively zero and the
computed discriminant `d = b*b - 4.0*a*c` not effectively zero and negative,
`solveQuadratic` returns 0; conversely, whenever it returns 0 and `a`, `b` are not both
effectively zero, `a` and `c` are not effectively zero and the computed discriminant is
negative and not effectively zero; and whenever it returns 0, `a`, `b` are not both
effectively zero, `a`, `b`, `c` are finite doubles and `4.0*a` does not overflow, the exact
discriminant `b^2 - 4ac` is negative and the equation `a*x^2 + b*x + c = 0` has no real
solution; `solveQuadratic(1, 1, 1)` returns 0. -/
theorem solveQuadratic_returns_zero (a b c r1 r2 : Dbl) :
    (IsZero a = false → IsZero c = false → IsZero (discriminant a b c) = false →
      Dbl.lt (discriminant a b c) (Dbl.ofRat 0) = true →
      (solveQuadratic a b c r1 r2).n = 0) ∧
    ((solveQuadratic a b c r1 r2).n = 0 → ¬ (IsZero a = true ∧ IsZero b = true) →
      IsZero a = false ∧ IsZero c = false ∧ IsZero (discriminant a b c) = false ∧
      Dbl.lt (discriminant a b c) (Dbl.ofRat 0) = true) ∧
    ((solveQuadratic a b c r1 r2).n = 0 → ¬ (IsZero a = true ∧ IsZero b = true) →
      (Dbl.isFinite a = true ∧ Dbl.isFinite b = true ∧ Dbl.isFinite c = true) →
      (Dbl.IsBinary64 a = true ∧ Dbl.IsBinary64 c = true) →
      Dbl.isFinite (Dbl.mul (Dbl.ofRat 4) a) = true →
      Dbl.toRat b ^ 2 - 4 * Dbl.toRat a * Dbl.toRat c < 0 ∧
      ∀ x : ℝ, ((Dbl.toRat a : ℚ) : ℝ) * x ^ 2 + ((Dbl.toRat b : ℚ) : ℝ) * x
        + ((Dbl.toRat c : ℚ) : ℝ) ≠ 0) ∧
    (solveQuadratic (Dbl.fin false 1) (Dbl.fin false 1) (Dbl.fin false 1) r1 r2).n = 0 := by
  have conv : (solveQuadratic a b c r1 r2).n = 0 → ¬ (IsZero a = true ∧ IsZero b = true) →
      IsZero a = false ∧ IsZero c = false ∧ IsZero (discriminant a b c) = false ∧
      Dbl.lt (discriminant a b c) (Dbl.ofRat 0) = true := by
    intro hn hab
    rcases solveQuadratic_paths a b c r1 r2 with
      ⟨hA, hB, _⟩ | ⟨_, _, h⟩ | ⟨_, _, h⟩ | ⟨_, _, _, h⟩ | ⟨hA, hC, hD, hN, _⟩ |
      ⟨_, _, _, _, h⟩
    · exact absurd ⟨hA, hB⟩ hab
    · rw [h] at hn; simp at hn
    · rw [h] at hn; split_ifs at hn <;> simp at hn
    · rw [h] at hn; simp at hn
    · exact ⟨hA, hC, hD, hN⟩
    · rw [h] at hn; split_ifs at hn <;> simp at hn
  refine ⟨fun hA hC hD hN => ?_, conv, fun hn hab hf hv h4 => ?_, ?_⟩
  rotate_left
  · have hN := (conv hn hab).2.2.2
    have hD := discriminant_neg_exact a b c hf.1 hf.2.1 hf.2.2 hv.1 hv.2 h4 hN
    refine ⟨hD, fun x => ?_⟩
    apply no_root_of_discriminant_neg
    have : (((Dbl.toRat b ^ 2 - 4 * Dbl.toRat a * Dbl.toRat c : ℚ)) : ℝ) < 0 := by
      exact_mod_cast hD
    push_cast at this
    exact this
  rotate_left
  · rw [solveQuadratic_path_none a b c r1 r2 hA hC hD hN]
  · rw [solveQuadratic_path_none (Dbl.fin false 1) (Dbl.fin false 1) (Dbl.fin false 1) r1 r2
      (by decide!) (by decide!) (by decide!) (by decide!)]

/-- C3 (witness): at `a = b = c = 1` the hypotheses hold, the code returns 0, the exact
discriminant is negative and there is no real solution. -/
theorem solveQuadratic_returns_zero_witness :
    IsZero (Dbl.fin false 1) = false ∧
    IsZero (discriminant (Dbl.fin false 1) (Dbl.fin false 1) (Dbl.fin false 1)) = false ∧
    Dbl.lt (discriminant (Dbl.fin false 1) (Dbl.fin false 1) (Dbl.fin false 1)) (Dbl.ofRat 0)
      = true ∧
    Dbl.isFinite (Dbl.mul (Dbl.ofRat 4) (Dbl.fin false 1)) = true ∧
    (solveQuadratic (Dbl.fin false 1) (Dbl.fin false 1) (Dbl.fin false 1)
      (Dbl.fin false 7) (Dbl.fin false 9)).n = 0 ∧
    (Dbl.toRat (Dbl.fin false 1) ^ 2
        - 4 * Dbl.toRat (Dbl.fin false 1) * Dbl.toRat (Dbl.fin false 1) < 0 ∧
      ∀ x : ℝ, ((Dbl.toRat (Dbl.fin false 1) : ℚ) : ℝ) * x ^ 2
        + ((Dbl.toRat (Dbl.fin false 1) : ℚ) : ℝ) * x
        + ((Dbl.toRat (Dbl.fin false 1) : ℚ) : ℝ) ≠ 0) :=
  ⟨by decide!, by decide!, by decide!, by decide!,
    (solveQuadratic_returns_zero (Dbl.fin false 1) (Dbl.fin false 1) (Dbl.fin false 1)
      (Dbl.fin false 7) (Dbl.fin false 9)).1 (by decide!) (by decide!) (by decide!)
      (by decide!),
    (solveQuadratic_returns_zero (Dbl.fin false 1) (Dbl.fin false 1) (Dbl.fin false 1)
      (Dbl.fin false 7) (Dbl.fin false 9)).2.2.1 (by decide!) (by decide!)
      ⟨rfl, rfl, rfl⟩ ⟨by decide!, by decide!⟩ (by decide!)⟩

/-- C4 (counterexample): `a = 1`, `b = 3 + 2^-51`, `c = 2.25 + 2^-51` are doubles with `a`,
`c` not effectively zero and exact discriminant `2^-50 + 2^-102 < 1e-15`, but the computed
discriminant is `2^-49`, which is not effectively zero: the code returns 2 and writes two
different values. -/
theorem solveQuadratic_small_discriminant_two :
    (Dbl.IsBinary64 (Dbl.fin false (3 + 1 / 2 ^ 51)) = true ∧
      Dbl.IsBinary64 (Dbl.fin false (9 / 4 + 1 / 2 ^ 51)) = true) ∧
    ((1 / 10 ^ 15 : ℚ) ≤ |1| ∧ (1 / 10 ^ 15 : ℚ) ≤ |9 / 4 + 1 / 2 ^ 51| ∧
      |(3 + 1 / 2 ^ 51 : ℚ) ^ 2 - 4 * 1 * (9 / 4 + 1 / 2 ^ 51)| < 1 / 10 ^ 15) ∧
    discriminant (Dbl.fin false 1) (Dbl.fin false (3 + 1 / 2 ^ 51))
      (Dbl.fin false (9 / 4 + 1 / 2 ^ 51)) = Dbl.fin false (1 / 2 ^ 49) ∧
    (solveQuadratic (Dbl.fin false 1) (Dbl.fin false (3 + 1 / 2 ^ 51))
      (Dbl.fin false (9 / 4 + 1 / 2 ^ 51)) (Dbl.fin false 0) (Dbl.fin false 0)).n = 2 ∧
    Dbl.eq
      (solveQuadratic (Dbl.fin false 1) (Dbl.fin false (3 + 1 / 2 ^ 51))
        (Dbl.fin false (9 / 4 + 1 / 2 ^ 51)) (Dbl.fin false 0) (Dbl.fin false 0)).r1
      (solveQuadratic (Dbl.fin false 1) (Dbl.fin false (3 + 1 / 2 ^ 51))
        (Dbl.fin false (9 / 4 + 1 / 2 ^ 51)) (Dbl.fin false 0) (Dbl.fin false 0)).r2
      = false := by
  refine ⟨by decide!, by decide!, by decide!, by decide!, by decide!⟩

/-- C4 (amended): for all doubles `a`, `b`, `c` with `a` and `c` not effectively zero and the
computed discriminant `b*b - 4.0*a*c` effectively zero, `solveQuadratic` returns 1 and
writes the same double `-b/(2.0*a)` into both `r1` and `r2`; `solveQuadratic(1, -2, 1)`
returns 1 with `r1 = r2 = 1`. -/
theorem solveQuadratic_double_branch (a b c r1 r2 : Dbl)
    (hA : IsZero a = false) (hC : IsZero c = false)
    (hD : IsZero (discriminant a b c) = true) :
    (solveQuadratic a b c r1 r2).n = 1 ∧
    (solveQuadratic a b c r1 r2).r1 = Dbl.div (Dbl.neg b) (Dbl.mul (Dbl.ofRat 2) a) ∧
    (solveQuadratic a b c r1 r2).r2 = Dbl.div (Dbl.neg b) (Dbl.mul (Dbl.ofRat 2) a) ∧
    ((solveQuadratic (Dbl.fin false 1) (Dbl.fin true 2) (Dbl.fin false 1) r1 r2).n = 1 ∧
      (solveQuadratic (Dbl.fin false 1) (Dbl.fin true 2) (Dbl.fin false 1) r1 r2).r1
        = Dbl.fin false 1 ∧
      (solveQuadratic (Dbl.fin false 1) (Dbl.fin true 2) (Dbl.fin false 1) r1 r2).r2
        = Dbl.fin false 1) := by
  rw [solveQuadratic_path_double a b c r1 r2 hA hC hD,
    solveQuadratic_path_double (Dbl.fin false 1) (Dbl.fin true 2) (Dbl.fin false 1) r1 r2
      (by decide!) (by decide!) (by decide!)]
  refine ⟨by simp, by simp, by simp, by decide!⟩

/-- C4 (witness): the hypotheses hold at `a = 1`, `b = -2`, `c = 1`. -/
theorem solveQuadratic_double_branch_witness :
    IsZero (Dbl.fin false 1) = false ∧
    IsZero (discriminant (Dbl.fin false 1) (Dbl.fin true 2) (Dbl.fin false 1)) = true ∧
    (solveQuadratic (Dbl.fin false 1) (Dbl.fin true 2) (Dbl.fin false 1)
      (Dbl.fin false 0) (Dbl.fin false 0)).n = 1 :=
  ⟨by decide!, by decide!,
    (solveQuadratic_double_branch (Dbl.fin false 1) (Dbl.fin true 2) (Dbl.fin false 1)
      (Dbl.fin false 0) (Dbl.fin false 0) (by decide!) (by decide!) (by decide!)).1⟩

/-- The residual of a rounded quotient: for finite `b ≠ 0` and `c`, if the quotient `-c/b`
is rounded inside the normal range then `|b * fl(-c/b) + c| ≤ |c| / 2^53`. -/
theorem div_neg_residual (sb sc : Bool) (qb qc : ℚ) (hb : 0 < qb) (hc : 0 ≤ qc)
    (hn : Dbl.normal (Dbl.div (Dbl.neg (Dbl.fin sc qc)) (Dbl.fin sb qb)) = true) :
    |Dbl.toRat (Dbl.fin sb qb) * Dbl.toRat (Dbl.div (Dbl.neg (Dbl.fin sc qc)) (Dbl.fin sb qb))
        + Dbl.toRat (Dbl.fin sc qc)| ≤ |Dbl.toRat (Dbl.fin sc qc)| / 2 ^ 53 := by
  have e : Dbl.div (Dbl.neg (Dbl.fin sc qc)) (Dbl.fin sb qb)
      = Dbl.round (xor (!sc) sb) (qc / qb) := by
    simp [Dbl.neg, Dbl.div, ne_of_gt hb]
  rw [e] at hn ⊢
  obtain ⟨r, n⟩ := round_normal hn
  rw [r]
  have hz : 0 ≤ qc / qb := div_nonneg hc hb.le
  have herr := rnd_rel_err (qc / qb) (le_of_pow2_le_rnd _ hz n)
  have key : |qb * rnd (qc / qb) - qc| ≤ qc / 2 ^ 53 := by
    have e2 : qb * rnd (qc / qb) - qc = qb * (rnd (qc / qb) - qc / qb) := by
      field_simp
      ring
    rw [e2, abs_mul, abs_of_pos hb]
    calc qb * |rnd (qc / qb) - qc / qb| ≤ qb * (qc / qb / 2 ^ 53) :=
          mul_le_mul_of_nonneg_left herr hb.le
      _ = qc / 2 ^ 53 := by field_simp; ring
  simp only [Dbl.toRat]
  rw [sval_abs sc qc hc]
  cases sb <;> cases sc <;> simp only [Dbl.sval, Bool.not_true, Bool.not_false, Bool.xor_false,
    Bool.xor_true, Bool.false_eq_true, if_false, if_true]
  · have : qb * -rnd (qc / qb) + qc = -(qb * rnd (qc / qb) - qc) := by ring
    rw [this, abs_neg]; exact key
  · have : qb * rnd (qc / qb) + -qc = qb * rnd (qc / qb) - qc := by ring
    rw [this]; exact key
  · have : -qb * rnd (qc / qb) + qc = -(qb * rnd (qc / qb) - qc) := by ring
    rw [this, abs_neg]; exact key
  · have : -qb * -rnd (qc / qb) + -qc = qb * rnd (qc / qb) - qc := by ring
    rw [this]; exact key

/-- C5 (counterexample): at `a = 0`, `b = 49`, `c = -1` the code returns 1 and writes
`r1 = fl(1/49) = 5882252574524729 / 2^58`; then `b*r1 + c` is `-23/2^58` exactly, and the
double expression `b*r1 + c` evaluates to a non-zero double. -/
theorem solveQuadratic_linear_root_rounded :
    (solveQuadratic (Dbl.fin false 0) (Dbl.fin false 49) (Dbl.fin true 1)
      (Dbl.fin false 0) (Dbl.fin false 0)).n = 1 ∧
    (solveQuadratic (Dbl.fin false 0) (Dbl.fin false 49) (Dbl.fin true 1)
      (Dbl.fin false 0) (Dbl.fin false 0)).r1
      = Dbl.fin false (5882252574524729 / 288230376151711744) ∧
    (49 : ℚ) * (5882252574524729 / 288230376151711744) + (-1) = -(23 / 2 ^ 58) ∧
    Dbl.eq (Dbl.add (Dbl.mul (Dbl.fin false 49)
      (solveQuadratic (Dbl.fin false 0) (Dbl.fin false 49) (Dbl.fin true 1)
        (Dbl.fin false 0) (Dbl.fin false 0)).r1) (Dbl.fin true 1)) (Dbl.ofRat 0) = false := by
  refine ⟨by decide!, by decide!, by decide!, by decide!⟩

/-- C5 (amended): for all doubles `a`, `b`, `c` with `a` effectively zero and `b` not,
`solveQuadratic` returns 1 and writes `r1 = -c/b` rounded to double; when `b` and `c` are
finite and the quotient is rounded inside the normal range, `|b*r1 + c| <= |c| / 2^53` in
exact arithmetic; `solveQuadratic(0, 2, -4)` returns 1 with `r1 = 2`. -/
theorem solveQuadratic_linear_branch (a b c r1 r2 : Dbl)
    (hA : IsZero a = true) (hB : IsZero b = false) :
    (solveQuadratic a b c r1 r2).n = 1 ∧
    (solveQuadratic a b c r1 r2).r1 = Dbl.div (Dbl.neg c) b ∧
    (Dbl.isFinite b = true → Dbl.isFinite c = true → Dbl.IsBinary64 c = true →
      Dbl.normal (solveQuadratic a b c r1 r2).r1 = true →
      |Dbl.toRat b * Dbl.toRat (solveQuadratic a b c r1 r2).r1 + Dbl.toRat c|
        ≤ |Dbl.toRat c| / 2 ^ 53) ∧
    ((solveQuadratic (Dbl.fin false 0) (Dbl.fin false 2) (Dbl.fin true 4) r1 r2).n = 1 ∧
      (solveQuadratic (Dbl.fin false 0) (Dbl.fin false 2) (Dbl.fin true 4) r1 r2).r1
        = Dbl.fin false 2) := by
  have hpath : solveQuadratic a b c r1 r2 = ⟨1, Dbl.div (Dbl.neg c) b, r2⟩ := by
    simp only [solveQuadratic, hA, hB, Bool.false_eq_true, if_false, if_true]
  have hinst : solveQuadratic (Dbl.fin false 0) (Dbl.fin false 2) (Dbl.fin true 4) r1 r2
      = ⟨1, Dbl.div (Dbl.neg (Dbl.fin true 4)) (Dbl.fin false 2), r2⟩ := by
    have h1 : IsZero (Dbl.fin false 0) = true := by decide!
    have h2 : IsZero (Dbl.fin false 2) = false := by decide!
    simp only [solveQuadratic, h1, h2, Bool.false_eq_true, if_false, if_true]
  rw [hpath, hinst]
  refine ⟨rfl, rfl, ?_, rfl, ?_⟩
  swap
  · show Dbl.div (Dbl.neg (Dbl.fin true 4)) (Dbl.fin false 2) = Dbl.fin false 2
    decide!
  intro hb hc hcv hn
  obtain ⟨sb, qb, rfl⟩ : ∃ s q, b = Dbl.fin s q := by
    cases b <;> simp [Dbl.isFinite] at hb ⊢
  obtain ⟨sc, qc, rfl⟩ : ∃ s q, c = Dbl.fin s q := by
    cases c <;> simp [Dbl.isFinite] at hc ⊢
  have hqc : 0 ≤ qc := by
    simp only [Dbl.IsBinary64, Bool.and_eq_true, decide_eq_true_eq] at hcv
    exact hcv.1.1
  exact div_neg_residual sb sc qb qc (pos_of_IsZero_false sb qb hB) hqc hn

/-- C5 (witness): the hypotheses hold at `a = 0`, `b = 2`, `c = -4`. -/
theorem solveQuadratic_linear_branch_witness :
    IsZero (Dbl.fin false 0) = true ∧ IsZero (Dbl.fin false 2) = false ∧
    (solveQuadratic (Dbl.fin false 0) (Dbl.fin false 2) (Dbl.fin true 4)
      (Dbl.fin false 7) (Dbl.fin false 9)).n = 1 :=
  ⟨by decide!, by decide!,
    (solveQuadratic_linear_branch (Dbl.fin false 0) (Dbl.fin false 2) (Dbl.fin true 4)
      (Dbl.fin false 7) (Dbl.fin false 9) (by decide!) (by decide!)).1⟩

end fp

end batoid

namespace jtrace

namespace fp

open ieee

theorem mul_fin_fin (s t : Bool) (p q : ℚ) :
    Dbl.mul (Dbl.fin s p) (Dbl.fin t q) = Dbl.round (xor s t) (p * q) := rfl

theorem div_fin_fin (s t : Bool) (p q : ℚ) (hq : q ≠ 0) :
    Dbl.div (Dbl.fin s p) (Dbl.fin t q) = Dbl.round (xor s t) (p / q) := by
  simp [Dbl.div, hq]

theorem twoPI_eq :
    Dbl.mul (Dbl.ofRat 2) PI = Dbl.fin false (884279719003555 / 140737488355328) := by
  decide!

theorem Ray.k_eq_kOf (r : Ray Dbl) :
    Ray.k r = ⟨Ray.kOf r r.v.x, Ray.kOf r r.v.y, Ray.kOf r r.v.z⟩ := rfl

theorem Ray.kOf_zero (r : Ray Dbl) (l mm : ℚ)
    (hl : r.wavelength = Dbl.fin false l) (hl0 : 0 < l)
    (hm : Vec3.Magnitude r.v = Dbl.fin false mm) (hm0 : 0 < mm) (s : Bool) :
    Ray.kOf r (Dbl.fin s 0) = Dbl.fin s 0 := by
  unfold Ray.kOf
  rw [twoPI_eq, hl, hm, mul_fin_fin, mul_zero, round_zero, div_fin_fin _ _ _ _ (ne_of_gt hl0),
    zero_div, round_zero, div_fin_fin _ _ _ _ (ne_of_gt hm0), zero_div, round_zero,
    div_fin_fin _ _ _ _ (ne_of_gt hm0), zero_div, round_zero]
  simp

/-! ## Ray kinematics in binary64: claims -/

theorem sub_self_fin (s : Bool) (q : ℚ) :
    Dbl.sub (Dbl.fin s q) (Dbl.fin s q) = Dbl.fin false 0 := by
  simp [Dbl.sub, Dbl.neg, Dbl.add, sval_neg]

theorem mul_fin_zero (s t : Bool) (q : ℚ) :
    Dbl.mul (Dbl.fin s q) (Dbl.fin t 0) = Dbl.fin (xor s t) 0 := by
  simp [Dbl.mul, round_zero]

theorem add_zero_zero (s t : Bool) :
    Dbl.add (Dbl.fin s 0) (Dbl.fin t 0) = Dbl.fin (s && t) 0 := by
  simp [Dbl.add, sval_zero]

/-- C12 (counterexample): the non-failed ray with `v = (0, 0, 0)` and `wavelength = 1` (so
`wavelength > 0`), anchored at the origin at time 0: `|v|` is zero, every component of
`k()` is `0/0`, a NaN, and `phase(p0, t0)` is NaN, which does not compare equal to 0. -/
theorem Ray.phase_anchor_nan :
    (Ray.mk ⟨Dbl.fin false 0, Dbl.fin false 0, Dbl.fin false 0⟩
      ⟨Dbl.fin false 0, Dbl.fin false 0, Dbl.fin false 0⟩ (Dbl.fin false 0) (Dbl.fin false 1)
      false false : Ray Dbl).failed = false ∧
    Dbl.lt (Dbl.ofRat 0) (Dbl.fin false 1) = true ∧
    Ray.k (Ray.mk ⟨Dbl.fin false 0, Dbl.fin false 0, Dbl.fin false 0⟩
      ⟨Dbl.fin false 0, Dbl.fin false 0, Dbl.fin false 0⟩ (Dbl.fin false 0) (Dbl.fin false 1)
      false false) = ⟨Dbl.nan, Dbl.nan, Dbl.nan⟩ ∧
    Ray.phase (Ray.mk ⟨Dbl.fin false 0, Dbl.fin false 0, Dbl.fin false 0⟩
      ⟨Dbl.fin false 0, Dbl.fin false 0, Dbl.fin false 0⟩ (Dbl.fin false 0) (Dbl.fin false 1)
      false false) ⟨Dbl.fin false 0, Dbl.fin false 0, Dbl.fin false 0⟩ (Dbl.fin false 0)
      = Dbl.nan ∧
    Dbl.eq Dbl.nan (Dbl.ofRat 0) = false := by
  refine ⟨rfl, by decide!, ?_, by decide!, by decide!⟩
  simp only [Ray.k, Vec3.sdiv, Vec3.smul, Vec3.Magnitude, Vec3.mk.injEq]
  refine ⟨by decide!, by decide!, by decide!⟩

/-- The phase at the anchor of a ray whose anchor, `k()` and `omega()` are finite is a
zero. -/
theorem Ray.phase_anchor_of_finite (r : Ray Dbl)
    (hp : Dbl.isFinite r.p0.x = true ∧ Dbl.isFinite r.p0.y = true ∧
      Dbl.isFinite r.p0.z = true)
    (ht : Dbl.isFinite r.t0 = true)
    (hk : Dbl.isFinite (Ray.k r).x = true ∧ Dbl.isFinite (Ray.k r).y = true ∧
      Dbl.isFinite (Ray.k r).z = true)
    (hw : Dbl.isFinite (Ray.omega r) = true) :
    (∃ s : Bool, Ray.phase r r.p0 r.t0 = Dbl.fin s 0) ∧
    Dbl.eq (Ray.phase r r.p0 r.t0) (Dbl.ofRat 0) = true := by
  obtain ⟨⟨s1, q1, h1⟩, ⟨s2, q2, h2⟩, ⟨s3, q3, h3⟩⟩ :=
    And.intro ((isFinite_iff _).mp hp.1)
      (And.intro ((isFinite_iff _).mp hp.2.1) ((isFinite_iff _).mp hp.2.2))
  obtain ⟨st, qt, h4⟩ := (isFinite_iff _).mp ht
  obtain ⟨⟨a1, b1, k1⟩, ⟨a2, b2, k2⟩, ⟨a3, b3, k3⟩⟩ :=
    And.intro ((isFinite_iff _).mp hk.1)
      (And.intro ((isFinite_iff _).mp hk.2.1) ((isFinite_iff _).mp hk.2.2))
  obtain ⟨sw, qw, h5⟩ := (isFinite_iff _).mp hw
  have e : Ray.phase r r.p0 r.t0
      = Dbl.fin (((xor a1 false) && (xor a2 false) && (xor a3 false)) && !(xor sw false))
          0 := by
    simp only [Ray.phase, DotProduct, Vec3.sub, k1, k2, k3, h1, h2, h3, h4, h5, sub_self_fin,
      mul_fin_zero, add_zero_zero]
    simp only [Dbl.sub, Dbl.neg, add_zero_zero]
  rw [e]
  refine ⟨⟨_, rfl⟩, ?_⟩
  have z : Dbl.ofRat 0 = Dbl.fin false 0 := by decide!
  rw [z]
  simp [Dbl.eq, sval_zero]

theorem sq_step {i j : Int} (hi : -500 ≤ i) (hj : j ≤ 499) (s : Bool) (q : ℚ)
    (hq : q = 0 ∨ Band i j q) :
    Dbl.mul (Dbl.fin s q) (Dbl.fin s q) = Dbl.fin false (rnd (q * q)) ∧
      |rnd (q * q) - q * q| ≤ 101 / (100 * 2 ^ 53) * (q * q) := by
  have hb : q * q = 0 ∨ Band (-1000) 1000 (q * q) := by
    rcases zband_sq hq with h | h
    · exact Or.inl h
    · exact Or.inr (h.mono (by omega) (by omega))
  have hz : 0 ≤ q * q := mul_self_nonneg q
  obtain ⟨h1, h2⟩ := band_step 0 (101 / (100 * 2 ^ 53)) (q * q) (q * q) hz (close_exact _)
    (by norm_num) (by norm_num) hb
  refine ⟨?_, h2⟩
  rw [mul_fin_of_lt s s q q h1]
  simp

/-- The computed magnitude of a vector whose components are zero or between `2^i` and `2^j`,
not all zero: it is finite and positive, lies between `2^(i-1)` and `2^(j+2)`, and its
square is the exact sum of squares up to a relative error of `6 * 2^-53`. -/
theorem magnitude_band {i j : Int} (hi : -500 ≤ i) (hj : j ≤ 499) (v : Vec3 Dbl)
    (sx sy sz : Bool) (qx qy qz : ℚ)
    (hx : v.x = Dbl.fin sx qx) (hy : v.y = Dbl.fin sy qy) (hz : v.z = Dbl.fin sz qz)
    (bx : qx = 0 ∨ Band i j qx) (bY : qy = 0 ∨ Band i j qy) (bz : qz = 0 ∨ Band i j qz)
    (hne : qx ≠ 0 ∨ qy ≠ 0 ∨ qz ≠ 0) :
    ∃ mm : ℚ, Vec3.Magnitude v = Dbl.fin false mm ∧ Band (i - 1) (j + 2) mm ∧
      |mm ^ 2 - (qx * qx + qy * qy + qz * qz)|
        ≤ 6 / 2 ^ 53 * (qx * qx + qy * qy + qz * qz) := by
  obtain ⟨mx, cx⟩ := sq_step hi hj sx qx bx
  obtain ⟨my, cy⟩ := sq_step hi hj sy qy bY
  obtain ⟨mz, cz⟩ := sq_step hi hj sz qz bz
  have nx : 0 ≤ qx * qx := mul_self_nonneg qx
  have ny : 0 ≤ qy * qy := mul_self_nonneg qy
  have nz : 0 ≤ qz * qz := mul_self_nonneg qz
  -- the first sum
  have b1 : qx * qx + qy * qy = 0 ∨ Band (-1000) 1000 (qx * qx + qy * qy) := by
    rcases zband_sq bx with h | h
    · rcases zband_sq bY with h' | h'
      · left; rw [h, h']; simp
      · right; rw [h, zero_add]; exact h'.mono (by omega) (by omega)
    · right
      exact (h.add_left (zband_sq bY)).mono (by omega) (by omega)
  obtain ⟨f1, c1⟩ := band_step _ (202 / (100 * 2 ^ 53)) _ (rnd (qx * qx) + rnd (qy * qy))
    (add_nonneg (rnd_nonneg _) (rnd_nonneg _)) (close_add cx cy) (by norm_num)
    (by norm_num) b1
  -- the second sum
  have hV : 0 < qx * qx + qy * qy + qz * qz := by
    rcases hne with h | h | h
    · have := mul_self_pos.mpr h; linarith
    · have := mul_self_pos.mpr h; linarith
    · have := mul_self_pos.mpr h; linarith
  have b2 : Band (2 * i) (2 * j + 2) (qx * qx + qy * qy + qz * qz) := by
    rcases zband_sq bx with hx0 | hxb
    · rcases zband_sq bY with hy0 | hyb
      · rcases zband_sq bz with hz0 | hzb
        · linarith
        · rw [hx0, hy0, zero_add, zero_add]; exact hzb.mono le_rfl (by omega)
      · rw [hx0, zero_add]
        exact (hyb.add_left (zband_sq bz)).mono le_rfl (by omega)
    · have h1 := hxb.add_left (zband_sq bY)
      have h2 : qz * qz = 0 ∨ Band (2 * i) (2 * j + 1) (qz * qz) := by
        rcases zband_sq bz with h | h
        · exact Or.inl h
        · exact Or.inr (h.mono le_rfl (by omega))
      have := h1.add_left h2
      exact this.mono le_rfl (by omega)
  obtain ⟨f2, c2⟩ := band_step _ (303 / (100 * 2 ^ 53)) _
    (rnd (rnd (qx * qx) + rnd (qy * qy)) + rnd (qz * qz))
    (add_nonneg (rnd_nonneg _) (rnd_nonneg _)) (close_add c1
      (close_weaken nz (by norm_num) cz)) (by norm_num) (by norm_num)
    (Or.inr (b2.mono (by omega) (by omega)))
  set V := qx * qx + qy * qy + qz * qz with hVdef
  set s2 := rnd (rnd (rnd (qx * qx) + rnd (qy * qy)) + rnd (qz * qz)) with hs2
  have hs2pos : 0 < s2 := by
    have := (abs_le.mp c2).1
    have h3 : (303 : ℚ) / (100 * 2 ^ 53) * V ≤ 1 / 2 * V :=
      mul_le_mul_of_nonneg_right (by norm_num) hV.le
    linarith
  obtain ⟨q0, q1, q2⟩ := sqrtRnd_bounds s2 hs2pos
  have hmag : Vec3.Magnitude v = Dbl.fin false (sqrtRnd s2) := by
    unfold Vec3.Magnitude
    rw [hx, hy, hz, mx, my, mz, add_fin_nonneg _ _ (rnd_nonneg _) (rnd_nonneg _) f1,
      add_fin_nonneg _ _ (rnd_nonneg _) (rnd_nonneg _) f2]
    simp [Dbl.sqrt, ne_of_gt hs2pos]
  have hclose : |sqrtRnd s2 ^ 2 - V| ≤ 6 / 2 ^ 53 * V :=
    close_sqrt (1 / 2 ^ 53) (303 / (100 * 2 ^ 53)) (6 / 2 ^ 53) s2 V _ hV.le c2 q1 q2
      (by norm_num) (by norm_num)
  refine ⟨sqrtRnd s2, hmag, ?_, hclose⟩
  have hb3 := b2.close hclose (by norm_num)
  apply band_of_sq_band q0
  exact hb3.mono (by omega) (by omega)

/-! ## The wavevector in binary64: accumulated rounding error -/

theorem twoPI_band : Band 2 3 (884279719003555 / 140737488355328 : ℚ) := by
  constructor
  · have : pow2 2 = 4 := by rw [pow2_eq_zpow]; norm_num
    rw [this]; norm_num
  · have : pow2 3 = 8 := by rw [pow2_eq_zpow]; norm_num
    rw [this]; norm_num

theorem zband_mul_left {i j k l : Int} {a q : ℚ} (ha : Band i j a) (hq : q = 0 ∨ Band k l q) :
    a * q = 0 ∨ Band (i + k) (j + l) (a * q) := by
  rcases hq with rfl | hq
  · left; simp
  · right; exact ha.mul hq

theorem zband_div {i j k l : Int} {x b : ℚ} (hx : x = 0 ∨ Band i j x) (hb : Band k l b) :
    x / b = 0 ∨ Band (i - l) (j - k) (x / b) := by
  rcases hx with rfl | hx
  · left; simp
  · right; exact hx.div hb

theorem zband_mono {i j i' j' : Int} {x : ℚ} (hx : x = 0 ∨ Band i j x) (hi : i' ≤ i)
    (hj : j ≤ j') : x = 0 ∨ Band i' j' x := by
  rcases hx with h | h
  · exact Or.inl h
  · exact Or.inr (h.mono hi hj)

theorem kOf_exact (P q l mm : ℚ) :
    P * q / l / mm / mm = P / (l * mm ^ 2) * q := by
  calc P * q / l / mm / mm = P * q / (l * mm ^ 2) := by
        rw [div_div, div_div]; congr 1; ring
    _ = P / (l * mm ^ 2) * q := by ring

/-- The component of `k()` computed from a component of `v` that is zero or between `2^-100`
and `2^100`, for a wavelength between `2^-100` and `2^100` and a computed `|v|` between
`2^-101` and `2^102`: its sign bit is that of the component, flipped by a negative
wavelength, and its magnitude equals `2·PI/(wavelength·|v|²)` times the
component up to a relative error of `4.04 * 2^-53`. -/
theorem Ray.kOf_band (r : Ray Dbl) (sl : Bool) (l mm : ℚ)
    (hl : r.wavelength = Dbl.fin sl l) (hlb : Band (-100) 100 l)
    (hm : Vec3.Magnitude r.v = Dbl.fin false mm) (hmb : Band (-101) 102 mm)
    (s : Bool) (q : ℚ) (hq : q = 0 ∨ Band (-100) 100 q) :
    ∃ q4 : ℚ, Ray.kOf r (Dbl.fin s q) = Dbl.fin (xor s sl) q4 ∧ 0 ≤ q4 ∧
      |q4 - 884279719003555 / 140737488355328 / (l * mm ^ 2) * q|
        ≤ 404 / (100 * 2 ^ 53) * (884279719003555 / 140737488355328 / (l * mm ^ 2) * q) := by
  set P : ℚ := 884279719003555 / 140737488355328 with hPdef
  have hPb : Band 2 3 P := twoPI_band
  have hl0 := hlb.pos
  have hm0 := hmb.pos
  have hq0 : 0 ≤ q := by
    rcases hq with rfl | h
    · exact le_rfl
    · exact h.pos.le
  -- the product
  have b1 := zband_mul_left hPb hq
  obtain ⟨f1, c1⟩ := band_step 0 (101 / (100 * 2 ^ 53)) (P * q) (P * q)
    (mul_nonneg hPb.pos.le hq0) (close_exact _) (by norm_num) (by norm_num)
    (zband_mono b1 (by norm_num) (by norm_num))
  -- the division by the wavelength
  have b2 := zband_div b1 hlb
  obtain ⟨f2, c2⟩ := band_step _ (202 / (100 * 2 ^ 53)) (P * q / l) (rnd (P * q) / l)
    (div_nonneg (rnd_nonneg _) hl0.le) (div_rel_close _ _ _ l hl0 c1) (by norm_num)
    (by norm_num) (zband_mono b2 (by norm_num) (by norm_num))
  -- the first division by the magnitude
  have b3 := zband_div b2 hmb
  obtain ⟨f3, c3⟩ := band_step _ (303 / (100 * 2 ^ 53)) (P * q / l / mm)
    (rnd (rnd (P * q) / l) / mm)
    (div_nonneg (rnd_nonneg _) hm0.le) (div_rel_close _ _ _ mm hm0 c2) (by norm_num)
    (by norm_num) (zband_mono b3 (by norm_num) (by norm_num))
  -- the second division by the magnitude
  have b4 := zband_div b3 hmb
  obtain ⟨f4, c4⟩ := band_step _ (404 / (100 * 2 ^ 53)) (P * q / l / mm / mm)
    (rnd (rnd (rnd (P * q) / l) / mm) / mm)
    (div_nonneg (rnd_nonneg _) hm0.le) (div_rel_close _ _ _ mm hm0 c3) (by norm_num)
    (by norm_num) (zband_mono b4 (by norm_num) (by norm_num))
  rw [kOf_exact P q l mm] at c4
  refine ⟨_, ?_, rnd_nonneg _, c4⟩
  unfold Ray.kOf
  rw [twoPI_eq, hl, hm, mul_fin_of_lt _ _ _ _ f1, div_fin_of_lt _ _ _ _ (ne_of_gt hl0) f2,
    div_fin_of_lt _ _ _ _ (ne_of_gt hm0) f3, div_fin_of_lt _ _ _ _ (ne_of_gt hm0) f4]
  simp

/-- Comparison of a computed value `kv`, close to `A * ρ`, with a computed value `w`, close
to `A`, when `ρ` is close to one. -/
theorem final_close (A ρ kv w e c u t : ℚ) (hA : 0 < A) (hρ0 : 0 ≤ ρ)
    (h1 : |kv - A * ρ| ≤ e * (A * ρ)) (hρ1 : ρ * (1 - c) ≤ 1) (hρ2 : 1 ≤ ρ * (1 + c))
    (hw : |w - A| ≤ u * A) (he : e ≤ 1) (hc : 0 ≤ c) (ht : 0 ≤ t)
    (n1 : 1 + e ≤ (1 + t) * (1 - u) * (1 - c))
    (n2 : ((1 + u) - t * (1 - u)) * (1 + c) ≤ 1 - e) :
    |kv - w| ≤ t * w := by
  obtain ⟨a1, a2⟩ := abs_le.mp h1
  obtain ⟨w1, w2⟩ := abs_le.mp hw
  have hAρ : 0 ≤ A * ρ := mul_nonneg hA.le hρ0
  have up : (1 + e) * ρ ≤ (1 + t) * (1 - u) := by
    have h := mul_le_mul_of_nonneg_right n1 hρ0
    have h2 : (1 + t) * (1 - u) * (1 - c) * ρ ≤ (1 + t) * (1 - u) := by
      have hnn : 0 ≤ (1 + t) * (1 - u) := by
        by_contra hneg
        have : (1 + t) * (1 - u) * (1 - c) ≤ 0 ∨ 0 < (1 + t) * (1 - u) * (1 - c) :=
          le_or_lt _ _
        nlinarith
      calc (1 + t) * (1 - u) * (1 - c) * ρ = (1 + t) * (1 - u) * (ρ * (1 - c)) := by ring
        _ ≤ (1 + t) * (1 - u) * 1 := mul_le_mul_of_nonneg_left hρ1 hnn
        _ = (1 + t) * (1 - u) := by ring
    linarith
  have lo : (1 + u) - t * (1 - u) ≤ (1 - e) * ρ := by
    have h3 : (1 - e) * 1 ≤ (1 - e) * (ρ * (1 + c)) :=
      mul_le_mul_of_nonneg_left hρ2 (by linarith)
    have h4 : ((1 + u) - t * (1 - u)) * (1 + c) ≤ (1 - e) * ρ * (1 + c) := by linarith
    exact le_of_mul_le_mul_right h4 (by linarith)
  have hup : (1 + e) * ρ * A ≤ (1 + t) * (1 - u) * A := mul_le_mul_of_nonneg_right up hA.le
  have hlo : ((1 + u) - t * (1 - u)) * A ≤ (1 - e) * ρ * A :=
    mul_le_mul_of_nonneg_right lo hA.le
  rw [abs_le]
  constructor
  · nlinarith
  · nlinarith

/-! ## The dispersion relation in binary64 -/

/-- One term of `k()·v`: the product of a computed component of `k()` with the component of
`v` it comes from. -/
theorem dot_term (S q4 q : ℚ) (s t : Bool) (hS : Band (-400) 400 S)
    (hq : q = 0 ∨ Band (-100) 100 q) (h0 : 0 ≤ q4)
    (c : |q4 - S * q| ≤ 404 / (100 * 2 ^ 53) * (S * q)) :
    Dbl.mul (Dbl.fin s q4) (Dbl.fin t q) = Dbl.fin (xor s t) (rnd (q4 * q)) ∧
      |rnd (q4 * q) - S * (q * q)| ≤ 505 / (100 * 2 ^ 53) * (S * (q * q)) := by
  have hq0 := zband_nonneg hq
  have c1 := close_mul_right q hq0 c
  rw [mul_assoc] at c1
  have b := zband_mul_left hS (zband_sq hq)
  obtain ⟨f, c2⟩ := band_step _ (505 / (100 * 2 ^ 53)) _ (q4 * q) (mul_nonneg h0 hq0) c1
    (by norm_num) (by norm_num) (zband_mono b (by norm_num) (by norm_num))
  exact ⟨mul_fin_of_lt _ _ _ _ f, c2⟩

/-- The computed `omega()` for a wavelength of magnitude between `2^-100` and `2^100`. -/
theorem Ray.omega_band (r : Ray Dbl) (sl : Bool) (l : ℚ)
    (hl : r.wavelength = Dbl.fin sl l) (hlb : Band (-100) 100 l) :
    ∃ w : ℚ, Ray.omega r = Dbl.fin sl w ∧
      |w - 884279719003555 / 140737488355328 / l|
        ≤ 101 / (100 * 2 ^ 53) * (884279719003555 / 140737488355328 / l) := by
  have hb := twoPI_band.div hlb
  obtain ⟨f, c⟩ := band_step 0 (101 / (100 * 2 ^ 53)) _
    (884279719003555 / 140737488355328 / l) hb.pos.le (close_exact _) (by norm_num)
    (by norm_num) (Or.inr (hb.mono (by norm_num) (by norm_num)))
  refine ⟨_, ?_, c⟩
  unfold Ray.omega
  rw [twoPI_eq, hl, div_fin_of_lt _ _ _ _ (ne_of_gt hlb.pos) f]
  simp

/-- The magnitude of a vector whose components are all zeros is zero. -/
theorem magnitude_zero (v : Vec3 Dbl) (sx sy sz : Bool)
    (hx : v.x = Dbl.fin sx 0) (hy : v.y = Dbl.fin sy 0) (hz : v.z = Dbl.fin sz 0) :
    Vec3.Magnitude v = Dbl.fin false 0 := by
  unfold Vec3.Magnitude
  rw [hx, hy, hz]
  simp [Dbl.mul, round_zero, Dbl.add, Dbl.sval, Dbl.sqrt]

/-- The computed `k()·v` and `omega()` of a ray in range: both finite with the sign bit of
the wavelength, and their magnitudes agree up to a relative error of `2^-48`. -/
theorem Ray.dot_band (r : Ray Dbl) (sl sx sy sz : Bool) (l qx qy qz : ℚ)
    (hl : r.wavelength = Dbl.fin sl l) (hlb : Band (-100) 100 l)
    (hx : r.v.x = Dbl.fin sx qx) (hy : r.v.y = Dbl.fin sy qy) (hz : r.v.z = Dbl.fin sz qz)
    (bx : qx = 0 ∨ Band (-100) 100 qx) (bY : qy = 0 ∨ Band (-100) 100 qy)
    (bz : qz = 0 ∨ Band (-100) 100 qz) (hne : qx ≠ 0 ∨ qy ≠ 0 ∨ qz ≠ 0) :
    ∃ kv w : ℚ, DotProduct (Ray.k r) r.v = Dbl.fin sl kv ∧ Ray.omega r = Dbl.fin sl w ∧
      0 < w ∧ |kv - w| ≤ 1 / 2 ^ 48 * w := by
  obtain ⟨mm, hm, hmb, cm⟩ := magnitude_band (by norm_num) (by norm_num) r.v sx sy sz qx qy qz
    hx hy hz bx bY bz hne
  have hmb2 : Band (-101) 102 mm := hmb.mono (by norm_num) (by norm_num)
  obtain ⟨kx, ex, nx, cx⟩ := Ray.kOf_band r sl l mm hl hlb hm hmb2 sx qx bx
  obtain ⟨ky, ey, ny, cy⟩ := Ray.kOf_band r sl l mm hl hlb hm hmb2 sy qy bY
  obtain ⟨kz, ez, nz, cz⟩ := Ray.kOf_band r sl l mm hl hlb hm hmb2 sz qz bz
  obtain ⟨w, ew, cw⟩ := Ray.omega_band r sl l hl hlb
  set P : ℚ := 884279719003555 / 140737488355328 with hP
  have hl0 := hlb.pos
  have hm0 := hmb.pos
  have hmm : Band (-202) 204 (mm ^ 2) := by
    have := hmb2.mul hmb2
    rw [← pow_two] at this
    exact this.mono (by norm_num) (by norm_num)
  have hS : Band (-302) 305 (P / (l * mm ^ 2)) :=
    (twoPI_band.div (hlb.mul hmm)).mono (by norm_num) (by norm_num)
  set S : ℚ := P / (l * mm ^ 2) with hSdef
  have hS' : Band (-400) 400 S := hS.mono (by norm_num) (by norm_num)
  obtain ⟨px, dx⟩ := dot_term S kx qx (xor sx sl) sx hS' bx nx cx
  obtain ⟨py, dy⟩ := dot_term S ky qy (xor sy sl) sy hS' bY ny cy
  obtain ⟨pz, dz⟩ := dot_term S kz qz (xor sz sl) sz hS' bz nz cz
  have sgn : ∀ a b : Bool, xor (xor a b) a = b := by decide
  rw [sgn] at px py pz
  -- the first sum
  have b1 := zband_add (zband_mul_left hS' (zband_sq bx)) (zband_mul_left hS' (zband_sq bY))
  obtain ⟨f1, c1⟩ := band_step _ (606 / (100 * 2 ^ 53)) _ (rnd (kx * qx) + rnd (ky * qy))
    (add_nonneg (rnd_nonneg _) (rnd_nonneg _)) (close_add dx dy) (by norm_num)
    (by norm_num) (zband_mono b1 (by norm_num) (by norm_num))
  -- the second sum
  have b2 := zband_add (zband_mono b1 le_rfl (le_refl _))
    (zband_mono (zband_mul_left hS' (zband_sq bz)) le_rfl (by norm_num))
  have nSz : 0 ≤ S * (qz * qz) := mul_nonneg hS.pos.le (mul_self_nonneg _)
  obtain ⟨f2, c2⟩ := band_step _ (707 / (100 * 2 ^ 53)) _
    (rnd (rnd (kx * qx) + rnd (ky * qy)) + rnd (kz * qz))
    (add_nonneg (rnd_nonneg _) (rnd_nonneg _))
    (close_add c1 (close_weaken nSz (by norm_num) dz)) (by norm_num) (by norm_num)
    (zband_mono b2 (by norm_num) (by norm_num))
  have hdot : DotProduct (Ray.k r) r.v
      = Dbl.fin sl (rnd (rnd (rnd (kx * qx) + rnd (ky * qy)) + rnd (kz * qz))) := by
    rw [Ray.k_eq_kOf]
    unfold DotProduct
    simp only []
    rw [hx, hy, hz, ex, ey, ez, px, py, pz,
      add_fin_same _ _ _ (rnd_nonneg _) (rnd_nonneg _) f1,
      add_fin_same _ _ _ (rnd_nonneg _) (rnd_nonneg _) f2]
  set V : ℚ := qx * qx + qy * qy + qz * qz with hV
  have hVpos : 0 < V := by
    rcases hne with h | h | h
    · have := mul_self_pos.mpr h
      have := mul_self_nonneg qy
      have := mul_self_nonneg qz
      linarith
    · have := mul_self_pos.mpr h
      have := mul_self_nonneg qx
      have := mul_self_nonneg qz
      linarith
    · have := mul_self_pos.mpr h
      have := mul_self_nonneg qx
      have := mul_self_nonneg qy
      linarith
  have hmm0 : 0 < mm ^ 2 := hmm.pos
  have hA : 0 < P / l := div_pos twoPI_band.pos hl0
  have exact : S * (qx * qx) + S * (qy * qy) + S * (qz * qz) = P / l * (V / mm ^ 2) := by
    have hl1 : l ≠ 0 := ne_of_gt hl0
    have hm1 : mm ≠ 0 := ne_of_gt hm0
    rw [hSdef, hV]
    field_simp
    ring
  rw [exact] at c2
  obtain ⟨m1, m2⟩ := abs_le.mp cm
  have r1 : V / mm ^ 2 * (1 - 6 / 2 ^ 53) ≤ 1 := by
    rw [div_mul_eq_mul_div, div_le_one hmm0]
    linarith
  have r2 : 1 ≤ V / mm ^ 2 * (1 + 6 / 2 ^ 53) := by
    rw [div_mul_eq_mul_div, one_le_div hmm0]
    linarith
  have hfin := final_close (P / l) (V / mm ^ 2) _ w (707 / (100 * 2 ^ 53)) (6 / 2 ^ 53)
    (101 / (100 * 2 ^ 53)) (1 / 2 ^ 48) hA (div_nonneg hVpos.le hmm0.le) c2 r1 r2 cw
    (by norm_num) (by norm_num) (by norm_num) (by norm_num) (by norm_num)
  refine ⟨_, w, hdot, ew, ?_, hfin⟩
  have := (abs_le.mp cw).1
  have h3 : (101 : ℚ) / (100 * 2 ^ 53) * (P / l) ≤ 1 / 2 * (P / l) :=
    mul_le_mul_of_nonneg_right (by norm_num) hA.le
  linarith

/-- The components of a velocity in range whose computed magnitude is not zero are not all
zero. -/
theorem components_ne_zero (v : Vec3 Dbl) (sx sy sz : Bool) (qx qy qz : ℚ)
    (hx : v.x = Dbl.fin sx qx) (hy : v.y = Dbl.fin sy qy) (hz : v.z = Dbl.fin sz qz)
    (hv : Dbl.eq (Vec3.Magnitude v) (Dbl.ofRat 0) = false) :
    qx ≠ 0 ∨ qy ≠ 0 ∨ qz ≠ 0 := by
  by_contra hcon
  push_neg at hcon
  obtain ⟨h1, h2, h3⟩ := hcon
  subst h1 h2 h3
  rw [magnitude_zero v sx sy sz hx hy hz] at hv
  exact ne_zero_of_eq_false hv rfl

/-- C19 (counterexample): the ray with `v = (1, 1, 1)` and `wavelength = 1`.  The wavelength
and the computed `|v|` are not zero, yet the computed `k()·v` is
`7074237752028441 / 2^50` (6.283185307179587) while `omega()` is `7074237752028440 / 2^50`
(6.283185307179586): the two doubles differ in the last place. -/
theorem Ray.dispersion_inexact :
    Dbl.eq (Dbl.fin false 1) (Dbl.ofRat 0) = false ∧
    Dbl.eq (Vec3.Magnitude (⟨Dbl.fin false 1, Dbl.fin false 1, Dbl.fin false 1⟩ : Vec3 Dbl))
      (Dbl.ofRat 0) = false ∧
    DotProduct (Ray.k (Ray.mk ⟨Dbl.fin false 0, Dbl.fin false 0, Dbl.fin false 0⟩
        ⟨Dbl.fin false 1, Dbl.fin false 1, Dbl.fin false 1⟩ (Dbl.fin false 0) (Dbl.fin false 1)
        false false)) ⟨Dbl.fin false 1, Dbl.fin false 1, Dbl.fin false 1⟩
      = Dbl.fin false (7074237752028441 / 1125899906842624) ∧
    Ray.omega (Ray.mk ⟨Dbl.fin false 0, Dbl.fin false 0, Dbl.fin false 0⟩
        ⟨Dbl.fin false 1, Dbl.fin false 1, Dbl.fin false 1⟩ (Dbl.fin false 0) (Dbl.fin false 1)
        false false)
      = Dbl.fin false (7074237752028440 / 1125899906842624) ∧
    Dbl.eq (Dbl.fin false (7074237752028441 / 1125899906842624))
      (Dbl.fin false (7074237752028440 / 1125899906842624)) = false := by
  refine ⟨by decide!, by decide!, by decide!, by decide!, by decide!⟩

/-- C19 (amended): for every ray whose wavelength is finite, not zero and of magnitude
between `2^-100` and `2^100`, whose velocity components are each zero or of magnitude
between `2^-100` and `2^100`, and whose computed `|v|` is not zero, the computed `k()·v` and
`omega()` are finite, `omega()` is not zero, and the two agree up to a relative error of
`2^-48`, for any speed. -/
theorem Ray.dispersion_rounded (r : Ray Dbl)
    (hw : Dbl.inBand r.wavelength = true)
    (hw0 : Dbl.eq r.wavelength (Dbl.ofRat 0) = false)
    (hx : Dbl.inBand r.v.x = true) (hy : Dbl.inBand r.v.y = true)
    (hz : Dbl.inBand r.v.z = true)
    (hv : Dbl.eq (Vec3.Magnitude r.v) (Dbl.ofRat 0) = false) :
    Dbl.isFinite (DotProduct (Ray.k r) r.v) = true ∧ Dbl.isFinite (Ray.omega r) = true ∧
      Dbl.toRat (Ray.omega r) ≠ 0 ∧
      |Dbl.toRat (DotProduct (Ray.k r) r.v) - Dbl.toRat (Ray.omega r)|
        ≤ |Dbl.toRat (Ray.omega r)| / 2 ^ 48 := by
  obtain ⟨sl, l, hl, bl⟩ := inBand_fin hw
  obtain ⟨sx, qx, ex, bx⟩ := inBand_fin hx
  obtain ⟨sy, qy, ey, bY⟩ := inBand_fin hy
  obtain ⟨sz, qz, ez, bz⟩ := inBand_fin hz
  rw [hl] at hw0
  have hl0 := ne_zero_of_eq_false hw0
  have hlb : Band (-100) 100 l := by
    rcases bl with h | h
    · exact absurd h hl0
    · exact h
  have hne := components_ne_zero r.v sx sy sz qx qy qz ex ey ez hv
  obtain ⟨kv, w, hd, ho, hwpos, hc⟩ :=
    Ray.dot_band r sl sx sy sz l qx qy qz hl hlb ex ey ez bx bY bz hne
  rw [hd, ho]
  refine ⟨rfl, rfl, ?_, ?_⟩
  · cases sl with
    | false => simpa [Dbl.toRat, Dbl.sval] using ne_of_gt hwpos
    | true => simpa [Dbl.toRat, Dbl.sval] using ne_of_gt hwpos
  · simp only [Dbl.toRat]
    rw [sval_sub_abs]
    have : |Dbl.sval sl w| = w := by
      cases sl with
      | false => simp [Dbl.sval, abs_of_pos hwpos]
      | true => simp [Dbl.sval, abs_of_pos hwpos]
    rw [this]
    calc |kv - w| ≤ 1 / 2 ^ 48 * w := hc
      _ = w / 2 ^ 48 := by ring

/-- C19 (witness): the ray of the counterexample, with `v = (1, 1, 1)` and
`wavelength = 1`. -/
theorem Ray.dispersion_rounded_witness :
    |Dbl.toRat (DotProduct (Ray.k (Ray.mk ⟨Dbl.fin false 0, Dbl.fin false 0, Dbl.fin false 0⟩
        ⟨Dbl.fin false 1, Dbl.fin false 1, Dbl.fin false 1⟩ (Dbl.fin false 0) (Dbl.fin false 1)
        false false)) ⟨Dbl.fin false 1, Dbl.fin false 1, Dbl.fin false 1⟩)
      - Dbl.toRat (Ray.omega (Ray.mk ⟨Dbl.fin false 0, Dbl.fin false 0, Dbl.fin false 0⟩
        ⟨Dbl.fin false 1, Dbl.fin false 1, Dbl.fin false 1⟩ (Dbl.fin false 0) (Dbl.fin false 1)
        false false))|
      ≤ |Dbl.toRat (Ray.omega (Ray.mk ⟨Dbl.fin false 0, Dbl.fin false 0, Dbl.fin false 0⟩
        ⟨Dbl.fin false 1, Dbl.fin false 1, Dbl.fin false 1⟩ (Dbl.fin false 0) (Dbl.fin false 1)
        false false))| / 2 ^ 48 :=
  (Ray.dispersion_rounded (Ray.mk ⟨Dbl.fin false 0, Dbl.fin false 0, Dbl.fin false 0⟩
      ⟨Dbl.fin false 1, Dbl.fin false 1, Dbl.fin false 1⟩ (Dbl.fin false 0) (Dbl.fin false 1)
      false false) (by decide!) (by decide!) (by decide!) (by decide!) (by decide!)
    (by decide!)).2.2.2

/-- C11 (counterexample): the ray with `v = (1, 3, 0)` and `wavelength = 1`.  The wavelength
is positive and the computed `|v|` is not zero; the computed `k()` is
`(5659390201622751 / 2^53, 8489085302434127 / 2^52, 0)`, and no real scalar `s` gives
`k() = s * v`, since three times the first component is not the second. -/
theorem Ray.k_direction_lost :
    Dbl.lt (Dbl.ofRat 0) (Dbl.fin false 1) = true ∧
    Dbl.eq (Vec3.Magnitude (⟨Dbl.fin false 1, Dbl.fin false 3, Dbl.fin false 0⟩ : Vec3 Dbl))
      (Dbl.ofRat 0) = false ∧
    (Ray.k (Ray.mk ⟨Dbl.fin false 0, Dbl.fin false 0, Dbl.fin false 0⟩
        ⟨Dbl.fin false 1, Dbl.fin false 3, Dbl.fin false 0⟩ (Dbl.fin false 0) (Dbl.fin false 1)
        false false)).x = Dbl.fin false (5659390201622751 / 9007199254740992) ∧
    (Ray.k (Ray.mk ⟨Dbl.fin false 0, Dbl.fin false 0, Dbl.fin false 0⟩
        ⟨Dbl.fin false 1, Dbl.fin false 3, Dbl.fin false 0⟩ (Dbl.fin false 0) (Dbl.fin false 1)
        false false)).y = Dbl.fin false (8489085302434127 / 4503599627370496) ∧
    (Ray.k (Ray.mk ⟨Dbl.fin false 0, Dbl.fin false 0, Dbl.fin false 0⟩
        ⟨Dbl.fin false 1, Dbl.fin false 3, Dbl.fin false 0⟩ (Dbl.fin false 0) (Dbl.fin false 1)
        false false)).z = Dbl.fin false 0 ∧
    ¬ ∃ s : ℝ, 0 < s ∧ (5659390201622751 / 9007199254740992 : ℝ) = s * 1 ∧
      (8489085302434127 / 4503599627370496 : ℝ) = s * 3 ∧ (0 : ℝ) = s * 0 := by
  refine ⟨by decide!, by decide!, by decide!, by decide!, by decide!, ?_⟩
  rintro ⟨s, _, h1, h2, _⟩
  rw [mul_one] at h1
  rw [← h1] at h2
  norm_num at h2

/-- C11 (amended): for every ray whose wavelength is positive and between `2^-100` and
`2^100`, whose velocity components are each zero or of magnitude between `2^-100` and
`2^100`, and whose computed `|v|` is not zero, there is one positive scalar
`s = (2 * PI) / (wavelength * |v|^2)`, formed from the computed doubles, such that every
component of `k()` is finite and equal to `s` times the same component of `v` up to a
relative error of `4.04 * 2^-53`; a zero component stays zero and a non-zero one keeps its
sign. -/
theorem Ray.k_direction_rounded (r : Ray Dbl)
    (hw : Dbl.inBand r.wavelength = true)
    (hw0 : Dbl.lt (Dbl.ofRat 0) r.wavelength = true)
    (hx : Dbl.inBand r.v.x = true) (hy : Dbl.inBand r.v.y = true)
    (hz : Dbl.inBand r.v.z = true)
    (hv : Dbl.eq (Vec3.Magnitude r.v) (Dbl.ofRat 0) = false) :
    0 < Dbl.toRat (Dbl.mul (Dbl.ofRat 2) PI)
        / (Dbl.toRat r.wavelength * Dbl.toRat (Vec3.Magnitude r.v) ^ 2) ∧
    (Dbl.isFinite (Ray.k r).x = true ∧ Dbl.isFinite (Ray.k r).y = true ∧
      Dbl.isFinite (Ray.k r).z = true) ∧
    |Dbl.toRat (Ray.k r).x - Dbl.toRat (Dbl.mul (Dbl.ofRat 2) PI)
        / (Dbl.toRat r.wavelength * Dbl.toRat (Vec3.Magnitude r.v) ^ 2) * Dbl.toRat r.v.x|
      ≤ 404 / (100 * 2 ^ 53) * |Dbl.toRat (Dbl.mul (Dbl.ofRat 2) PI)
        / (Dbl.toRat r.wavelength * Dbl.toRat (Vec3.Magnitude r.v) ^ 2) * Dbl.toRat r.v.x| ∧
    |Dbl.toRat (Ray.k r).y - Dbl.toRat (Dbl.mul (Dbl.ofRat 2) PI)
        / (Dbl.toRat r.wavelength * Dbl.toRat (Vec3.Magnitude r.v) ^ 2) * Dbl.toRat r.v.y|
      ≤ 404 / (100 * 2 ^ 53) * |Dbl.toRat (Dbl.mul (Dbl.ofRat 2) PI)
        / (Dbl.toRat r.wavelength * Dbl.toRat (Vec3.Magnitude r.v) ^ 2) * Dbl.toRat r.v.y| ∧
    |Dbl.toRat (Ray.k r).z - Dbl.toRat (Dbl.mul (Dbl.ofRat 2) PI)
        / (Dbl.toRat r.wavelength * Dbl.toRat (Vec3.Magnitude r.v) ^ 2) * Dbl.toRat r.v.z|
      ≤ 404 / (100 * 2 ^ 53) * |Dbl.toRat (Dbl.mul (Dbl.ofRat 2) PI)
        / (Dbl.toRat r.wavelength * Dbl.toRat (Vec3.Magnitude r.v) ^ 2) * Dbl.toRat r.v.z| := by
  obtain ⟨sl, l, hl, bl⟩ := inBand_fin hw
  obtain ⟨sx, qx, ex, bx⟩ := inBand_fin hx
  obtain ⟨sy, qy, ey, bY⟩ := inBand_fin hy
  obtain ⟨sz, qz, ez, bz⟩ := inBand_fin hz
  rw [hl] at hw0
  obtain ⟨hs, hlb⟩ := pos_of_lt_zero bl hw0
  subst hs
  have hne := components_ne_zero r.v sx sy sz qx qy qz ex ey ez hv
  obtain ⟨mm, hm, hmb, -⟩ := magnitude_band (by norm_num) (by norm_num) r.v sx sy sz qx qy qz
    ex ey ez bx bY bz hne
  have hmb2 : Band (-101) 102 mm := hmb.mono (by norm_num) (by norm_num)
  obtain ⟨kx, fx, nx, cx⟩ := Ray.kOf_band r false l mm hl hlb hm hmb2 sx qx bx
  obtain ⟨ky, fy, ny, cy⟩ := Ray.kOf_band r false l mm hl hlb hm hmb2 sy qy bY
  obtain ⟨kz, fz, nz, cz⟩ := Ray.kOf_band r false l mm hl hlb hm hmb2 sz qz bz
  have hS : 0 < (884279719003555 / 140737488355328 : ℚ) / (l * mm ^ 2) :=
    div_pos (by norm_num) (mul_pos hlb.pos (pow_pos hmb.pos 2))
  rw [Ray.k_eq_kOf]
  simp only [ex, ey, ez, fx, fy, fz, hl, hm, twoPI_eq, Dbl.toRat, Dbl.isFinite, Bool.xor_false]
  simp only [Dbl.sval, Bool.false_eq_true, if_false]
  refine ⟨hS, ⟨trivial, trivial, trivial⟩, ?_, ?_, ?_⟩
  · exact sval_close sx kx qx _ _ (mul_nonneg hS.le (zband_nonneg bx)) cx
  · exact sval_close sy ky qy _ _ (mul_nonneg hS.le (zband_nonneg bY)) cy
  · exact sval_close sz kz qz _ _ (mul_nonneg hS.le (zband_nonneg bz)) cz

/-- C11 (witness): the ray of the counterexample, with `v = (1, 3, 0)` and
`wavelength = 1`. -/
theorem Ray.k_direction_rounded_witness :
    Dbl.isFinite (Ray.k (Ray.mk ⟨Dbl.fin false 0, Dbl.fin false 0, Dbl.fin false 0⟩
        ⟨Dbl.fin false 1, Dbl.fin false 3, Dbl.fin false 0⟩ (Dbl.fin false 0) (Dbl.fin false 1)
        false false)).x = true ∧
    Dbl.isFinite (Ray.k (Ray.mk ⟨Dbl.fin false 0, Dbl.fin false 0, Dbl.fin false 0⟩
        ⟨Dbl.fin false 1, Dbl.fin false 3, Dbl.fin false 0⟩ (Dbl.fin false 0) (Dbl.fin false 1)
        false false)).y = true ∧
    Dbl.isFinite (Ray.k (Ray.mk ⟨Dbl.fin false 0, Dbl.fin false 0, Dbl.fin false 0⟩
        ⟨Dbl.fin false 1, Dbl.fin false 3, Dbl.fin false 0⟩ (Dbl.fin false 0) (Dbl.fin false 1)
        false false)).z = true :=
  (Ray.k_direction_rounded (Ray.mk ⟨Dbl.fin false 0, Dbl.fin false 0, Dbl.fin false 0⟩
      ⟨Dbl.fin false 1, Dbl.fin false 3, Dbl.fin false 0⟩ (Dbl.fin false 0) (Dbl.fin false 1)
      false false) (by decide!) (by decide!) (by decide!) (by decide!) (by decide!)
    (by decide!)).2.1

/-! ## The magnitude of the wavevector in binary64 -/

/-- The computed `|k()|`, `omega()` and `|v|` of a ray in range with a positive wavelength:
`|k()|` agrees with the quotient `omega() / |v|` up to a relative error of `2^-48`. -/
theorem Ray.kmag_band (r : Ray Dbl) (sx sy sz : Bool) (l qx qy qz : ℚ)
    (hl : r.wavelength = Dbl.fin false l) (hlb : Band (-100) 100 l)
    (hx : r.v.x = Dbl.fin sx qx) (hy : r.v.y = Dbl.fin sy qy) (hz : r.v.z = Dbl.fin sz qz)
    (bx : qx = 0 ∨ Band (-100) 100 qx) (bY : qy = 0 ∨ Band (-100) 100 qy)
    (bz : qz = 0 ∨ Band (-100) 100 qz) (hne : qx ≠ 0 ∨ qy ≠ 0 ∨ qz ≠ 0) :
    ∃ K w mm : ℚ, Vec3.Magnitude (Ray.k r) = Dbl.fin false K ∧
      Ray.omega r = Dbl.fin false w ∧ Vec3.Magnitude r.v = Dbl.fin false mm ∧
      0 < K ∧ 0 < w ∧ 0 < mm ∧ |K - w / mm| ≤ 1 / 2 ^ 48 * (w / mm) := by
  obtain ⟨mm, hm, hmb, cm⟩ := magnitude_band (by norm_num) (by norm_num) r.v sx sy sz qx qy qz
    hx hy hz bx bY bz hne
  have hmb2 : Band (-101) 102 mm := hmb.mono (by norm_num) (by norm_num)
  obtain ⟨kx, ex, nx, cx⟩ := Ray.kOf_band r false l mm hl hlb hm hmb2 sx qx bx
  obtain ⟨ky, ey, ny, cy⟩ := Ray.kOf_band r false l mm hl hlb hm hmb2 sy qy bY
  obtain ⟨kz, ez, nz, cz⟩ := Ray.kOf_band r false l mm hl hlb hm hmb2 sz qz bz
  obtain ⟨w, ew, cw⟩ := Ray.omega_band r false l hl hlb
  rw [Bool.xor_false] at ex ey ez
  set P : ℚ := 884279719003555 / 140737488355328 with hP
  have hl0 := hlb.pos
  have hm0 := hmb.pos
  have hmm : Band (-202) 204 (mm ^ 2) := by
    have := hmb2.mul hmb2
    rw [← pow_two] at this
    exact this.mono (by norm_num) (by norm_num)
  have hS : Band (-302) 305 (P / (l * mm ^ 2)) :=
    (twoPI_band.div (hlb.mul hmm)).mono (by norm_num) (by norm_num)
  set S : ℚ := P / (l * mm ^ 2) with hSdef
  -- the components of k are in range
  have gx := zband_close (zband_mul_left hS bx) cx (by norm_num)
  have gy := zband_close (zband_mul_left hS bY) cy (by norm_num)
  have gz := zband_close (zband_mul_left hS bz) cz (by norm_num)
  have pos_of : ∀ q k : ℚ, (q = 0 ∨ Band (-100) 100 q) → q ≠ 0 →
      |k - S * q| ≤ 404 / (100 * 2 ^ 53) * (S * q) → k ≠ 0 := by
    intro q k hq hq0 c
    have hqpos : 0 < q := lt_of_le_of_ne (zband_nonneg hq) (Ne.symm hq0)
    have hSq : 0 < S * q := mul_pos hS.pos hqpos
    have := (abs_le.mp c).1
    have h3 : (404 : ℚ) / (100 * 2 ^ 53) * (S * q) ≤ 1 / 2 * (S * q) :=
      mul_le_mul_of_nonneg_right (by norm_num) hSq.le
    intro hk
    rw [hk] at this
    linarith
  have hnek : kx ≠ 0 ∨ ky ≠ 0 ∨ kz ≠ 0 := by
    rcases hne with h | h | h
    · exact Or.inl (pos_of qx kx bx h cx)
    · exact Or.inr (Or.inl (pos_of qy ky bY h cy))
    · exact Or.inr (Or.inr (pos_of qz kz bz h cz))
  have hkx : (Ray.k r).x = Dbl.fin sx kx := by rw [Ray.k_eq_kOf]; simp only []; rw [hx, ex]
  have hky : (Ray.k r).y = Dbl.fin sy ky := by rw [Ray.k_eq_kOf]; simp only []; rw [hy, ey]
  have hkz : (Ray.k r).z = Dbl.fin sz kz := by rw [Ray.k_eq_kOf]; simp only []; rw [hz, ez]
  obtain ⟨K, hK, hKb, cK⟩ := magnitude_band (by norm_num) (by norm_num) (Ray.k r) sx sy sz
    kx ky kz hkx hky hkz gx gy gz hnek
  -- the squares
  have sx2 := close_sq (mul_nonneg hS.pos.le (zband_nonneg bx)) (by norm_num) cx
  have sy2 := close_sq (mul_nonneg hS.pos.le (zband_nonneg bY)) (by norm_num) cy
  have sz2 := close_sq (mul_nonneg hS.pos.le (zband_nonneg bz)) (by norm_num) cz
  have ssum := close_add (close_add sx2 sy2) sz2
  have ct := close_trans cK ssum (by norm_num)
  set V : ℚ := qx * qx + qy * qy + qz * qz with hV
  have hVpos : 0 < V := by
    rcases hne with h | h | h
    · have := mul_self_pos.mpr h
      have := mul_self_nonneg qy
      have := mul_self_nonneg qz
      linarith
    · have := mul_self_pos.mpr h
      have := mul_self_nonneg qx
      have := mul_self_nonneg qz
      linarith
    · have := mul_self_pos.mpr h
      have := mul_self_nonneg qx
      have := mul_self_nonneg qy
      linarith
  have hmm0 : 0 < mm ^ 2 := hmm.pos
  have hB : 0 < P / (l * mm) := div_pos twoPI_band.pos (mul_pos hl0 hm0)
  have exact : S * qx * (S * qx) + S * qy * (S * qy) + S * qz * (S * qz)
      = (P / (l * mm)) ^ 2 * (V / mm ^ 2) := by
    have hl1 : l ≠ 0 := ne_of_gt hl0
    have hm1 : mm ≠ 0 := ne_of_gt hm0
    rw [hSdef, hV]
    field_simp
    ring
  rw [exact] at ct
  have hρ : 0 ≤ V / mm ^ 2 := div_nonneg hVpos.le hmm0.le
  have ct2 := close_weaken (mul_nonneg (sq_nonneg _) hρ)
    (show (6 / 2 ^ 53 + (2 * (404 / (100 * 2 ^ 53)) + 404 / (100 * 2 ^ 53) * (404 / (100 * 2 ^ 53)))
      + 6 / 2 ^ 53 * (2 * (404 / (100 * 2 ^ 53)) + 404 / (100 * 2 ^ 53) * (404 / (100 * 2 ^ 53)))
      : ℚ) ≤ 15 / 2 ^ 53 by norm_num) ct
  obtain ⟨m1, m2⟩ := abs_le.mp cm
  have r1 : V / mm ^ 2 * (1 - 6 / 2 ^ 53) ≤ 1 := by
    rw [div_mul_eq_mul_div, div_le_one hmm0]
    linarith
  have r2 : 1 ≤ V / mm ^ 2 * (1 + 6 / 2 ^ 53) := by
    rw [div_mul_eq_mul_div, one_le_div hmm0]
    linarith
  have cw2 := div_rel_close _ _ _ mm hm0 cw
  rw [div_div] at cw2
  have hKpos : 0 < K := hKb.pos
  have hfin := final_close_sq (P / (l * mm)) (V / mm ^ 2) K (w / mm) (15 / 2 ^ 53) (6 / 2 ^ 53)
    (101 / (100 * 2 ^ 53)) (1 / 2 ^ 48) hB hρ hKpos.le ct2 r1 r2 cw2
    (by norm_num) (by norm_num) (by norm_num) (by norm_num) (by norm_num) (by norm_num)
  refine ⟨K, w, mm, hK, ew, hm, hKpos, ?_, hm0, hfin⟩
  have := (abs_le.mp cw).1
  have hA : 0 < P / l := div_pos twoPI_band.pos hl0
  have h3 : (101 : ℚ) / (100 * 2 ^ 53) * (P / l) ≤ 1 / 2 * (P / l) :=
    mul_le_mul_of_nonneg_right (by norm_num) hA.le
  linarith

/-- C10 (amended): for every ray whose wavelength is positive and between `2^-100` and
`2^100`, whose velocity components are each zero or of magnitude between `2^-100` and
`2^100`, and whose computed `|v|` is not zero, the computed `|k()|`, `omega()` and `|v|` are
finite and positive, and `|k()|` equals the quotient `omega() / |v|` of the computed
doubles up to a relative error of `2^-48`: the magnitude of the wavevector is `2π/wavelength`
divided by the speed, up to rounding. -/
theorem Ray.k_magnitude_rounded (r : Ray Dbl)
    (hw : Dbl.inBand r.wavelength = true)
    (hw0 : Dbl.lt (Dbl.ofRat 0) r.wavelength = true)
    (hx : Dbl.inBand r.v.x = true) (hy : Dbl.inBand r.v.y = true)
    (hz : Dbl.inBand r.v.z = true)
    (hv : Dbl.eq (Vec3.Magnitude r.v) (Dbl.ofRat 0) = false) :
    (Dbl.isFinite (Vec3.Magnitude (Ray.k r)) = true ∧ Dbl.isFinite (Ray.omega r) = true ∧
      Dbl.isFinite (Vec3.Magnitude r.v) = true) ∧
    (0 < Dbl.toRat (Vec3.Magnitude (Ray.k r)) ∧ 0 < Dbl.toRat (Ray.omega r) ∧
      0 < Dbl.toRat (Vec3.Magnitude r.v)) ∧
    |Dbl.toRat (Vec3.Magnitude (Ray.k r))
        - Dbl.toRat (Ray.omega r) / Dbl.toRat (Vec3.Magnitude r.v)|
      ≤ Dbl.toRat (Ray.omega r) / Dbl.toRat (Vec3.Magnitude r.v) / 2 ^ 48 := by
  obtain ⟨sl, l, hl, bl⟩ := inBand_fin hw
  obtain ⟨sx, qx, ex, bx⟩ := inBand_fin hx
  obtain ⟨sy, qy, ey, bY⟩ := inBand_fin hy
  obtain ⟨sz, qz, ez, bz⟩ := inBand_fin hz
  rw [hl] at hw0
  obtain ⟨hs, hlb⟩ := pos_of_lt_zero bl hw0
  subst hs
  have hne := components_ne_zero r.v sx sy sz qx qy qz ex ey ez hv
  obtain ⟨K, w, mm, hK, ho, hm, pK, pw, pm, hc⟩ :=
    Ray.kmag_band r sx sy sz l qx qy qz hl hlb ex ey ez bx bY bz hne
  rw [hK, ho, hm]
  simp only [Dbl.isFinite, Dbl.toRat, Dbl.sval, Bool.false_eq_true, if_false, and_self,
    true_and]
  refine ⟨⟨pK, pw, pm⟩, ?_⟩
  calc |K - w / mm| ≤ 1 / 2 ^ 48 * (w / mm) := hc
    _ = w / mm / 2 ^ 48 := by ring

/-- C10 (witness): the ray with `v = (2, 0, 0)` and `wavelength = 1`, of speed 2: the
computed `|k()|` is the double `PI`, half of `omega()`. -/
theorem Ray.k_magnitude_rounded_witness :
    Vec3.Magnitude (Ray.k (Ray.mk ⟨Dbl.fin false 0, Dbl.fin false 0, Dbl.fin false 0⟩
        ⟨Dbl.fin false 2, Dbl.fin false 0, Dbl.fin false 0⟩ (Dbl.fin false 0) (Dbl.fin false 1)
        false false)) = PI ∧
    Dbl.eq (Vec3.Magnitude (Ray.k (Ray.mk ⟨Dbl.fin false 0, Dbl.fin false 0, Dbl.fin false 0⟩
        ⟨Dbl.fin false 2, Dbl.fin false 0, Dbl.fin false 0⟩ (Dbl.fin false 0) (Dbl.fin false 1)
        false false)))
      (Ray.omega (Ray.mk ⟨Dbl.fin false 0, Dbl.fin false 0, Dbl.fin false 0⟩
        ⟨Dbl.fin false 2, Dbl.fin false 0, Dbl.fin false 0⟩ (Dbl.fin false 0) (Dbl.fin false 1)
        false false)) = false ∧
    |Dbl.toRat (Vec3.Magnitude (Ray.k (Ray.mk
          ⟨Dbl.fin false 0, Dbl.fin false 0, Dbl.fin false 0⟩
          ⟨Dbl.fin false 2, Dbl.fin false 0, Dbl.fin false 0⟩ (Dbl.fin false 0)
          (Dbl.fin false 1) false false)))
        - Dbl.toRat (Ray.omega (Ray.mk ⟨Dbl.fin false 0, Dbl.fin false 0, Dbl.fin false 0⟩
          ⟨Dbl.fin false 2, Dbl.fin false 0, Dbl.fin false 0⟩ (Dbl.fin false 0)
          (Dbl.fin false 1) false false))
          / Dbl.toRat (Vec3.Magnitude (⟨Dbl.fin false 2, Dbl.fin false 0, Dbl.fin false 0⟩ :
            Vec3 Dbl))|
      ≤ Dbl.toRat (Ray.omega (Ray.mk ⟨Dbl.fin false 0, Dbl.fin false 0, Dbl.fin false 0⟩
          ⟨Dbl.fin false 2, Dbl.fin false 0, Dbl.fin false 0⟩ (Dbl.fin false 0)
          (Dbl.fin false 1) false false))
          / Dbl.toRat (Vec3.Magnitude (⟨Dbl.fin false 2, Dbl.fin false 0, Dbl.fin false 0⟩ :
            Vec3 Dbl)) / 2 ^ 48 :=
  ⟨by decide!, by decide!,
    (Ray.k_magnitude_rounded (Ray.mk ⟨Dbl.fin false 0, Dbl.fin false 0, Dbl.fin false 0⟩
      ⟨Dbl.fin false 2, Dbl.fin false 0, Dbl.fin false 0⟩ (Dbl.fin false 0) (Dbl.fin false 1)
      false false) (by decide!) (by decide!) (by decide!) (by decide!) (by decide!)
    (by decide!)).2.2⟩

/-! ## Finiteness of the wavevector and of the phase -/

/-- The components of `k()` and `omega()` of a ray in range are finite, of magnitude at most
`2^406` and `2^104`. -/
theorem Ray.k_within (r : Ray Dbl)
    (hw : Dbl.inBand r.wavelength = true)
    (hw0 : Dbl.eq r.wavelength (Dbl.ofRat 0) = false)
    (hx : Dbl.inBand r.v.x = true) (hy : Dbl.inBand r.v.y = true)
    (hz : Dbl.inBand r.v.z = true)
    (hv : Dbl.eq (Vec3.Magnitude r.v) (Dbl.ofRat 0) = false) :
    (Dbl.within 406 (Ray.k r).x = true ∧ Dbl.within 406 (Ray.k r).y = true ∧
      Dbl.within 406 (Ray.k r).z = true) ∧ Dbl.within 104 (Ray.omega r) = true := by
  obtain ⟨sl, l, hl, bl⟩ := inBand_fin hw
  obtain ⟨sx, qx, ex, bx⟩ := inBand_fin hx
  obtain ⟨sy, qy, ey, bY⟩ := inBand_fin hy
  obtain ⟨sz, qz, ez, bz⟩ := inBand_fin hz
  rw [hl] at hw0
  have hl0 := ne_zero_of_eq_false hw0
  have hlb : Band (-100) 100 l := by
    rcases bl with h | h
    · exact absurd h hl0
    · exact h
  have hne := components_ne_zero r.v sx sy sz qx qy qz ex ey ez hv
  obtain ⟨mm, hm, hmb, -⟩ := magnitude_band (by norm_num) (by norm_num) r.v sx sy sz qx qy qz
    ex ey ez bx bY bz hne
  have hmb2 : Band (-101) 102 mm := hmb.mono (by norm_num) (by norm_num)
  have hmm : Band (-202) 204 (mm ^ 2) := by
    have := hmb2.mul hmb2
    rw [← pow_two] at this
    exact this.mono (by norm_num) (by norm_num)
  have hS : Band (-302) 305 ((884279719003555 / 140737488355328 : ℚ) / (l * mm ^ 2)) :=
    (twoPI_band.div (hlb.mul hmm)).mono (by norm_num) (by norm_num)
  have comp : ∀ (s : Bool) (q : ℚ), (q = 0 ∨ Band (-100) 100 q) →
      Dbl.within 406 (Ray.kOf r (Dbl.fin s q)) = true := by
    intro s q hq
    obtain ⟨k, fk, nk, ck⟩ := Ray.kOf_band r sl l mm hl hlb hm hmb2 s q hq
    rw [fk]
    refine (within_iff 406 _).mpr ⟨_, k, rfl, nk, ?_⟩
    rcases zband_close (zband_mul_left hS hq) ck (by norm_num) with h | h
    · rw [h]; exact (pow2_pos _).le
    · exact (h.mono le_rfl (by norm_num)).2
  obtain ⟨w, ew, cw⟩ := Ray.omega_band r sl l hl hlb
  refine ⟨⟨?_, ?_, ?_⟩, ?_⟩
  · rw [Ray.k_eq_kOf]; simp only []; rw [ex]; exact comp sx qx bx
  · rw [Ray.k_eq_kOf]; simp only []; rw [ey]; exact comp sy qy bY
  · rw [Ray.k_eq_kOf]; simp only []; rw [ez]; exact comp sz qz bz
  · rw [ew]
    have hb := twoPI_band.div hlb
    have hwb := hb.close cw (by norm_num)
    exact (within_iff 104 _).mpr ⟨_, w, rfl, hwb.pos.le, (hwb.mono le_rfl (by norm_num)).2⟩

/-- The phase of a ray in range, at a position and a time in range, is finite. -/
theorem Ray.phase_within (r : Ray Dbl) (pos : Vec3 Dbl) (t : Dbl)
    (hk : (Dbl.within 406 (Ray.k r).x = true ∧ Dbl.within 406 (Ray.k r).y = true ∧
      Dbl.within 406 (Ray.k r).z = true) ∧ Dbl.within 104 (Ray.omega r) = true)
    (hpos : Dbl.within 100 pos.x = true ∧ Dbl.within 100 pos.y = true ∧
      Dbl.within 100 pos.z = true)
    (hp0 : Dbl.within 100 r.p0.x = true ∧ Dbl.within 100 r.p0.y = true ∧
      Dbl.within 100 r.p0.z = true)
    (ht : Dbl.within 100 t = true) (ht0 : Dbl.within 100 r.t0 = true) :
    Dbl.within 510 (Ray.phase r pos t) = true := by
  have e : Ray.phase r pos t
      = Dbl.sub (Dbl.add (Dbl.add (Dbl.mul (Ray.k r).x (Dbl.sub pos.x r.p0.x))
          (Dbl.mul (Ray.k r).y (Dbl.sub pos.y r.p0.y)))
          (Dbl.mul (Ray.k r).z (Dbl.sub pos.z r.p0.z)))
        (Dbl.mul (Ray.omega r) (Dbl.sub t r.t0)) := rfl
  rw [e]
  have dx := within_sub hpos.1 hp0.1 (by norm_num) (by norm_num)
  have dy := within_sub hpos.2.1 hp0.2.1 (by norm_num) (by norm_num)
  have dz := within_sub hpos.2.2 hp0.2.2 (by norm_num) (by norm_num)
  have dt := within_sub ht ht0 (by norm_num) (by norm_num)
  have mx := within_mul hk.1.1 dx (by norm_num) (by norm_num)
  have my := within_mul hk.1.2.1 dy (by norm_num) (by norm_num)
  have mz := within_mul hk.1.2.2 dz (by norm_num) (by norm_num)
  have mt := within_mul hk.2 dt (by norm_num) (by norm_num)
  have s1 := within_add mx my (by norm_num) (by norm_num)
  have s2 := within_add s1 (within_mono mz (by norm_num)) (by norm_num) (by norm_num)
  exact within_mono (within_sub s2 (within_mono mt (by norm_num)) (by norm_num)
    (by norm_num)) (by norm_num)

/-- The modulus of a complex number whose parts are within `ε` of the cosine and the sine of
an angle is within `2ε` of one. -/
theorem abs_sub_one_le (x y θ ε : ℝ) (hx : |x - Real.cos θ| ≤ ε) (hy : |y - Real.sin θ| ≤ ε) :
    |Complex.abs ⟨x, y⟩ - 1| ≤ 2 * ε := by
  have h1 : Complex.abs ⟨Real.cos θ, Real.sin θ⟩ = 1 := by
    rw [Complex.abs_apply, Complex.normSq_mk]
    have : Real.cos θ * Real.cos θ + Real.sin θ * Real.sin θ = 1 := by
      have := Real.cos_sq_add_sin_sq θ
      nlinarith
    rw [this, Real.sqrt_one]
  have h2 := Complex.abs.abs_abv_sub_le_abv_sub ⟨x, y⟩ ⟨Real.cos θ, Real.sin θ⟩
  rw [h1] at h2
  have h3 := Complex.abs_le_abs_re_add_abs_im
    ((⟨x, y⟩ : ℂ) - ⟨Real.cos θ, Real.sin θ⟩)
  simp only [Complex.sub_re, Complex.sub_im] at h3
  linarith

/-- C12 (amended): for every ray whose anchor `p0`, `t0` is finite, the phase at the anchor
is a zero, `phase(p0, t0) == 0`, whenever the three components of `k()` and `omega()` are
finite (this excludes `|v| = 0`, where `k()` is NaN); and they are finite when the
wavelength is not zero and of magnitude between `2^-100` and `2^100`, the velocity
components are each zero or of magnitude between `2^-100` and `2^100`, and the computed
`|v|` is not zero. -/
theorem Ray.phase_anchor_zero (r : Ray Dbl)
    (hp : Dbl.isFinite r.p0.x = true ∧ Dbl.isFinite r.p0.y = true ∧
      Dbl.isFinite r.p0.z = true)
    (ht : Dbl.isFinite r.t0 = true) :
    ((Dbl.isFinite (Ray.k r).x = true ∧ Dbl.isFinite (Ray.k r).y = true ∧
        Dbl.isFinite (Ray.k r).z = true) → Dbl.isFinite (Ray.omega r) = true →
      (∃ s : Bool, Ray.phase r r.p0 r.t0 = Dbl.fin s 0) ∧
      Dbl.eq (Ray.phase r r.p0 r.t0) (Dbl.ofRat 0) = true) ∧
    (Dbl.inBand r.wavelength = true → Dbl.eq r.wavelength (Dbl.ofRat 0) = false →
      Dbl.inBand r.v.x = true → Dbl.inBand r.v.y = true → Dbl.inBand r.v.z = true →
      Dbl.eq (Vec3.Magnitude r.v) (Dbl.ofRat 0) = false →
      Dbl.eq (Ray.phase r r.p0 r.t0) (Dbl.ofRat 0) = true) := by
  refine ⟨fun hk hw => Ray.phase_anchor_of_finite r hp ht hk hw, ?_⟩
  intro hw hw0 hx hy hz hv
  obtain ⟨⟨kx, ky, kz⟩, ko⟩ := Ray.k_within r hw hw0 hx hy hz hv
  exact (Ray.phase_anchor_of_finite r hp ht
    ⟨within_finite kx, within_finite ky, within_finite kz⟩ (within_finite ko)).2

/-- C12 (witness): the ray anchored at `(1, 2, 3)`, time `4`, with `v = (0, 0, 1)` and
`wavelength = 1/2`. -/
theorem Ray.phase_anchor_zero_witness :
    Dbl.isFinite (Ray.omega (Ray.mk ⟨Dbl.fin false 1, Dbl.fin false 2, Dbl.fin false 3⟩
      ⟨Dbl.fin false 0, Dbl.fin false 0, Dbl.fin false 1⟩ (Dbl.fin false 4)
      (Dbl.fin false (1 / 2)) false false)) = true ∧
    Dbl.eq (Vec3.Magnitude (⟨Dbl.fin false 0, Dbl.fin false 0, Dbl.fin false 1⟩ : Vec3 Dbl))
      (Dbl.ofRat 0) = false ∧
    Dbl.eq (Ray.phase (Ray.mk ⟨Dbl.fin false 1, Dbl.fin false 2, Dbl.fin false 3⟩
      ⟨Dbl.fin false 0, Dbl.fin false 0, Dbl.fin false 1⟩ (Dbl.fin false 4)
      (Dbl.fin false (1 / 2)) false false)
      ⟨Dbl.fin false 1, Dbl.fin false 2, Dbl.fin false 3⟩ (Dbl.fin false 4)) (Dbl.ofRat 0)
      = true ∧
    Dbl.eq (Ray.phase (Ray.mk ⟨Dbl.fin false 1, Dbl.fin false 2, Dbl.fin false 3⟩
      ⟨Dbl.fin false 0, Dbl.fin false 0, Dbl.fin false 1⟩ (Dbl.fin false 4)
      (Dbl.fin false (1 / 2)) false false)
      ⟨Dbl.fin false 1, Dbl.fin false 2, Dbl.fin false 3⟩ (Dbl.fin false 4)) (Dbl.ofRat 0)
      = true :=
  ⟨by decide!, by decide!,
    ((Ray.phase_anchor_zero (Ray.mk ⟨Dbl.fin false 1, Dbl.fin false 2, Dbl.fin false 3⟩
      ⟨Dbl.fin false 0, Dbl.fin false 0, Dbl.fin false 1⟩ (Dbl.fin false 4)
      (Dbl.fin false (1 / 2)) false false) ⟨rfl, rfl, rfl⟩ rfl).1
      ⟨by decide!, by decide!, by decide!⟩ (by decide!)).2,
    (Ray.phase_anchor_zero (Ray.mk ⟨Dbl.fin false 1, Dbl.fin false 2, Dbl.fin false 3⟩
      ⟨Dbl.fin false 0, Dbl.fin false 0, Dbl.fin false 1⟩ (Dbl.fin false 4)
      (Dbl.fin false (1 / 2)) false false) ⟨rfl, rfl, rfl⟩ rfl).2
      (by decide!) (by decide!) (by decide!) (by decide!) (by decide!) (by decide!)⟩

/-- C15 (counterexample): the non-failed ray with `v = (0, 0, 0)` and `wavelength = 1` (so
`wavelength > 0`), at the origin and time 0: the phase is NaN, and both parts of
`amplitude` are NaN whatever the library's `cos` and `sin` return at finite arguments.  The
modulus of the amplitude is NaN, not 1. -/
theorem Ray.amplitude_nan :
    (Ray.mk ⟨Dbl.fin false 0, Dbl.fin false 0, Dbl.fin false 0⟩
      ⟨Dbl.fin false 0, Dbl.fin false 0, Dbl.fin false 0⟩ (Dbl.fin false 0) (Dbl.fin false 1)
      false false : Ray Dbl).failed = false ∧
    Dbl.lt (Dbl.ofRat 0) (Dbl.fin false 1) = true ∧
    Ray.phase (Ray.mk ⟨Dbl.fin false 0, Dbl.fin false 0, Dbl.fin false 0⟩
      ⟨Dbl.fin false 0, Dbl.fin false 0, Dbl.fin false 0⟩ (Dbl.fin false 0) (Dbl.fin false 1)
      false false) ⟨Dbl.fin false 0, Dbl.fin false 0, Dbl.fin false 0⟩ (Dbl.fin false 0)
      = Dbl.nan ∧
    ∀ cosf sinf : ℚ → ℚ,
      Ray.amplitude cosf sinf (Ray.mk ⟨Dbl.fin false 0, Dbl.fin false 0, Dbl.fin false 0⟩
        ⟨Dbl.fin false 0, Dbl.fin false 0, Dbl.fin false 0⟩ (Dbl.fin false 0) (Dbl.fin false 1)
        false false) ⟨Dbl.fin false 0, Dbl.fin false 0, Dbl.fin false 0⟩ (Dbl.fin false 0)
        = (Dbl.nan, Dbl.nan) := by
  have h : Ray.phase (Ray.mk ⟨Dbl.fin false 0, Dbl.fin false 0, Dbl.fin false 0⟩
      ⟨Dbl.fin false 0, Dbl.fin false 0, Dbl.fin false 0⟩ (Dbl.fin false 0) (Dbl.fin false 1)
      false false) ⟨Dbl.fin false 0, Dbl.fin false 0, Dbl.fin false 0⟩ (Dbl.fin false 0)
      = Dbl.nan := by decide!
  refine ⟨rfl, by decide!, h, fun cosf sinf => ?_⟩
  simp only [Ray.amplitude, h, Dbl.neg, Dbl.libm]

/-- C15 (amended): for every ray, position and time, with `cosf` and `sinf` the values that
the library's `cos` and `sin` return at finite arguments: when the phase is not finite,
both parts of `amplitude` are NaN; the phase is finite when the wavelength is not zero and of
magnitude between `2^-100` and `2^100`, the velocity components are each zero or of
magnitude between `2^-100` and `2^100`, the computed `|v|` is not zero, and the components
of the position, of `p0`, and the times `t`, `t0` are finite of magnitude at most `2^100`;
and when the phase is finite and the library's values at `-phase` are within `ε` of the
exact cosine and sine, both parts of `amplitude` are finite and the complex modulus of the
amplitude is within `2ε` of 1. -/
theorem Ray.amplitude_modulus (cosf sinf : ℚ → ℚ) (r : Ray Dbl) (pos : Vec3 Dbl) (t : Dbl) :
    (Dbl.isFinite (Ray.phase r pos t) = false →
      Ray.amplitude cosf sinf r pos t = (Dbl.nan, Dbl.nan)) ∧
    (Dbl.inBand r.wavelength = true → Dbl.eq r.wavelength (Dbl.ofRat 0) = false →
      Dbl.inBand r.v.x = true → Dbl.inBand r.v.y = true → Dbl.inBand r.v.z = true →
      Dbl.eq (Vec3.Magnitude r.v) (Dbl.ofRat 0) = false →
      (Dbl.within 100 pos.x = true ∧ Dbl.within 100 pos.y = true ∧
        Dbl.within 100 pos.z = true) →
      (Dbl.within 100 r.p0.x = true ∧ Dbl.within 100 r.p0.y = true ∧
        Dbl.within 100 r.p0.z = true) →
      Dbl.within 100 t = true → Dbl.within 100 r.t0 = true →
      Dbl.isFinite (Ray.phase r pos t) = true) ∧
    (Dbl.isFinite (Ray.phase r pos t) = true → ∀ ε : ℝ,
      |((cosf (-Dbl.toRat (Ray.phase r pos t)) : ℚ) : ℝ)
          - Real.cos (-((Dbl.toRat (Ray.phase r pos t) : ℚ) : ℝ))| ≤ ε →
      |((sinf (-Dbl.toRat (Ray.phase r pos t)) : ℚ) : ℝ)
          - Real.sin (-((Dbl.toRat (Ray.phase r pos t) : ℚ) : ℝ))| ≤ ε →
      Dbl.isFinite (Ray.amplitude cosf sinf r pos t).1 = true ∧
      Dbl.isFinite (Ray.amplitude cosf sinf r pos t).2 = true ∧
      |Complex.abs ⟨((Dbl.toRat (Ray.amplitude cosf sinf r pos t).1 : ℚ) : ℝ),
          ((Dbl.toRat (Ray.amplitude cosf sinf r pos t).2 : ℚ) : ℝ)⟩ - 1| ≤ 2 * ε) := by
  refine ⟨fun h => ?_, ?_, fun h ε hc hs => ?_⟩
  · have h' : Dbl.isFinite (Dbl.neg (Ray.phase r pos t)) = false := by
      rw [isFinite_neg]; exact h
    simp only [Ray.amplitude, libm_nan cosf h', libm_nan sinf h']
  · intro hw hw0 hx hy hz hv hpos hp0 ht ht0
    exact within_finite
      (Ray.phase_within r pos t (Ray.k_within r hw hw0 hx hy hz hv) hpos hp0 ht ht0)
  · have h' : Dbl.isFinite (Dbl.neg (Ray.phase r pos t)) = true := by
      rw [isFinite_neg]; exact h
    obtain ⟨c1, c2⟩ := libm_fin cosf h'
    obtain ⟨s1, s2⟩ := libm_fin sinf h'
    rw [toRat_neg] at c2 s2
    refine ⟨c1, s1, ?_⟩
    simp only [Ray.amplitude, c2, s2]
    exact abs_sub_one_le _ _ _ ε hc hs

/-- C15 (witness): the ray with `v = (1, 0, 0)` and `wavelength = 1` at its own anchor, the
origin at time 0, where the phase is 0, with a library that returns `cos 0 = 1` and
`sin 0 = 0`. -/
theorem Ray.amplitude_modulus_witness :
    Dbl.isFinite (Ray.phase (Ray.mk ⟨Dbl.fin false 0, Dbl.fin false 0, Dbl.fin false 0⟩
      ⟨Dbl.fin false 1, Dbl.fin false 0, Dbl.fin false 0⟩ (Dbl.fin false 0) (Dbl.fin false 1)
      false false) ⟨Dbl.fin false 0, Dbl.fin false 0, Dbl.fin false 0⟩ (Dbl.fin false 0))
      = true ∧
    |Complex.abs ⟨((Dbl.toRat (Ray.amplitude (fun _ => 1) (fun _ => 0)
          (Ray.mk ⟨Dbl.fin false 0, Dbl.fin false 0, Dbl.fin false 0⟩
            ⟨Dbl.fin false 1, Dbl.fin false 0, Dbl.fin false 0⟩ (Dbl.fin false 0)
            (Dbl.fin false 1) false false)
          ⟨Dbl.fin false 0, Dbl.fin false 0, Dbl.fin false 0⟩ (Dbl.fin false 0)).1 : ℚ) : ℝ),
        ((Dbl.toRat (Ray.amplitude (fun _ => 1) (fun _ => 0)
          (Ray.mk ⟨Dbl.fin false 0, Dbl.fin false 0, Dbl.fin false 0⟩
            ⟨Dbl.fin false 1, Dbl.fin false 0, Dbl.fin false 0⟩ (Dbl.fin false 0)
            (Dbl.fin false 1) false false)
          ⟨Dbl.fin false 0, Dbl.fin false 0, Dbl.fin false 0⟩ (Dbl.fin false 0)).2 : ℚ) : ℝ)⟩
      - 1| ≤ 2 * 0 := by
  have h : Ray.phase (Ray.mk ⟨Dbl.fin false 0, Dbl.fin false 0, Dbl.fin false 0⟩
      ⟨Dbl.fin false 1, Dbl.fin false 0, Dbl.fin false 0⟩ (Dbl.fin false 0) (Dbl.fin false 1)
      false false) ⟨Dbl.fin false 0, Dbl.fin false 0, Dbl.fin false 0⟩ (Dbl.fin false 0)
      = Dbl.fin false 0 := by decide!
  refine ⟨by decide!, ?_⟩
  exact ((Ray.amplitude_modulus (fun _ => 1) (fun _ => 0)
    (Ray.mk ⟨Dbl.fin false 0, Dbl.fin false 0, Dbl.fin false 0⟩
      ⟨Dbl.fin false 1, Dbl.fin false 0, Dbl.fin false 0⟩ (Dbl.fin false 0) (Dbl.fin false 1)
      false false) ⟨Dbl.fin false 0, Dbl.fin false 0, Dbl.fin false 0⟩ (Dbl.fin false 0)).2.2
    (by decide!) 0 (by rw [h]; simp [Dbl.toRat, Dbl.sval])
    (by rw [h]; simp [Dbl.toRat, Dbl.sval])).2.2

end fp

end jtrace
